import Mathlib

/-!
# platformsh_config_generator: parsing and rendering

A shallow embedding of `local/platformsh/platformsh_config_generator/main.go`
(`parseLine`, `parsePHPExtensions`, `parseServices`) and theorems about it.

Modelling conventions.

* A Go `string` holding UTF-8 text is the list of its runes (`GoString`).
  `len` is the number of bytes of the UTF-8 encoding.
* `parseLine` is embedded twice. `parseLineBytes` works on the bytes of the
  line (`GoBytes`, `utf8Bytes`), as the Go code does: `line[1:]` cuts after
  the first byte. `parseLine` works on the runes and cuts after the first
  rune; it is the one `parsePHPExtensions` calls. The two select the same
  substrings when the first rune of the line takes one byte, every later
  offset being the offset of a `|` or the offset right after one, and
  `parsePHPExtensions` passes only lines that start with `| `
  (`parseLine_called_on_delimiter`); `parseLineBytes_utf8Bytes` and
  `parseLine_faithful_on_rows` prove the agreement. For a line whose first
  rune takes several bytes only `parseLineBytes` is the Go function.
* A run-time panic is an `Except.error`.
* A Go map is an association list in insertion order with pairwise distinct
  keys; `range` over a map enumerates the keys in an order chosen by the
  run time, which is a parameter (`RangeOrder`).
* `unicode.ToLower` is a parameter `lower : Char → Char`.
* The HTTP fetches and the JSON decoding are outside the model:
  `parsePHPExtensions` starts from the response body, `parseServices` from the
  decoded registry. Reading the body is taken to succeed (`scanner.Err()` is
  nil: no read error and no line beyond the buffer of `bufio.Scanner`).
-/

namespace PlatformshConfigGenerator

/-- A Go string holding UTF-8 text, as the list of its runes. -/
abbrev GoString := List Char

/-- Run-time failures of the generator. `outOfFuel` belongs to the model only:
it bounds the `for` loop of `parseLine`. -/
inductive GoError where
  | sliceOutOfRange
  | indexOutOfRange
  | negativeRepeatCount
  | nilPointer
  | outOfFuel
  deriving DecidableEq, Repr

deriving instance DecidableEq for Except

/-- Go `len(s)` for a string: the number of bytes of its UTF-8 encoding. -/
def len (s : GoString) : Nat := (s.map Char.utf8Size).sum

/-- Go `strings.HasPrefix(s, p)`. -/
def hasPrefix (s p : GoString) : Bool := p.isPrefixOf s

/-- Loop of `strings.Index`: the first offset, counted from `i`, at which `sep`
starts. The strings are lists of runes or lists of bytes. -/
def stringsIndexFrom {α : Type} [DecidableEq α] (sep : List α) : List α → Nat → Int
  | [], i => if sep = [] then (i : Int) else -1
  | c :: cs, i => if sep.isPrefixOf (c :: cs) then (i : Int) else stringsIndexFrom sep cs (i + 1)

/-- Go `strings.Index(s, sep)`: offset of the first occurrence of `sep` in `s`,
or `-1`. -/
def stringsIndex {α : Type} [DecidableEq α] (s sep : List α) : Int := stringsIndexFrom sep s 0

/-- Go `unicode.IsSpace`. -/
def isSpace (c : Char) : Bool :=
  let n := c.toNat
  n = 0x09 || n = 0x0a || n = 0x0b || n = 0x0c || n = 0x0d || n = 0x20 ||
  n = 0x85 || n = 0xa0 || n = 0x1680 || (0x2000 ≤ n && n ≤ 0x200a) ||
  n = 0x2028 || n = 0x2029 || n = 0x202f || n = 0x205f || n = 0x3000

/-- Go `strings.TrimSpace`. -/
def trimSpace (s : GoString) : GoString :=
  (s.dropWhile isSpace).rdropWhile isSpace

/-- Go `strings.Trim(s, cutset)`. -/
def stringsTrim (s cutset : GoString) : GoString :=
  (s.dropWhile (fun c => cutset.contains c)).rdropWhile (fun c => cutset.contains c)

/-- Go `strings.ToLower`, over the rune mapping `lower` (`unicode.ToLower`). -/
def stringsToLower (lower : Char → Char) (s : GoString) : GoString := s.map lower

/-- Go `strings.Join(xs, sep)`. -/
def stringsJoin (xs : List GoString) (sep : GoString) : GoString := sep.intercalate xs

/-- Go `strings.Repeat(s, count)`; panics on a negative count. -/
def stringsRepeat (s : GoString) (count : Int) : Except GoError GoString :=
  if count < 0 then .error .negativeRepeatCount
  else .ok (List.replicate count.toNat s).flatten

/-- Go slice expression `s[lo:]`, on a list of runes or of bytes. -/
def sliceFrom {α : Type} (s : List α) (lo : Int) : Except GoError (List α) :=
  if 0 ≤ lo ∧ lo ≤ (s.length : Int) then .ok (s.drop lo.toNat) else .error .sliceOutOfRange

/-- Go slice expression `s[lo:hi]`, on a list of runes or of bytes. -/
def slice {α : Type} (s : List α) (lo hi : Int) : Except GoError (List α) :=
  if 0 ≤ lo ∧ lo ≤ hi ∧ hi ≤ (s.length : Int) then .ok ((s.take hi.toNat).drop lo.toNat)
  else .error .sliceOutOfRange

/-- The cell delimiter `"|"`. -/
def pipe : GoString := ['|']

/-- The `for` loop of `parseLine`; `next` is the offset of the last delimiter
seen and `versions` the cells collected so far. -/
def parseLineLoop (line : GoString) : Nat → Int → List GoString → Except GoError (List GoString)
  | 0, _, _ => .error .outOfFuel
  | fuel + 1, next, versions =>
    let current := next + 1
    match sliceFrom line current with
    | .error e => .error e
    | .ok rest =>
      let nextIndex := stringsIndex rest pipe
      if nextIndex = -1 then .ok versions
      else
        let next' := nextIndex + current
        match slice line current next' with
        | .error e => .error e
        | .ok cell =>
          let versions' := versions ++ [trimSpace cell]
          if next' ≥ (line.length : Int) then .ok versions'
          else parseLineLoop line fuel next' versions'

/-- Go `parseLine`: the name cell and the remaining cells of a table row. -/
def parseLine (line : GoString) : Except GoError (GoString × List GoString) :=
  match sliceFrom line 1 with
  | .error e => .error e
  | .ok rest =>
    let next := stringsIndex rest pipe + 1
    match slice line 1 next with
    | .error e => .error e
    | .ok cell =>
      let name := trimSpace cell
      match parseLineLoop line (line.length + 1) next [] with
      | .error e => .error e
      | .ok versions => .ok (name, versions)


/-- A Go string as the list of its bytes. -/
abbrev GoBytes := List Nat

/-- The bytes Go holds for a rune (`utf8.EncodeRune`). -/
def runeBytes (c : Char) : GoBytes :=
  let n := c.toNat
  if n < 0x80 then [n]
  else if n < 0x800 then [0xc0 + n / 0x40, 0x80 + n % 0x40]
  else if n < 0x10000 then [0xe0 + n / 0x1000, 0x80 + n / 0x40 % 0x40, 0x80 + n % 0x40]
  else [0xf0 + n / 0x40000, 0x80 + n / 0x1000 % 0x40, 0x80 + n / 0x40 % 0x40, 0x80 + n % 0x40]

/-- The bytes of a UTF-8 text. -/
def utf8Bytes (s : GoString) : GoBytes := (s.map runeBytes).flatten

/-- The encodings of the runes of `unicode.IsSpace` that take one byte. -/
def spaceBytes1 : List GoBytes := [[0x09], [0x0a], [0x0b], [0x0c], [0x0d], [0x20]]

/-- The encodings of the runes of `unicode.IsSpace` that take two bytes:
U+0085 and U+00A0. -/
def spaceBytes2 : List GoBytes := [[0xc2, 0x85], [0xc2, 0xa0]]

/-- The encodings of the runes of `unicode.IsSpace` that take three bytes:
U+1680, U+2000 to U+200A, U+2028, U+2029, U+202F, U+205F, U+3000. -/
def spaceBytes3 : List GoBytes :=
  [[0xe1, 0x9a, 0x80], [0xe2, 0x80, 0x80], [0xe2, 0x80, 0x81], [0xe2, 0x80, 0x82],
   [0xe2, 0x80, 0x83], [0xe2, 0x80, 0x84], [0xe2, 0x80, 0x85], [0xe2, 0x80, 0x86],
   [0xe2, 0x80, 0x87], [0xe2, 0x80, 0x88], [0xe2, 0x80, 0x89], [0xe2, 0x80, 0x8a],
   [0xe2, 0x80, 0xa8], [0xe2, 0x80, 0xa9], [0xe2, 0x80, 0xaf], [0xe2, 0x81, 0x9f],
   [0xe3, 0x80, 0x80]]

/-- The width of the space rune that `utf8.DecodeRuneInString` reads at the
start of `s`, or 0 when `s` does not start with a space rune (a byte that
starts no valid encoding decodes to `utf8.RuneError`, which is no space). -/
def leadingSpaceWidth (s : GoBytes) : Nat :=
  if s.take 1 ∈ spaceBytes1 then 1
  else if s.take 2 ∈ spaceBytes2 then 2
  else if s.take 3 ∈ spaceBytes3 then 3
  else 0

/-- The width of the space rune that `utf8.DecodeLastRuneInString` reads at the
end of `s`, or 0. -/
def trailingSpaceWidth (s : GoBytes) : Nat :=
  if s.drop (s.length - 1) ∈ spaceBytes1 then 1
  else if s.drop (s.length - 2) ∈ spaceBytes2 then 2
  else if s.drop (s.length - 3) ∈ spaceBytes3 then 3
  else 0

/-- Go `strings.TrimLeftFunc(s, unicode.IsSpace)` on bytes; every step removes
at least one byte, so a fuel of the length of the string is never used up
before the string is. -/
def trimLeftSpaceBytes : Nat → GoBytes → GoBytes
  | 0, s => s
  | fuel + 1, s =>
    if leadingSpaceWidth s = 0 then s
    else trimLeftSpaceBytes fuel (s.drop (leadingSpaceWidth s))

/-- Go `strings.TrimRightFunc(s, unicode.IsSpace)` on bytes, with fuel as for
`trimLeftSpaceBytes`. -/
def trimRightSpaceBytes : Nat → GoBytes → GoBytes
  | 0, s => s
  | fuel + 1, s =>
    if trailingSpaceWidth s = 0 then s
    else trimRightSpaceBytes fuel (s.take (s.length - trailingSpaceWidth s))

/-- Go `strings.TrimSpace` on the bytes of a string. -/
def trimSpaceBytes (s : GoBytes) : GoBytes :=
  trimRightSpaceBytes s.length (trimLeftSpaceBytes s.length s)

/-- The byte of the cell delimiter, as the string `"|"`. -/
def pipeByte : GoBytes := [0x7c]

/-- The `for` loop of `parseLine`, on the bytes of the line. -/
def parseLineLoopBytes (line : GoBytes) : Nat → Int → List GoBytes →
    Except GoError (List GoBytes)
  | 0, _, _ => .error .outOfFuel
  | fuel + 1, next, versions =>
    let current := next + 1
    match sliceFrom line current with
    | .error e => .error e
    | .ok rest =>
      let nextIndex := stringsIndex rest pipeByte
      if nextIndex = -1 then .ok versions
      else
        let next' := nextIndex + current
        match slice line current next' with
        | .error e => .error e
        | .ok cell =>
          let versions' := versions ++ [trimSpaceBytes cell]
          if next' ≥ (line.length : Int) then .ok versions'
          else parseLineLoopBytes line fuel next' versions'

/-- Go `parseLine` on the bytes of the line: every offset is a byte offset, as
in the source. -/
def parseLineBytes (line : GoBytes) : Except GoError (GoBytes × List GoBytes) :=
  match sliceFrom line 1 with
  | .error e => .error e
  | .ok rest =>
    let next := stringsIndex rest pipeByte + 1
    match slice line 1 next with
    | .error e => .error e
    | .ok cell =>
      let name := trimSpaceBytes cell
      match parseLineLoopBytes line (line.length + 1) next [] with
      | .error e => .error e
      | .ok versions => .ok (name, versions)

/-- Loop of `bufio.ScanLines` over the whole body: `cur` holds, reversed, the
bytes of the line being read. A line ends at `\n`; the last line needs none;
an empty rest yields no line. -/
def scanLinesFrom : GoString → GoString → List GoString
  | [], cur => if cur = [] then [] else [cur.reverse]
  | c :: cs, cur => if c = '\n' then cur.reverse :: scanLinesFrom cs [] else scanLinesFrom cs (c :: cur)

/-- Helper `dropCR` of `bufio.ScanLines`: drop one trailing `\r`. -/
def dropCR (s : GoString) : GoString :=
  if s.getLast? = some '\r' then s.dropLast else s

/-- The lines `scanner.Text()` yields for a body, with `bufio.ScanLines`. -/
def scanLines (body : GoString) : List GoString := (scanLinesFrom body []).map dropCR

/-- Go `map[string][]string`, in insertion order. -/
abbrev ExtMap := List (GoString × List GoString)

/-- Go `m[k]` with the `ok` flag. -/
def mapGet {β : Type} (m : List (GoString × β)) (k : GoString) : Option β :=
  match m with
  | [] => none
  | (k', v) :: rest => if k' = k then some v else mapGet rest k

/-- Go `m[k] = v`. -/
def mapSet {β : Type} (m : List (GoString × β)) (k : GoString) (v : β) : List (GoString × β) :=
  match m with
  | [] => [(k, v)]
  | (k', v') :: rest => if k' = k then (k, v) :: rest else (k', v') :: mapSet rest k v

/-- The keys of a Go map. -/
def mapKeys {β : Type} (m : List (GoString × β)) : List GoString := m.map Prod.fst

/-- The order in which `range` enumerates the keys of a map: some permutation
of the keys. -/
structure RangeOrder where
  order : List GoString → List GoString
  perm : ∀ keys, (order keys).Perm keys

/-- The local variables of `parsePHPExtensions` that live across the scanning
loop, and the warnings logged so far. -/
structure ParseState where
  versions : List GoString
  orderedExtensionNames : List GoString
  extensions : ExtMap
  started : Bool
  logged : List GoString
  deriving DecidableEq

/-- The state before the first line is read. -/
def initState : ParseState :=
  { versions := [], orderedExtensionNames := [], extensions := [], started := false, logged := [] }

/-- The loop `for i, v := range available` of `parsePHPExtensions`: the labels
`versions[i]` of the non-empty markers, appended to `vs`. -/
def collectVersions (versions : List GoString) : Nat → List GoString → List GoString →
    Except GoError (List GoString)
  | _, [], vs => .ok vs
  | i, v :: rest, vs =>
    if v ≠ [] then
      match versions.get? i with
      | none => .error .indexOutOfRange
      | some label => collectVersions versions (i + 1) rest (vs ++ [label])
    else collectVersions versions (i + 1) rest vs

/-- The extension name of a row: `strings.ToLower(strings.Trim(name, "\x60"))`. -/
def normalizeName (lower : Char → Char) (name : GoString) : GoString :=
  stringsToLower lower (stringsTrim name ['\x60'])

/-- The text logged for a repeated extension name. -/
def duplicateWarning (name : GoString) : GoString :=
  "WARNING: The ".toList ++ name ++ " extension is listed twice, ignoring extra definition!\n".toList

/-- The literal `"| Extension"`. -/
def headerPrefix : GoString := "| Extension".toList

/-- The literal `"| ---"`. -/
def separatorPrefix : GoString := "| ---".toList

/-- The literal `"| "`. -/
def rowPrefix : GoString := "| ".toList

/-- The final `if strings.HasPrefix(line, "| Extension")` of the loop body. -/
def headerCheck (st : ParseState) (line : GoString) : Except GoError ParseState :=
  if hasPrefix line headerPrefix then
    match parseLine line with
    | .error e => .error e
    | .ok (_, versions) => .ok { st with started := true, versions := versions }
  else .ok st

/-- Outcome of one iteration of the scanning loop. -/
inductive LoopStep where
  | next (st : ParseState)
  | stop (st : ParseState)
  deriving DecidableEq

/-- One iteration of the scanning loop of `parsePHPExtensions`. -/
def loopBody (lower : Char → Char) (st : ParseState) (line : GoString) : Except GoError LoopStep :=
  if st.started then
    if hasPrefix line separatorPrefix then .ok (.next st)
    else if !hasPrefix line rowPrefix then .ok (.stop st)
    else
      match parseLine line with
      | .error e => .error e
      | .ok (name, available) =>
        let name := normalizeName lower name
        match mapGet st.extensions name with
        | some _ =>
          match headerCheck { st with logged := st.logged ++ [duplicateWarning name] } line with
          | .error e => .error e
          | .ok st' => .ok (.next st')
        | none =>
          match collectVersions st.versions 0 available [] with
          | .error e => .error e
          | .ok vs =>
            match headerCheck { st with
                orderedExtensionNames := st.orderedExtensionNames ++ [name],
                extensions := mapSet st.extensions name vs } line with
            | .error e => .error e
            | .ok st' => .ok (.next st')
  else
    match headerCheck st line with
    | .error e => .error e
    | .ok st' => .ok (.next st')

/-- The scanning loop `for scanner.Scan()` of `parsePHPExtensions`; the flag
tells whether the loop was left by `break`. -/
def scanLoop (lower : Char → Char) : ParseState → List GoString → Except GoError (ParseState × Bool)
  | st, [] => .ok (st, false)
  | st, line :: rest =>
    match loopBody lower st line with
    | .error e => .error e
    | .ok (.stop st') => .ok (st', true)
    | .ok (.next st') => scanLoop lower st' rest

/-- The loop computing `maxNameLen` over the names in enumeration order. -/
def maxNameLenOf (names : List GoString) : Nat :=
  names.foldl (fun maxNameLen name => if len name > maxNameLen then len name else maxNameLen) 0

/-- The inner loop `for i, version := range versions` of the rendering. -/
def appendVersions (n : Nat) : Nat → List GoString → GoString → GoString
  | _, [], line => line
  | i, version :: rest, line =>
    let line := line ++ ['\"'] ++ version ++ ['\"']
    appendVersions n (i + 1) rest (if (i : Int) ≠ (n : Int) - 1 then line ++ ", ".toList else line)

/-- One iteration of the rendering loop: the text appended for `name`. -/
def renderExtension (maxNameLen : Nat) (extensions : ExtMap) (name : GoString) :
    Except GoError GoString :=
  let versions := (mapGet extensions name).getD []
  match stringsRepeat [' '] ((maxNameLen : Int) - (len name : Int) + 1) with
  | .error e => .error e
  | .ok pad =>
    let line := "\t\"".toList ++ name ++ "\":".toList ++ pad ++ ['\x7b']
    let line := appendVersions versions.length 0 versions line
    let line := line ++ "\x7d,".toList
    .ok (line ++ "\n".toList)

/-- The rendering loop `for _, name := range orderedExtensionNames`. -/
def renderLoop (maxNameLen : Nat) (extensions : ExtMap) : List GoString → GoString →
    Except GoError GoString
  | [], extsAsString => .ok extsAsString
  | name :: rest, extsAsString =>
    match renderExtension maxNameLen extensions name with
    | .error e => .error e
    | .ok line => renderLoop maxNameLen extensions rest (extsAsString ++ line)

/-- The second half of `parsePHPExtensions`: the text for a final state. -/
def renderExtensions (ro : RangeOrder) (st : ParseState) : Except GoError GoString :=
  let maxNameLen := maxNameLenOf (ro.order (mapKeys st.extensions))
  renderLoop maxNameLen st.extensions st.orderedExtensionNames []

/-- Go `parsePHPExtensions` on the scanned lines. -/
def parsePHPExtensionsLines (ro : RangeOrder) (lower : Char → Char) (lines : List GoString) :
    Except GoError GoString :=
  match scanLoop lower initState lines with
  | .error e => .error e
  | .ok (st, _) => renderExtensions ro st

/-- Go `parsePHPExtensions`, from the response body. -/
def parsePHPExtensions (ro : RangeOrder) (lower : Char → Char) (body : GoString) :
    Except GoError GoString :=
  parsePHPExtensionsLines ro lower (scanLines body)

/-- Go `serviceVersions`; a list that is absent or `null` in the JSON document
decodes to the nil slice, `[]`. -/
structure serviceVersions where
  Deprecated : List GoString
  Supported : List GoString
  deriving DecidableEq

/-- Go `service`; the field `Type` is named `Typ` here. -/
structure service where
  Typ : GoString
  Runtime : Bool
  Versions : serviceVersions
  deriving DecidableEq

/-- Go `map[string]*service` as decoded from the registry; a JSON `null` value
decodes to a nil pointer, `none`. -/
abbrev Registry := List (GoString × Option service)

/-- Go `a < b` on strings: byte-wise lexicographic order, which on UTF-8 text
is the lexicographic order of the runes. -/
def stringLess : GoString → GoString → Bool
  | _, [] => false
  | [], _ :: _ => true
  | a :: as, b :: bs => decide (a < b) || (decide (a = b) && stringLess as bs)

/-- Go `a <= b` on strings. -/
def stringLE (a b : GoString) : Prop := stringLess b a = false

instance : DecidableRel stringLE := fun a b => inferInstanceAs (Decidable (stringLess b a = false))

/-- Go `sort.Strings`: the strings in increasing order. -/
def sortStrings (xs : List GoString) : List GoString :=
  xs.insertionSort stringLE

/-- The text one iteration of the loop of `parseServices` appends for a
service that is not a runtime. -/
def renderService (s : service) : GoString :=
  let servicesAsString : GoString := "\t\x7b\n".toList
  let servicesAsString := servicesAsString ++ ("\t\tType: \"".toList ++ s.Typ ++ "\",\n".toList)
  let servicesAsString := servicesAsString ++ "\t\tVersions: serviceVersions\x7b\n".toList
  let servicesAsString :=
    if s.Versions.Deprecated.length > 0 then
      servicesAsString ++ ("\t\t\tDeprecated: []string\x7b\"".toList ++
        stringsJoin s.Versions.Deprecated "\", \"".toList ++ "\"\x7d,\n".toList)
    else servicesAsString ++ "\t\t\tDeprecated: []string\x7b\x7d,\n".toList
  let servicesAsString :=
    if s.Versions.Supported.length > 0 then
      servicesAsString ++ ("\t\t\tSupported:  []string\x7b\"".toList ++
        stringsJoin s.Versions.Supported "\", \"".toList ++ "\"\x7d,\n".toList)
    else servicesAsString ++ "\t\t\tSupported: []string\x7b\x7d,\n".toList
  let servicesAsString := servicesAsString ++ "\t\t\x7d,\n".toList
  servicesAsString ++ "\t\x7d,\n".toList

/-- The loop `for _, name := range serviceNames` of `parseServices`. -/
def parseServicesLoop (services : Registry) : List GoString → GoString → Except GoError GoString
  | [], servicesAsString => .ok servicesAsString
  | name :: rest, servicesAsString =>
    match (mapGet services name).getD none with
    | none => .error .nilPointer
    | some s =>
      if !s.Runtime then parseServicesLoop services rest (servicesAsString ++ renderService s)
      else parseServicesLoop services rest servicesAsString

/-- Go `parseServices`, from the decoded registry. -/
def parseServices (ro : RangeOrder) (services : Registry) : Except GoError GoString :=
  let serviceNames := sortStrings (ro.order (mapKeys services))
  parseServicesLoop services serviceNames []

/-- The enumeration in insertion order. -/
def insertionOrder : RangeOrder := ⟨fun keys => keys, fun _ => List.Perm.refl _⟩

/-- The enumeration in reverse insertion order. -/
def reverseOrder : RangeOrder := ⟨fun keys => keys.reverse, fun keys => List.reverse_perm keys⟩

/-- The state carried by a loop step. -/
def LoopStep.state : LoopStep → ParseState
  | .next st => st
  | .stop st => st

/-- The labels at the positions whose marker is not empty, in column order. -/
def markedLabels (labels markers : List GoString) : List GoString :=
  ((markers.zip labels).filter (fun p => p.1 ≠ [])).map Prod.snd

/-- A version label between double quotes. -/
def quoted (version : GoString) : GoString := ['\"'] ++ version ++ ['\"']

/-- Closed form of the line the rendering loop emits for an extension: the
quoted name, the colon, `maxNameLen - len name + 1` spaces, and the list. -/
def extensionLine (maxNameLen : Nat) (name : GoString) (versions : List GoString) : GoString :=
  "\t\"".toList ++ name ++ "\":".toList ++ List.replicate (maxNameLen - len name + 1) ' ' ++
    ['\x7b'] ++ stringsJoin (versions.map quoted) ", ".toList ++ "\x7d,\n".toList

/-- The lines the scanning loop handles after the header line: those after the
first line starting with `| Extension`, up to the first one that does not
start with `| `. -/
def tableLines (lines : List GoString) : List GoString :=
  ((lines.dropWhile (fun l => !hasPrefix l headerPrefix)).drop 1).takeWhile
    (fun l => hasPrefix l rowPrefix)

/-- The data rows: the table lines that do not start with `| ---`. -/
def dataRows (lines : List GoString) : List GoString :=
  (tableLines lines).filter (fun l => !hasPrefix l separatorPrefix)

/-- The normalised extension name of a row. -/
def rowName (lower : Char → Char) (row : GoString) : GoString :=
  match parseLine row with
  | .ok (name, _) => normalizeName lower name
  | .error _ => []

/-- The distinct elements of a list, in order of first occurrence. -/
def firstOccurrences : List GoString → List GoString
  | [] => []
  | n :: ns => n :: (firstOccurrences ns).filter (fun m => m ≠ n)

/-- The names of `acc` followed by the names of the list that are new, each
once, in order of appearance. -/
def appendNew (acc : List GoString) : List GoString → List GoString
  | [] => acc
  | n :: ns => if n ∈ acc then appendNew acc ns else appendNew (acc ++ [n]) ns

/-- What the scanning loop maintains: the ordered names are the keys of the
map, in insertion order, and no key occurs twice. -/
def TableInv (st : ParseState) : Prop :=
  st.orderedExtensionNames = mapKeys st.extensions ∧ (mapKeys st.extensions).Nodup

/-- The data rows among the lines that follow the header line. -/
def rowsAfterHeader (lines : List GoString) : List GoString :=
  (lines.takeWhile (fun l => hasPrefix l rowPrefix)).filter
    (fun l => !hasPrefix l separatorPrefix)

/-- Whether the service registered under a key is a runtime. -/
def runtimeKey (services : Registry) (name : GoString) : Bool :=
  match (mapGet services name).getD none with
  | some s => s.Runtime
  | none => false

/-- Whether an entry of the registry is a runtime service. -/
def isRuntimeEntry (e : GoString × Option service) : Bool :=
  match e.2 with
  | some s => s.Runtime
  | none => false

/-- The registry without its runtime services. -/
def dropRuntime (services : Registry) : Registry :=
  services.filter (fun e => !isRuntimeEntry e)

/-- The record emitted for a key: that of the service registered under it, if
that service is not a runtime. -/
def recordOf (services : Registry) (name : GoString) : Option GoString :=
  match (mapGet services name).getD none with
  | some s => if s.Runtime then none else some (renderService s)
  | none => none

/-- The registry of the second scenario of the specification: `redis`, and
the runtime `php`. -/
def exampleRegistry : Registry :=
  [("redis".toList, some ⟨"redis".toList, false, ⟨[], ["6.0".toList, "7.0".toList]⟩⟩),
   ("php".toList, some ⟨"php".toList, true, ⟨[], ["8.0".toList, "8.1".toList]⟩⟩)]

/-- The `redis` service of `exampleRegistry`. -/
def exampleRedis : service := ⟨"redis".toList, false, ⟨[], ["6.0".toList, "7.0".toList]⟩⟩

/-- The table of the first scenario of the specification. -/
def exampleTable : GoString :=
  "| Extension | 7.4 | 8.0 |\n| --- | --- | --- |\n| \x60intl\x60 | X |  |\n".toList

/-- The table of the third scenario of the specification: the same name twice,
in two spellings and with different markers. -/
def exampleDuplicates : GoString :=
  "| Extension | 7.4 | 8.0 |\n| --- | --- | --- |\n".toList ++
    "| \x60Imagick\x60 | X |  |\n| \x60imagick\x60 |  | X |\n".toList

/-- A table with two names of different lengths. -/
def exampleTwoNames : GoString :=
  "| Extension | 7.4 |\n| --- | --- |\n| a | X |\n| bcd | X |\n".toList

/-- The state of the scanning loop after the header line of the example tables
with the columns `7.4` and `8.0`. -/
def exampleHeaderState : ParseState :=
  { versions := ["7.4".toList, "8.0".toList], orderedExtensionNames := [], extensions := [],
    started := true, logged := [] }

/-- The state of the scanning loop after the first data row of
`exampleDuplicates`. -/
def exampleImagickState : ParseState :=
  { versions := ["7.4".toList, "8.0".toList], orderedExtensionNames := ["imagick".toList],
    extensions := [("imagick".toList, ["7.4".toList])], started := true, logged := [] }

/-- A table whose rows are not in alphabetical order and whose first name
comes back in another spelling. -/
def exampleOrder : GoString :=
  "| Extension | 7.4 |\n| --- | --- |\n| zip | X |\n| apcu |  |\n| Zip |  |\n".toList

/-- A table whose header line has the first cell `Extensions`. -/
def examplePluralHeader : GoString :=
  "| Extensions | 7.4 |\n| --- | --- |\n| intl | X |\n".toList

/-- A table with a data row whose first cell starts with `Extension`. -/
def exampleRelabel : GoString :=
  "| Extension | 7.4 | 8.0 |\n| --- | --- | --- |\n".toList ++
    "| Extension_x | X | X |\n| intl | X |  |\n".toList

/-- A table with a row that starts with the delimiter but not with `| `. -/
def exampleNoSpace : GoString :=
  "| Extension | 7.4 |\n| --- | --- |\n|foo | X |\n| bar | X |\n".toList

/-- A table with a later row whose first cell starts with dashes. -/
def exampleDashes : GoString :=
  "| Extension | 7.4 |\n| --- | --- |\n| foo | X |\n| ---bar | X |\n| baz | X |\n".toList

/-- The state of the scanning loop after the header line of the example tables
with the single column `7.4`. -/
def exampleHeaderState74 : ParseState :=
  { versions := ["7.4".toList], orderedExtensionNames := [], extensions := [],
    started := true, logged := [] }

/-- The state of the scanning loop after the row `foo` of the example tables
with the single column `7.4`. -/
def exampleFooState : ParseState :=
  { versions := ["7.4".toList], orderedExtensionNames := ["foo".toList],
    extensions := [("foo".toList, ["7.4".toList])], started := true, logged := [] }

/-- A table whose row has spaces inside the backticks of its first cell. -/
def exampleSpacedName : GoString :=
  "| Extension | 7.4 |\n| --- | --- |\n| \x60 Foo \x60 | X |\n".toList

/-- A table whose row has one marker more than the header has labels. -/
def exampleExtraMarker : GoString :=
  "| Extension | 7.4 |\n| --- | --- |\n| foo | X | X |\n".toList

/-- A table whose row has no second delimiter. -/
def exampleOpenRow : GoString :=
  "| Extension | 7.4 |\n| --- | --- |\n| foo\n".toList

/-- The registry decoded from the JSON document `{"redis": null}` (in the
document the braces are those of the JSON object). -/
def exampleNullRegistry : Registry := [("redis".toList, none)]

/-- The state of the scanning loop at the end of `exampleTwoNames`. -/
def exampleTwoNamesState : ParseState :=
  { versions := ["7.4".toList], orderedExtensionNames := ["a".toList, "bcd".toList],
    extensions := [("a".toList, ["7.4".toList]), ("bcd".toList, ["7.4".toList])],
    started := true, logged := [] }

/-- A table in which a later row of a known name starts with `| Extension`. -/
def exampleDuplicateRelabel : GoString :=
  "| Extension | 7.4 | 8.0 |\n| --- | --- | --- |\n| extension_x | X | X |\n".toList ++
    "| Extension_x | A | B |\n| intl | X | X |\n".toList

/-- The table `exampleDuplicateRelabel` without the later row of the known
name. -/
def exampleDuplicateRemoved : GoString :=
  "| Extension | 7.4 | 8.0 |\n| --- | --- | --- |\n| extension_x | X | X |\n".toList ++
    "| intl | X | X |\n".toList

/-- A table with two header labels in which no row has more than two markers. -/
def exampleNarrowRelabel : GoString :=
  "| Extension | 7.4 | 8.0 |\n| --- | --- | --- |\n| Extension_x | X |\n| intl | X | X |\n".toList

/-- A table with one header label and a row with a second, non-empty marker. -/
def exampleWideRelabel : GoString :=
  "| Extension | 7.4 |\n| --- | --- |\n| Extension_x | X |  |  |\n| intl | X | X |\n".toList

/-- A table with a row `| ---` that has no second delimiter. -/
def exampleOpenSeparator : GoString :=
  "| Extension | 7.4 |\n| ---\n| foo | X |\n".toList

/-! ## Theorems -/

/-! ### `strings.Index` and slicing -/

theorem stringsIndexFrom_pipe_absent (s : GoString) (i : Nat) (h : '|' ∉ s) :
    stringsIndexFrom pipe s i = -1 := by
  induction s generalizing i with
  | nil => simp [stringsIndexFrom, pipe]
  | cons c cs ih =>
    have hc : c ≠ '|' := fun e => h (by simp [e])
    have hcs : '|' ∉ cs := fun e => h (by simp [e])
    simp [stringsIndexFrom, pipe, List.isPrefixOf, Ne.symm hc]
    exact ih _ hcs

theorem stringsIndexFrom_pipe_found (s t : GoString) (i : Nat) (h : '|' ∉ s) :
    stringsIndexFrom pipe (s ++ '|' :: t) i = ((i + s.length : Nat) : Int) := by
  induction s generalizing i with
  | nil => simp [stringsIndexFrom, pipe, List.isPrefixOf]
  | cons c cs ih =>
    have hc : c ≠ '|' := fun e => h (by simp [e])
    have hcs : '|' ∉ cs := fun e => h (by simp [e])
    have e : stringsIndexFrom pipe (c :: (cs ++ '|' :: t)) i
        = stringsIndexFrom pipe (cs ++ '|' :: t) (i + 1) := by
      simp [stringsIndexFrom, pipe, List.isPrefixOf, Ne.symm hc]
    rw [List.cons_append, e, ih _ hcs]
    simp only [List.length_cons]
    congr 1
    omega

theorem stringsIndex_pipe_absent (s : GoString) (h : '|' ∉ s) : stringsIndex s pipe = -1 :=
  stringsIndexFrom_pipe_absent s 0 h

theorem stringsIndex_pipe_found (s t : GoString) (h : '|' ∉ s) :
    stringsIndex (s ++ '|' :: t) pipe = (s.length : Int) := by
  unfold stringsIndex
  rw [stringsIndexFrom_pipe_found s t 0 h]
  simp

theorem sliceFrom_append {α : Type} (pre rest : List α) :
    sliceFrom (pre ++ rest) (pre.length : Int) = .ok rest := by
  simp [sliceFrom]

theorem slice_append {α : Type} (pre mid rest : List α) :
    slice (pre ++ (mid ++ rest)) (pre.length : Int) ((pre.length + mid.length : Nat) : Int)
      = .ok mid := by
  have h1 : ((pre.length : Int) ≤ ((pre.length + mid.length : Nat) : Int)) := by
    exact_mod_cast Nat.le_add_right _ _
  have h2 : (((pre.length + mid.length : Nat) : Int) ≤ ((pre ++ (mid ++ rest)).length : Int)) := by
    simp only [List.length_append]
    exact_mod_cast (by omega : pre.length + mid.length ≤ pre.length + (mid.length + rest.length))
  simp only [slice]
  rw [if_pos ⟨Int.natCast_nonneg _, h1, h2⟩]
  simp only [Int.toNat_ofNat]
  rw [← List.append_assoc, List.take_left' (by simp), List.drop_left' rfl]

/-! ### `parseLine` -/

/-- The loop of `parseLine`, started on the delimiter that ends `pre`, collects
the trimmed cells up to the last delimiter and never runs out of fuel. -/
theorem parseLineLoop_cells (segs : List GoString) (tail : GoString) :
    ∀ (pre : GoString) (acc : List GoString) (fuel : Nat),
      (∀ s ∈ segs, '|' ∉ s) → '|' ∉ tail → segs.length < fuel →
      parseLineLoop (pre ++ '|' :: ((segs.map (fun s => s ++ pipe)).flatten ++ tail)) fuel
        (pre.length : Int) acc = .ok (acc ++ segs.map trimSpace) := by
  induction segs with
  | nil =>
    intro pre acc fuel _ htail hfuel
    obtain ⟨f, rfl⟩ : ∃ f, fuel = f + 1 := ⟨fuel - 1, by simp at hfuel; omega⟩
    have hs : sliceFrom (pre ++ '|' :: tail) ((pre.length : Int) + 1) = .ok tail := by
      have := sliceFrom_append (pre ++ ['|']) tail
      simpa using this
    simp [parseLineLoop, hs, stringsIndex_pipe_absent tail htail]
  | cons seg segs ih =>
    intro pre acc fuel hsegs htail hfuel
    obtain ⟨f, rfl⟩ : ∃ f, fuel = f + 1 := ⟨fuel - 1, by simp at hfuel; omega⟩
    have hseg : '|' ∉ seg := hsegs seg (by simp)
    have hsegs' : ∀ s ∈ segs, '|' ∉ s := fun s hs => hsegs s (by simp [hs])
    generalize hrest : (segs.map (fun s => s ++ pipe)).flatten ++ tail = rest
    have hline : pre ++ '|' :: (((seg :: segs).map (fun s => s ++ pipe)).flatten ++ tail)
        = (pre ++ ['|']) ++ (seg ++ ('|' :: rest)) := by
      simp [pipe, ← hrest]
    have hline' : pre ++ '|' :: (((seg :: segs).map (fun s => s ++ pipe)).flatten ++ tail)
        = (pre ++ '|' :: seg) ++ '|' :: rest := by
      simp [pipe, ← hrest]
    have hs : sliceFrom ((pre ++ ['|']) ++ (seg ++ ('|' :: rest))) ((pre.length : Int) + 1)
        = .ok (seg ++ ('|' :: rest)) := by
      have := sliceFrom_append (pre ++ ['|']) (seg ++ ('|' :: rest))
      simpa using this
    have hc : slice ((pre ++ ['|']) ++ (seg ++ ('|' :: rest))) ((pre.length : Int) + 1)
        ((seg.length : Int) + ((pre.length : Int) + 1)) = .ok seg := by
      have := slice_append (pre ++ ['|']) seg ('|' :: rest)
      have e : (((pre ++ ['|']).length + seg.length : Nat) : Int)
          = (seg.length : Int) + ((pre.length : Int) + 1) := by
        simp only [List.length_append, List.length_singleton]; push_cast; ring
      rw [e] at this
      simpa using this
    have hlen : ¬ ((seg.length : Int) + ((pre.length : Int) + 1)
        ≥ (((pre ++ ['|']) ++ (seg ++ ('|' :: rest))).length : Int)) := by
      simp only [List.length_append, List.length_singleton, List.length_cons]
      push_cast
      omega
    have hidx : stringsIndex (seg ++ ('|' :: rest)) pipe = (seg.length : Int) :=
      stringsIndex_pipe_found seg rest hseg
    have hne : ¬ ((seg.length : Int) = -1) := by omega
    have hrec := ih (pre ++ '|' :: seg) (acc ++ [trimSpace seg]) f hsegs' htail
      (by simp at hfuel; omega)
    rw [hrest] at hrec
    have e2 : (((pre ++ '|' :: seg).length : Nat) : Int)
        = (seg.length : Int) + ((pre.length : Int) + 1) := by
      simp only [List.length_append, List.length_cons]; push_cast; ring
    rw [e2] at hrec
    rw [hline]
    simp only [parseLineLoop, hs, hidx, if_neg hne, hc, if_neg hlen]
    rw [← hline, hline', hrec]
    simp

/-- Every text is a sequence of delimiter-free texts, each followed by a
delimiter, and a delimiter-free rest. -/
theorem exists_cells (t : GoString) :
    ∃ (segs : List GoString) (tail : GoString),
      (∀ s ∈ segs, '|' ∉ s) ∧ '|' ∉ tail ∧
      t = (segs.map (fun s => s ++ pipe)).flatten ++ tail := by
  induction t with
  | nil => exact ⟨[], [], by simp, by simp, by simp⟩
  | cons c t ih =>
    obtain ⟨segs, tail, h1, h2, rfl⟩ := ih
    by_cases hc : c = '|'
    · refine ⟨[] :: segs, tail, ?_, h2, ?_⟩
      · intro s hs
        rcases List.mem_cons.1 hs with rfl | hs
        · simp
        · exact h1 s hs
      · simp [pipe, hc]
    · cases segs with
      | nil =>
        refine ⟨[], c :: tail, by simp, ?_, by simp⟩
        intro hmem
        rcases List.mem_cons.1 hmem with e | e
        · exact hc e.symm
        · exact h2 e
      | cons s ss =>
        refine ⟨(c :: s) :: ss, tail, ?_, h2, by simp⟩
        intro x hx
        rcases List.mem_cons.1 hx with rfl | hx
        · intro hmem
          rcases List.mem_cons.1 hmem with e | e
          · exact hc e.symm
          · exact h1 s (by simp) e
        · exact h1 x (by simp [hx])

/-- Every text that holds a delimiter is a name text, a delimiter, then
delimiter-terminated cell texts and a delimiter-free rest. -/
theorem exists_cell_decomposition (t : GoString) (h : '|' ∈ t) :
    ∃ (s0 : GoString) (segs : List GoString) (tail : GoString),
      '|' ∉ s0 ∧ (∀ s ∈ segs, '|' ∉ s) ∧ '|' ∉ tail ∧
      t = s0 ++ '|' :: ((segs.map (fun s => s ++ pipe)).flatten ++ tail) := by
  obtain ⟨segs, tail, h1, h2, rfl⟩ := exists_cells t
  cases segs with
  | nil => simp at h; exact absurd h h2
  | cons s0 ss =>
    exact ⟨s0, ss, tail, h1 s0 (by simp), fun s hs => h1 s (by simp [hs]), h2,
      by simp [pipe]⟩

/-! ### The marker loop -/

theorem markedLabels_cons (l m : GoString) (ls ms : List GoString) :
    markedLabels (l :: ls) (m :: ms)
      = if m = [] then markedLabels ls ms else l :: markedLabels ls ms := by
  by_cases hm : m = [] <;> simp [markedLabels, hm]

theorem collectVersions_ok (versions : List GoString) (markers : List GoString) :
    ∀ (i : Nat) (vs : List GoString), i + markers.length ≤ versions.length →
      collectVersions versions i markers vs
        = .ok (vs ++ markedLabels (versions.drop i) markers) := by
  induction markers with
  | nil => intro i vs _; simp [collectVersions, markedLabels]
  | cons m ms ih =>
    intro i vs h
    simp only [List.length_cons] at h
    have hi : i < versions.length := by omega
    have hd : versions.drop i = versions[i] :: versions.drop (i + 1) := by
      simp
    have hg : versions.get? i = some versions[i] := by
      simp [List.getElem?_eq_getElem hi]
    rw [hd, markedLabels_cons]
    by_cases hm : m = []
    · simp only [collectVersions, hm, ne_eq, not_true_eq_false, if_false, if_true]
      rw [ih (i + 1) vs (by omega)]
    · simp only [collectVersions, hm, ne_eq, not_false_eq_true, if_true, if_false, hg]
      rw [ih (i + 1) (vs ++ [versions[i]]) (by omega), List.append_assoc]
      rfl


/-! ### Go maps as association lists -/

theorem mapGet_eq_none_iff {β : Type} (m : List (GoString × β)) (k : GoString) :
    mapGet m k = none ↔ k ∉ mapKeys m := by
  induction m with
  | nil => simp [mapGet, mapKeys]
  | cons e rest ih =>
    obtain ⟨k', v⟩ := e
    rw [show mapKeys ((k', v) :: rest) = k' :: mapKeys rest from rfl, List.mem_cons]
    by_cases hk : k' = k
    · simp [mapGet, hk]
    · simp only [mapGet, hk, if_false, ih]
      constructor
      · rintro h (e | e)
        · exact hk e.symm
        · exact h e
      · intro h e
        exact h (Or.inr e)

theorem mapSet_of_absent {β : Type} (m : List (GoString × β)) (k : GoString) (v : β)
    (h : mapGet m k = none) : mapSet m k v = m ++ [(k, v)] := by
  induction m with
  | nil => simp [mapSet]
  | cons e rest ih =>
    obtain ⟨k', v'⟩ := e
    by_cases hk : k' = k
    · simp [mapGet, hk] at h
    · simp only [mapGet, hk, if_false] at h
      simp [mapSet, hk, ih h]

theorem mapGet_append_of_some {β : Type} (m m' : List (GoString × β)) (k : GoString) (v : β)
    (h : mapGet m k = some v) : mapGet (m ++ m') k = some v := by
  induction m with
  | nil => simp [mapGet] at h
  | cons e rest ih =>
    obtain ⟨k', v'⟩ := e
    by_cases hk : k' = k
    · simpa [mapGet, hk] using h
    · simp only [mapGet, hk, if_false] at h
      simp [mapGet, hk, ih h]

theorem mapGet_append_of_none {β : Type} (m m' : List (GoString × β)) (k : GoString)
    (h : mapGet m k = none) : mapGet (m ++ m') k = mapGet m' k := by
  induction m with
  | nil => simp
  | cons e rest ih =>
    obtain ⟨k', v'⟩ := e
    by_cases hk : k' = k
    · simp [mapGet, hk] at h
    · simp only [mapGet, hk, if_false] at h
      simp [mapGet, hk, ih h]

theorem mapGet_of_mem {β : Type} (m : List (GoString × β)) (k : GoString) (v : β)
    (hnd : (mapKeys m).Nodup) (h : (k, v) ∈ m) : mapGet m k = some v := by
  induction m with
  | nil => simp at h
  | cons e rest ih =>
    obtain ⟨k', v'⟩ := e
    simp only [mapKeys, List.map_cons, List.nodup_cons] at hnd
    rcases List.mem_cons.1 h with heq | hmem
    · simp only [Prod.mk.injEq] at heq
      simp [mapGet, heq.1, heq.2]
    · have hk : k' ≠ k := by
        intro e
        apply hnd.1
        rw [e]
        exact List.mem_map.2 ⟨(k, v), hmem, rfl⟩
      simp only [mapGet, hk, if_false]
      exact ih hnd.2 hmem

theorem mem_of_mapGet {β : Type} (m : List (GoString × β)) (k : GoString) (v : β)
    (h : mapGet m k = some v) : (k, v) ∈ m := by
  induction m with
  | nil => simp [mapGet] at h
  | cons e rest ih =>
    obtain ⟨k', v'⟩ := e
    by_cases hk : k' = k
    · simp only [mapGet, hk, if_true, Option.some.injEq] at h
      simp [hk, h]
    · simp only [mapGet, hk, if_false] at h
      exact List.mem_cons_of_mem _ (ih h)

/-! ### One iteration of the scanning loop -/

theorem headerCheck_table (st st' : ParseState) (line : GoString)
    (h : headerCheck st line = .ok st') :
    st'.extensions = st.extensions ∧ st'.orderedExtensionNames = st.orderedExtensionNames ∧
      (st.started = true → st'.started = true) := by
  unfold headerCheck at h
  split at h
  · split at h
    · simp at h
    · simp only [Except.ok.injEq] at h
      subst h
      simp
  · simp only [Except.ok.injEq] at h
    subst h
    simp

theorem headerCheck_of_parse (st : ParseState) (line : GoString) (r : GoString × List GoString)
    (hp : parseLine line = .ok r) : ∃ st', headerCheck st line = .ok st' := by
  unfold headerCheck
  split
  · rw [hp]; exact ⟨_, rfl⟩
  · exact ⟨_, rfl⟩

theorem headerCheck_of_not_header (st : ParseState) (line : GoString)
    (hh : hasPrefix line headerPrefix = false) : headerCheck st line = .ok st := by
  simp [headerCheck, hh]

/-- A data row with a new name: its entry is appended to the map and to the
ordered names. -/
theorem loopBody_new (lower : Char → Char) (st : ParseState) (line cell : GoString)
    (markers : List GoString) (hst : st.started = true)
    (hsep : hasPrefix line separatorPrefix = false) (hrow : hasPrefix line rowPrefix = true)
    (hp : parseLine line = .ok (cell, markers))
    (hnew : mapGet st.extensions (normalizeName lower cell) = none)
    (hlen : markers.length ≤ st.versions.length) :
    ∃ st', loopBody lower st line = .ok (.next st') ∧
      st'.extensions = st.extensions ++
        [(normalizeName lower cell, markedLabels st.versions markers)] ∧
      st'.orderedExtensionNames = st.orderedExtensionNames ++ [normalizeName lower cell] := by
  have hc := collectVersions_ok st.versions markers 0 [] (by simpa using hlen)
  simp only [List.drop_zero, List.nil_append] at hc
  obtain ⟨st', hst'⟩ := headerCheck_of_parse
    { st with
      orderedExtensionNames := st.orderedExtensionNames ++ [normalizeName lower cell],
      extensions := mapSet st.extensions (normalizeName lower cell)
        (markedLabels st.versions markers) } line _ hp
  refine ⟨st', ?_, ?_, ?_⟩
  · rw [hst] at hst'
    simp [loopBody, hst, hsep, hrow, hp, hnew, hc, hst']
  · rw [(headerCheck_table _ _ _ hst').1]
    exact mapSet_of_absent _ _ _ hnew
  · rw [(headerCheck_table _ _ _ hst').2.1]

/-- A data row with a name already in the map changes neither the map nor the
ordered names. -/
theorem loopBody_dup (lower : Char → Char) (st : ParseState) (line cell : GoString)
    (markers vs : List GoString) (hst : st.started = true)
    (hsep : hasPrefix line separatorPrefix = false) (hrow : hasPrefix line rowPrefix = true)
    (hp : parseLine line = .ok (cell, markers))
    (hold : mapGet st.extensions (normalizeName lower cell) = some vs) :
    ∃ st', loopBody lower st line = .ok (.next st') ∧
      st'.extensions = st.extensions ∧
      st'.orderedExtensionNames = st.orderedExtensionNames := by
  obtain ⟨st', hst'⟩ := headerCheck_of_parse
    { st with logged := st.logged ++ [duplicateWarning (normalizeName lower cell)] } line _ hp
  refine ⟨st', ?_, ?_, ?_⟩
  · rw [hst] at hst'
    simp [loopBody, hst, hsep, hrow, hp, hold, hst']
  · rw [(headerCheck_table _ _ _ hst').1]
  · rw [(headerCheck_table _ _ _ hst').2.1]


theorem loopBody_not_started (lower : Char → Char) (st : ParseState) (line : GoString)
    (step : LoopStep) (hst : st.started = false) (h : loopBody lower st line = .ok step) :
    ∃ st', headerCheck st line = .ok st' ∧ step = .next st' := by
  simp only [loopBody, hst, Bool.false_eq_true, if_false] at h
  split at h
  · simp at h
  · rename_i st' hh
    simp only [Except.ok.injEq] at h
    exact ⟨st', hh, h.symm⟩

theorem loopBody_separator (lower : Char → Char) (st : ParseState) (line : GoString)
    (hst : st.started = true) (hsep : hasPrefix line separatorPrefix = true) :
    loopBody lower st line = .ok (.next st) := by
  simp [loopBody, hst, hsep]

theorem loopBody_end (lower : Char → Char) (st : ParseState) (line : GoString)
    (hst : st.started = true) (hrow : hasPrefix line rowPrefix = false) :
    loopBody lower st line = .ok (.stop st) := by
  have hsep : hasPrefix line separatorPrefix = false := by
    cases h : hasPrefix line separatorPrefix with
    | false => rfl
    | true =>
      exfalso
      have hp : separatorPrefix <+: line := List.isPrefixOf_iff_prefix.1 h
      have hr : rowPrefix <+: line :=
        List.IsPrefix.trans (by decide : rowPrefix <+: separatorPrefix) hp
      have := List.isPrefixOf_iff_prefix.2 hr
      simp only [hasPrefix] at hrow
      rw [hrow] at this
      exact Bool.noConfusion this
  simp [loopBody, hst, hsep, hrow]

/-- What a data row does, read off a successful iteration. -/
theorem loopBody_row_inv (lower : Char → Char) (st : ParseState) (line : GoString)
    (step : LoopStep) (hst : st.started = true)
    (hsep : hasPrefix line separatorPrefix = false) (hrow : hasPrefix line rowPrefix = true)
    (h : loopBody lower st line = .ok step) :
    ∃ cell markers st1, parseLine line = .ok (cell, markers) ∧ step = .next st1 ∧
      st1.started = true ∧
      ((∃ vs, mapGet st.extensions (normalizeName lower cell) = some vs ∧
          st1.extensions = st.extensions ∧
          st1.orderedExtensionNames = st.orderedExtensionNames) ∨
       (mapGet st.extensions (normalizeName lower cell) = none ∧
          ∃ vs, collectVersions st.versions 0 markers [] = .ok vs ∧
          st1.extensions = st.extensions ++ [(normalizeName lower cell, vs)] ∧
          st1.orderedExtensionNames
            = st.orderedExtensionNames ++ [normalizeName lower cell])) := by
  simp only [loopBody, hst, hsep, hrow, if_true, Bool.false_eq_true, if_false, Bool.not_true]
    at h
  cases hp : parseLine line with
  | error e => rw [hp] at h; simp at h
  | ok r =>
    obtain ⟨cell, markers⟩ := r
    rw [hp] at h
    simp only at h
    cases hg : mapGet st.extensions (normalizeName lower cell) with
    | some vs =>
      rw [hg] at h
      simp only at h
      split at h
      · simp at h
      · rename_i st1 hh
        simp only [Except.ok.injEq] at h
        have ht := headerCheck_table _ _ _ hh
        exact ⟨cell, markers, st1, rfl, h.symm, ht.2.2 rfl, Or.inl ⟨vs, hg, ht.1, ht.2.1⟩⟩
    | none =>
      rw [hg] at h
      simp only at h
      cases hc : collectVersions st.versions 0 markers [] with
      | error e => rw [hc] at h; simp at h
      | ok vs =>
        rw [hc] at h
        simp only at h
        split at h
        · simp at h
        · rename_i st1 hh
          simp only [Except.ok.injEq] at h
          have ht := headerCheck_table _ _ _ hh
          refine ⟨cell, markers, st1, rfl, h.symm, ht.2.2 rfl, Or.inr ⟨hg, vs, hc, ?_, ht.2.1⟩⟩
          rw [ht.1]
          exact mapSet_of_absent _ _ _ hg

/-- Every successful iteration either leaves the map and the ordered names
alone or appends one entry with a new name to both. -/
theorem loopBody_table (lower : Char → Char) (st : ParseState) (line : GoString)
    (step : LoopStep) (h : loopBody lower st line = .ok step) :
    (st.started = true → step.state.started = true) ∧
    ((step.state.extensions = st.extensions ∧
        step.state.orderedExtensionNames = st.orderedExtensionNames) ∨
      (∃ name vs, mapGet st.extensions name = none ∧
        step.state.extensions = st.extensions ++ [(name, vs)] ∧
        step.state.orderedExtensionNames = st.orderedExtensionNames ++ [name])) := by
  cases hst : st.started with
  | false =>
    obtain ⟨st', hh, rfl⟩ := loopBody_not_started lower st line step hst h
    have ht := headerCheck_table _ _ _ hh
    exact ⟨fun e => Bool.noConfusion e, Or.inl ⟨ht.1, ht.2.1⟩⟩
  | true =>
    cases hsep : hasPrefix line separatorPrefix with
    | true =>
      rw [loopBody_separator lower st line hst hsep] at h
      simp only [Except.ok.injEq] at h
      subst h
      exact ⟨fun _ => hst, Or.inl ⟨rfl, rfl⟩⟩
    | false =>
      cases hrow : hasPrefix line rowPrefix with
      | false =>
        rw [loopBody_end lower st line hst hrow] at h
        simp only [Except.ok.injEq] at h
        subst h
        exact ⟨fun _ => hst, Or.inl ⟨rfl, rfl⟩⟩
      | true =>
        obtain ⟨cell, markers, st1, _, rfl, hs1, hcases⟩ :=
          loopBody_row_inv lower st line step hst hsep hrow h
        refine ⟨fun _ => hs1, ?_⟩
        rcases hcases with ⟨vs, _, he, ho⟩ | ⟨hn, vs, _, he, ho⟩
        · exact Or.inl ⟨he, ho⟩
        · exact Or.inr ⟨_, vs, hn, he, ho⟩

theorem TableInv_init : TableInv initState := by
  simp [TableInv, initState, mapKeys]

theorem loopBody_inv (lower : Char → Char) (st : ParseState) (line : GoString)
    (step : LoopStep) (hinv : TableInv st) (h : loopBody lower st line = .ok step) :
    TableInv step.state ∧ st.extensions <+: step.state.extensions := by
  rcases (loopBody_table lower st line step h).2 with ⟨he, ho⟩ | ⟨name, vs, hn, he, ho⟩
  · refine ⟨?_, by rw [he]⟩
    unfold TableInv
    rw [he, ho]
    exact hinv
  · refine ⟨?_, by rw [he]; exact List.prefix_append _ _⟩
    unfold TableInv
    rw [he, ho, hinv.1]
    have hk : mapKeys (st.extensions ++ [(name, vs)]) = mapKeys st.extensions ++ [name] := by
      simp [mapKeys]
    rw [hk]
    refine ⟨rfl, ?_⟩
    rw [List.nodup_append]
    refine ⟨hinv.2, List.nodup_singleton _, ?_⟩
    intro a ha hb
    rw [List.mem_singleton] at hb
    subst hb
    exact (mapGet_eq_none_iff _ _).1 hn ha

/-! ### The scanning loop -/

theorem scanLoop_inv (lower : Char → Char) (lines : List GoString) :
    ∀ (st st' : ParseState) (b : Bool), TableInv st →
      scanLoop lower st lines = .ok (st', b) →
      TableInv st' ∧ st.extensions <+: st'.extensions ∧
        (st.started = true → st'.started = true) := by
  induction lines with
  | nil =>
    intro st st' b hinv h
    simp only [scanLoop, Except.ok.injEq, Prod.mk.injEq] at h
    rw [← h.1]
    exact ⟨hinv, List.prefix_refl _, fun e => e⟩
  | cons line rest ih =>
    intro st st' b hinv h
    simp only [scanLoop] at h
    cases hb : loopBody lower st line with
    | error e => rw [hb] at h; simp at h
    | ok step =>
      have hi := loopBody_inv lower st line step hinv hb
      have hs := (loopBody_table lower st line step hb).1
      rw [hb] at h
      cases step with
      | stop st1 =>
        simp only [Except.ok.injEq, Prod.mk.injEq] at h
        rw [← h.1]
        exact ⟨hi.1, hi.2, hs⟩
      | next st1 =>
        simp only at h
        have := ih st1 st' b hi.1 h
        exact ⟨this.1, List.IsPrefix.trans hi.2 this.2.1, fun e => this.2.2 (hs e)⟩

theorem scanLoop_append (lower : Char → Char) (pre rest : List GoString) :
    ∀ (st st1 : ParseState), scanLoop lower st pre = .ok (st1, false) →
      scanLoop lower st (pre ++ rest) = scanLoop lower st1 rest := by
  induction pre with
  | nil =>
    intro st st1 h
    simp only [scanLoop, Except.ok.injEq, Prod.mk.injEq] at h
    rw [h.1]
    rfl
  | cons line more ih =>
    intro st st1 h
    simp only [scanLoop] at h
    simp only [List.cons_append, scanLoop]
    cases hb : loopBody lower st line with
    | error e => rw [hb] at h; simp at h
    | ok step =>
      rw [hb] at h
      cases step with
      | stop st2 => simp at h
      | next st2 =>
        simp only at h ⊢
        exact ih st2 st1 h


/-! ### Rendering the extensions -/

theorem stringsJoin_cons_cons (sep x y : GoString) (ys : List GoString) :
    stringsJoin (x :: y :: ys) sep = x ++ sep ++ stringsJoin (y :: ys) sep := by
  simp [stringsJoin, List.intercalate, List.intersperse]

theorem appendVersions_eq (n : Nat) (versions : List GoString) :
    ∀ (i : Nat) (line : GoString), n = i + versions.length →
      appendVersions n i versions line
        = line ++ stringsJoin (versions.map quoted) ", ".toList := by
  induction versions with
  | nil => intro i line _; simp [appendVersions, stringsJoin, List.intercalate]
  | cons v rest ih =>
    intro i line hn
    simp only [List.length_cons] at hn
    cases rest with
    | nil =>
      have hi : (i : Int) = (n : Int) - 1 := by
        simp only [List.length_nil] at hn
        omega
      simp [appendVersions, hi, stringsJoin, List.intercalate, quoted]
    | cons v2 rest2 =>
      simp only [List.length_cons] at hn
      have hi : (i : Int) ≠ (n : Int) - 1 := by
        omega
      simp only [appendVersions, hi, ne_eq, not_false_eq_true, if_true] at ih ⊢
      rw [ih (i + 1) _ (by simp only [List.length_cons]; omega)]
      simp only [List.map_cons, stringsJoin_cons_cons, quoted, List.append_assoc]

theorem flatten_replicate_singleton (k : Nat) (c : Char) :
    (List.replicate k [c]).flatten = List.replicate k c := by
  induction k with
  | zero => rfl
  | succ k ih => simp [List.replicate_succ, ih]

theorem stringsRepeat_pad (maxNameLen : Nat) (name : GoString) (h : len name ≤ maxNameLen) :
    stringsRepeat [' '] ((maxNameLen : Int) - (len name : Int) + 1)
      = .ok (List.replicate (maxNameLen - len name + 1) ' ') := by
  have h1 : ¬ ((maxNameLen : Int) - (len name : Int) + 1 < 0) := by omega
  have h2 : ((maxNameLen : Int) - (len name : Int) + 1).toNat = maxNameLen - len name + 1 := by
    omega
  simp only [stringsRepeat, h1, if_false, h2, flatten_replicate_singleton]

theorem renderExtension_eq (maxNameLen : Nat) (extensions : ExtMap) (name : GoString)
    (vs : List GoString) (hget : mapGet extensions name = some vs)
    (h : len name ≤ maxNameLen) :
    renderExtension maxNameLen extensions name = .ok (extensionLine maxNameLen name vs) := by
  simp only [renderExtension, hget, Option.getD_some, stringsRepeat_pad maxNameLen name h,
    appendVersions_eq vs.length vs 0 _ (by simp), extensionLine, List.append_assoc]
  rfl

theorem renderLoop_eq (maxNameLen : Nat) (extensions : ExtMap) (entries : ExtMap) :
    ∀ (acc : GoString),
      (∀ e ∈ entries, mapGet extensions e.1 = some e.2 ∧ len e.1 ≤ maxNameLen) →
      renderLoop maxNameLen extensions (mapKeys entries) acc
        = .ok (acc ++ (entries.map (fun e => extensionLine maxNameLen e.1 e.2)).flatten) := by
  induction entries with
  | nil => intro acc _; simp [renderLoop, mapKeys]
  | cons e rest ih =>
    intro acc h
    have he := h e (by simp)
    rw [show mapKeys (e :: rest) = e.1 :: mapKeys rest from rfl]
    simp only [renderLoop, renderExtension_eq maxNameLen extensions e.1 e.2 he.1 he.2]
    rw [ih _ (fun e' he' => h e' (by simp [he']))]
    simp

theorem foldl_maxNameLen_ge (names : List GoString) :
    ∀ (m : Nat), m ≤ names.foldl
        (fun maxNameLen name => if len name > maxNameLen then len name else maxNameLen) m ∧
      ∀ name ∈ names, len name ≤ names.foldl
        (fun maxNameLen name => if len name > maxNameLen then len name else maxNameLen) m := by
  induction names with
  | nil => intro m; simp
  | cons n ns ih =>
    intro m
    simp only [List.foldl_cons]
    have h := ih (if len n > m then len n else m)
    refine ⟨le_trans ?_ h.1, ?_⟩
    · split <;> omega
    · intro name hname
      rcases List.mem_cons.1 hname with rfl | hmem
      · refine le_trans ?_ h.1
        split <;> omega
      · exact h.2 name hmem

theorem len_le_maxNameLenOf (names : List GoString) (name : GoString) (h : name ∈ names) :
    len name ≤ maxNameLenOf names :=
  (foldl_maxNameLen_ge names 0).2 name h

theorem maxNameLenOf_perm (xs ys : List GoString) (h : xs.Perm ys) :
    maxNameLenOf xs = maxNameLenOf ys := by
  unfold maxNameLenOf
  apply List.Perm.foldl_eq' h
  intro x _ y _ z
  by_cases h1 : len x > z <;> by_cases h2 : len y > z <;> simp only [h1, h2, if_true, if_false]
  · by_cases h3 : len y > len x <;> by_cases h4 : len x > len y <;>
      simp only [h3, h4, if_true, if_false] <;> omega
  · have : ¬ len y > len x := by omega
    simp only [this, if_false]
  · have : ¬ len x > len y := by omega
    simp only [this, if_false]

theorem maxNameLenOf_range (ro : RangeOrder) (keys : List GoString) :
    maxNameLenOf (ro.order keys) = maxNameLenOf keys :=
  maxNameLenOf_perm _ _ (ro.perm keys)

/-- For a state that satisfies the loop invariant the rendering succeeds and
emits one line per entry of the map, in insertion order. -/
theorem renderExtensions_eq (ro : RangeOrder) (st : ParseState) (hinv : TableInv st) :
    renderExtensions ro st = .ok ((st.extensions.map (fun e =>
      extensionLine (maxNameLenOf (mapKeys st.extensions)) e.1 e.2)).flatten) := by
  unfold renderExtensions
  rw [maxNameLenOf_range, hinv.1]
  simp only
  rw [renderLoop_eq _ _ st.extensions [] ?_]
  · simp
  · intro e he
    refine ⟨mapGet_of_mem _ _ _ hinv.2 he, len_le_maxNameLenOf _ _ ?_⟩
    exact List.mem_map.2 ⟨e, he, rfl⟩


/-! ### The order of the names -/

theorem mem_firstOccurrences (names : List GoString) (n : GoString) :
    n ∈ firstOccurrences names ↔ n ∈ names := by
  induction names with
  | nil => simp [firstOccurrences]
  | cons a l ih =>
    simp only [firstOccurrences, List.mem_cons, List.mem_filter, ih]
    by_cases h : n = a
    · simp [h]
    · simp [h]

theorem nodup_firstOccurrences (names : List GoString) : (firstOccurrences names).Nodup := by
  induction names with
  | nil => simp [firstOccurrences]
  | cons a l ih =>
    simp only [firstOccurrences, List.nodup_cons]
    exact ⟨by simp [List.mem_filter], ih.filter _⟩

theorem appendNew_eq (names : List GoString) :
    ∀ acc : List GoString,
      appendNew acc names = acc ++ (firstOccurrences names).filter (fun n => decide (n ∉ acc)) := by
  induction names with
  | nil => intro acc; simp [appendNew, firstOccurrences]
  | cons a l ih =>
    intro acc
    by_cases h : a ∈ acc
    · simp only [appendNew, h, if_true, ih, firstOccurrences, List.filter_cons,
        not_true_eq_false, decide_False, Bool.false_eq_true, if_false, List.filter_filter]
      congr 1
      apply List.filter_congr
      intro x _
      by_cases hx : x ∈ acc
      · simp [hx]
      · have : x ≠ a := fun e => hx (e ▸ h)
        simp [hx, this]
    · simp only [appendNew, h, if_false, ih, firstOccurrences, List.filter_cons,
        not_false_eq_true, decide_True, if_true, List.filter_filter, List.append_assoc,
        List.singleton_append]
      congr 2
      apply List.filter_congr
      intro x _
      by_cases hx : x ∈ acc
      · simp [hx]
      · by_cases hxa : x = a
        · simp [hxa]
        · simp [hx, hxa]

theorem appendNew_nil (names : List GoString) : appendNew [] names = firstOccurrences names := by
  rw [appendNew_eq]
  simp

theorem headerCheck_started (st st' : ParseState) (line : GoString)
    (hh : hasPrefix line headerPrefix = true) (h : headerCheck st line = .ok st') :
    st'.started = true := by
  simp only [headerCheck, hh, if_true] at h
  split at h
  · simp at h
  · simp only [Except.ok.injEq] at h
    subst h
    rfl

theorem rowsAfterHeader_separator (line : GoString) (rest : List GoString)
    (hsep : hasPrefix line separatorPrefix = true) :
    rowsAfterHeader (line :: rest) = rowsAfterHeader rest := by
  have hrow : hasPrefix line rowPrefix = true := by
    have hp : separatorPrefix <+: line := List.isPrefixOf_iff_prefix.1 hsep
    exact List.isPrefixOf_iff_prefix.2
      (List.IsPrefix.trans (by decide : rowPrefix <+: separatorPrefix) hp)
  simp [rowsAfterHeader, List.takeWhile_cons, hrow, hsep]

theorem rowsAfterHeader_end (line : GoString) (rest : List GoString)
    (hrow : hasPrefix line rowPrefix = false) : rowsAfterHeader (line :: rest) = [] := by
  simp [rowsAfterHeader, List.takeWhile_cons, hrow]

theorem rowsAfterHeader_row (line : GoString) (rest : List GoString)
    (hsep : hasPrefix line separatorPrefix = false) (hrow : hasPrefix line rowPrefix = true) :
    rowsAfterHeader (line :: rest) = line :: rowsAfterHeader rest := by
  simp [rowsAfterHeader, List.takeWhile_cons, hrow, hsep]

/-- From a started state the loop adds the names of the data rows it meets, each
one the first time it occurs. -/
theorem scanLoop_names_started (lower : Char → Char) (lines : List GoString) :
    ∀ (st st' : ParseState) (b : Bool), TableInv st → st.started = true →
      scanLoop lower st lines = .ok (st', b) →
      st'.orderedExtensionNames
        = appendNew st.orderedExtensionNames ((rowsAfterHeader lines).map (rowName lower)) := by
  induction lines with
  | nil =>
    intro st st' b _ _ h
    simp only [scanLoop, Except.ok.injEq, Prod.mk.injEq] at h
    rw [← h.1]
    rfl
  | cons line rest ih =>
    intro st st' b hinv hst h
    simp only [scanLoop] at h
    cases hsep : hasPrefix line separatorPrefix with
    | true =>
      rw [loopBody_separator lower st line hst hsep] at h
      simp only at h
      rw [rowsAfterHeader_separator line rest hsep]
      exact ih st st' b hinv hst h
    | false =>
      cases hrow : hasPrefix line rowPrefix with
      | false =>
        rw [loopBody_end lower st line hst hrow] at h
        simp only [Except.ok.injEq, Prod.mk.injEq] at h
        rw [rowsAfterHeader_end line rest hrow, ← h.1]
        rfl
      | true =>
        cases hb : loopBody lower st line with
        | error e => rw [hb] at h; simp at h
        | ok step =>
          obtain ⟨cell, markers, st1, hp, rfl, hs1, hcases⟩ :=
            loopBody_row_inv lower st line step hst hsep hrow hb
          have hi := (loopBody_inv lower st line _ hinv hb).1
          rw [hb] at h
          simp only at h
          have hrec := ih st1 st' b hi hs1 h
          have hname : rowName lower line = normalizeName lower cell := by
            simp [rowName, hp]
          rw [rowsAfterHeader_row line rest hsep hrow, List.map_cons, hname, hrec]
          rcases hcases with ⟨vs, hg, _, ho⟩ | ⟨hg, vs, _, _, ho⟩
          · have hmem : normalizeName lower cell ∈ st.orderedExtensionNames := by
              rw [hinv.1]
              by_contra hc
              rw [(mapGet_eq_none_iff _ _).2 hc] at hg
              exact Option.noConfusion hg
            simp only [appendNew, hmem, if_true, ho]
          · have hmem : normalizeName lower cell ∉ st.orderedExtensionNames := by
              rw [hinv.1]
              exact (mapGet_eq_none_iff _ _).1 hg
            simp only [appendNew, hmem, if_false, ho]

theorem dataRows_header (line : GoString) (rest : List GoString)
    (hh : hasPrefix line headerPrefix = true) :
    dataRows (line :: rest) = rowsAfterHeader rest := by
  simp [dataRows, tableLines, rowsAfterHeader, List.dropWhile_cons, hh]

theorem dataRows_skip (line : GoString) (rest : List GoString)
    (hh : hasPrefix line headerPrefix = false) : dataRows (line :: rest) = dataRows rest := by
  simp [dataRows, tableLines, List.dropWhile_cons, hh]

/-- From the initial phase the loop adds the names of the data rows of the
document, each one the first time it occurs. -/
theorem scanLoop_names (lower : Char → Char) (lines : List GoString) :
    ∀ (st st' : ParseState) (b : Bool), TableInv st → st.started = false →
      scanLoop lower st lines = .ok (st', b) →
      st'.orderedExtensionNames
        = appendNew st.orderedExtensionNames ((dataRows lines).map (rowName lower)) := by
  induction lines with
  | nil =>
    intro st st' b _ _ h
    simp only [scanLoop, Except.ok.injEq, Prod.mk.injEq] at h
    rw [← h.1]
    rfl
  | cons line rest ih =>
    intro st st' b hinv hst h
    simp only [scanLoop] at h
    cases hb : loopBody lower st line with
    | error e => rw [hb] at h; simp at h
    | ok step =>
      obtain ⟨st1, hh, rfl⟩ := loopBody_not_started lower st line step hst hb
      have hi := (loopBody_inv lower st line _ hinv hb).1
      have ht := headerCheck_table _ _ _ hh
      rw [hb] at h
      simp only at h
      cases hp : hasPrefix line headerPrefix with
      | true =>
        have hs1 := headerCheck_started st st1 line hp hh
        rw [dataRows_header line rest hp, ← ht.2.1]
        exact scanLoop_names_started lower rest st1 st' b hi hs1 h
      | false =>
        rw [headerCheck_of_not_header st line hp] at hh
        simp only [Except.ok.injEq] at hh
        subst hh
        rw [dataRows_skip line rest hp]
        exact ih st st' b hinv hst h


/-! ### The order of the service names -/

theorem stringLess_irrefl (a : GoString) : stringLess a a = false := by
  induction a with
  | nil => rfl
  | cons c cs ih => simp [stringLess, ih]

theorem stringLess_asymm (a : GoString) :
    ∀ b : GoString, stringLess a b = true → stringLess b a = false := by
  induction a with
  | nil => intro b _; cases b <;> rfl
  | cons c cs ih =>
    intro b h
    cases b with
    | nil => simp [stringLess] at h
    | cons d ds =>
      simp only [stringLess, Bool.or_eq_true, decide_eq_true_eq, Bool.and_eq_true] at h
      simp only [stringLess, Bool.or_eq_false_iff, decide_eq_false_iff_not,
        Bool.and_eq_false_iff, not_lt]
      rcases h with h | ⟨h1, h2⟩
      · exact ⟨le_of_lt h, Or.inl (ne_of_gt h)⟩
      · exact ⟨le_of_eq h1, Or.inr (ih ds h2)⟩

theorem stringLess_connected (a : GoString) :
    ∀ b : GoString, stringLess a b = false → stringLess b a = false → a = b := by
  induction a with
  | nil =>
    intro b h _
    cases b with
    | nil => rfl
    | cons d ds => simp [stringLess] at h
  | cons c cs ih =>
    intro b h1 h2
    cases b with
    | nil => simp [stringLess] at h2
    | cons d ds =>
      simp only [stringLess, Bool.or_eq_false_iff, decide_eq_false_iff_not,
        Bool.and_eq_false_iff, not_lt] at h1 h2
      have hcd : c = d := le_antisymm h2.1 h1.1
      subst hcd
      rcases h1.2 with h | h
      · exact absurd rfl h
      · rcases h2.2 with h' | h'
        · exact absurd rfl h'
        · rw [ih ds h h']

theorem stringLess_trans (a : GoString) :
    ∀ b c : GoString, stringLess a b = true → stringLess b c = true → stringLess a c = true := by
  induction a with
  | nil =>
    intro b c h1 h2
    cases c with
    | nil => cases b <;> simp [stringLess] at h2
    | cons e es => rfl
  | cons x xs ih =>
    intro b c h1 h2
    cases b with
    | nil => simp [stringLess] at h1
    | cons y ys =>
      cases c with
      | nil => simp [stringLess] at h2
      | cons z zs =>
        simp only [stringLess, Bool.or_eq_true, decide_eq_true_eq, Bool.and_eq_true] at h1 h2 ⊢
        rcases h1 with h1 | ⟨e1, t1⟩
        · rcases h2 with h2 | ⟨e2, _⟩
          · exact Or.inl (lt_trans h1 h2)
          · exact Or.inl (e2 ▸ h1)
        · rcases h2 with h2 | ⟨e2, t2⟩
          · exact Or.inl (e1 ▸ h2)
          · exact Or.inr ⟨e1.trans e2, ih ys zs t1 t2⟩

instance : IsTotal GoString stringLE := ⟨fun a b => by
  unfold stringLE
  cases h : stringLess b a with
  | false => exact Or.inl rfl
  | true => exact Or.inr (stringLess_asymm b a h)⟩

instance : IsAntisymm GoString stringLE := ⟨fun a b h1 h2 =>
  stringLess_connected a b h2 h1⟩

instance : IsTrans GoString stringLE := ⟨fun a b c h1 h2 => by
  unfold stringLE at *
  cases h : stringLess c a with
  | false => rfl
  | true =>
    exfalso
    cases hab : stringLess a b with
    | false =>
      have e := stringLess_connected a b hab h1
      subst e
      rw [h] at h2
      exact Bool.noConfusion h2
    | true =>
      have := stringLess_trans c a b h hab
      rw [this] at h2
      exact Bool.noConfusion h2⟩

theorem sortStrings_perm (xs : List GoString) : (sortStrings xs).Perm xs :=
  List.perm_insertionSort stringLE xs

theorem sortStrings_sorted (xs : List GoString) : (sortStrings xs).Sorted stringLE :=
  List.sorted_insertionSort stringLE xs

theorem sortStrings_congr (xs ys : List GoString) (h : xs.Perm ys) :
    sortStrings xs = sortStrings ys :=
  List.eq_of_perm_of_sorted
    (((sortStrings_perm xs).trans h).trans (sortStrings_perm ys).symm)
    (sortStrings_sorted xs) (sortStrings_sorted ys)

theorem sortStrings_filter (xs : List GoString) (p : GoString → Bool) :
    (sortStrings xs).filter p = sortStrings (xs.filter p) :=
  List.eq_of_perm_of_sorted
    (((sortStrings_perm xs).filter p).trans (sortStrings_perm (xs.filter p)).symm)
    ((sortStrings_sorted xs).filter p) (sortStrings_sorted _)

theorem sortStrings_strict (xs : List GoString) (h : xs.Nodup) :
    (sortStrings xs).Sorted (fun a b => stringLess a b = true) := by
  have hs := sortStrings_sorted xs
  have hn : (sortStrings xs).Nodup := (sortStrings_perm xs).nodup_iff.2 h
  unfold List.Sorted at hs ⊢
  unfold List.Nodup at hn
  refine (hs.and hn).imp ?_
  intro a b hab
  cases hlt : stringLess a b with
  | true => rfl
  | false => exact absurd (stringLess_connected a b hlt hab.1) hab.2


/-! ### The loop of `parseServices` -/

theorem parseServicesLoop_congr (services services' : Registry) (names : List GoString) :
    ∀ acc : GoString, (∀ k ∈ names, mapGet services k = mapGet services' k) →
      parseServicesLoop services names acc = parseServicesLoop services' names acc := by
  induction names with
  | nil => intro acc _; rfl
  | cons k rest ih =>
    intro acc h
    have hk := h k (by simp)
    have hrest : ∀ k' ∈ rest, mapGet services k' = mapGet services' k' :=
      fun k' hk' => h k' (by simp [hk'])
    simp only [parseServicesLoop, hk]
    split
    · rfl
    · split
      · exact ih _ hrest
      · exact ih _ hrest

theorem parseServicesLoop_skip (services : Registry) (names : List GoString) :
    ∀ acc : GoString,
      parseServicesLoop services names acc
        = parseServicesLoop services (names.filter (fun k => !runtimeKey services k)) acc := by
  induction names with
  | nil => intro acc; rfl
  | cons k rest ih =>
    intro acc
    cases hv : (mapGet services k).getD none with
    | none =>
      have hr : runtimeKey services k = false := by simp [runtimeKey, hv]
      simp [List.filter_cons, hr, parseServicesLoop, hv]
    | some s =>
      cases hrt : s.Runtime with
      | true =>
        have hr : runtimeKey services k = true := by simp [runtimeKey, hv, hrt]
        simp only [List.filter_cons, hr, parseServicesLoop, hv, hrt, Bool.not_true,
          Bool.false_eq_true, if_false]
        exact ih acc
      | false =>
        have hr : runtimeKey services k = false := by simp [runtimeKey, hv, hrt]
        simp only [List.filter_cons, hr, parseServicesLoop, hv, hrt, Bool.not_false, if_true]
        exact ih _

theorem mapGet_dropRuntime (services : Registry) (k : GoString)
    (h : runtimeKey services k = false) :
    mapGet (dropRuntime services) k = mapGet services k := by
  induction services with
  | nil => rfl
  | cons e rest ih =>
    obtain ⟨k', v⟩ := e
    by_cases hk : k' = k
    · subst hk
      have hv : isRuntimeEntry (k', v) = false := by
        simp only [runtimeKey, mapGet, if_true, Option.getD_some] at h
        exact h
      simp [dropRuntime, List.filter_cons, hv, mapGet]
    · have hrest : runtimeKey rest k = false := by
        simp only [runtimeKey, mapGet, hk, if_false] at h
        exact h
      have ih' := ih hrest
      simp only [dropRuntime] at ih'
      cases hv : isRuntimeEntry (k', v) with
      | true => simp [dropRuntime, List.filter_cons, hv, mapGet, hk, ih']
      | false => simp [dropRuntime, List.filter_cons, hv, mapGet, hk, ih']

theorem runtimeKey_of_mem (services : Registry) (e : GoString × Option service)
    (hnd : (mapKeys services).Nodup) (he : e ∈ services) :
    runtimeKey services e.1 = isRuntimeEntry e := by
  obtain ⟨k, v⟩ := e
  simp [runtimeKey, isRuntimeEntry, mapGet_of_mem services k v hnd he]

theorem mapKeys_dropRuntime (services : Registry) (hnd : (mapKeys services).Nodup) :
    mapKeys (dropRuntime services)
      = (mapKeys services).filter (fun k => !runtimeKey services k) := by
  unfold mapKeys dropRuntime
  rw [List.filter_map]
  congr 1
  apply List.filter_congr
  intro e he
  simp [Function.comp, runtimeKey_of_mem services e hnd he]

theorem nodup_mapKeys_dropRuntime (services : Registry) (hnd : (mapKeys services).Nodup) :
    (mapKeys (dropRuntime services)).Nodup := by
  rw [mapKeys_dropRuntime services hnd]
  exact hnd.filter _

/-- The runtime services can be dropped from the registry before rendering. -/
theorem parseServices_dropRuntime (ro ro' : RangeOrder) (services : Registry)
    (hnd : (mapKeys services).Nodup) :
    parseServices ro services = parseServices ro' (dropRuntime services) := by
  unfold parseServices
  simp only
  rw [parseServicesLoop_skip, sortStrings_filter,
    sortStrings_congr _ _ ((ro.perm (mapKeys services)).filter _),
    ← mapKeys_dropRuntime services hnd,
    sortStrings_congr _ _ (ro'.perm (mapKeys (dropRuntime services))).symm]
  apply parseServicesLoop_congr
  intro k hk
  have hk' : k ∈ mapKeys (dropRuntime services) :=
    (ro'.perm _).subset ((sortStrings_perm _).subset hk)
  rw [mapKeys_dropRuntime services hnd, List.mem_filter] at hk'
  have : runtimeKey services k = false := by simpa using hk'.2
  exact (mapGet_dropRuntime services k this).symm

theorem mapGet_perm {β : Type} (m m' : List (GoString × β)) (k : GoString) (h : m.Perm m')
    (hnd : (mapKeys m).Nodup) : mapGet m k = mapGet m' k := by
  have hnd' : (mapKeys m').Nodup := (h.map Prod.fst).nodup_iff.1 hnd
  cases hg : mapGet m k with
  | some v =>
    exact (mapGet_of_mem m' k v hnd' (h.subset (mem_of_mapGet m k v hg))).symm
  | none =>
    have hk : k ∉ mapKeys m := (mapGet_eq_none_iff m k).1 hg
    have hk' : k ∉ mapKeys m' := fun hc => hk ((h.map Prod.fst).symm.subset hc)
    exact ((mapGet_eq_none_iff m' k).2 hk').symm

/-- Registries with the same entries render the same text. -/
theorem parseServices_perm (ro ro' : RangeOrder) (services services' : Registry)
    (h : services.Perm services') (hnd : (mapKeys services).Nodup) :
    parseServices ro services = parseServices ro' services' := by
  unfold parseServices
  simp only
  have hk : (ro.order (mapKeys services)).Perm (ro'.order (mapKeys services')) :=
    ((ro.perm _).trans (h.map Prod.fst)).trans (ro'.perm _).symm
  rw [sortStrings_congr _ _ hk]
  apply parseServicesLoop_congr
  intro k _
  exact mapGet_perm services services' k h hnd

theorem parseServicesLoop_records (services : Registry) (names : List GoString) :
    ∀ acc : GoString, (∀ k ∈ names, (mapGet services k).getD none ≠ none) →
      parseServicesLoop services names acc
        = .ok (acc ++ (names.filterMap (recordOf services)).flatten) := by
  induction names with
  | nil => intro acc _; simp [parseServicesLoop]
  | cons k rest ih =>
    intro acc h
    have hrest : ∀ k' ∈ rest, (mapGet services k').getD none ≠ none :=
      fun k' hk' => h k' (by simp [hk'])
    cases hv : (mapGet services k).getD none with
    | none => exact absurd hv (h k (by simp))
    | some s =>
      cases hrt : s.Runtime with
      | true =>
        simp only [parseServicesLoop, hv, hrt, Bool.not_true, Bool.false_eq_true, if_false]
        rw [ih acc hrest]
        simp [List.filterMap_cons, recordOf, hv, hrt]
      | false =>
        simp only [parseServicesLoop, hv, hrt, Bool.not_false, if_true]
        rw [ih _ hrest]
        simp [List.filterMap_cons, recordOf, hv, hrt]

/-- A registry without `null` values is rendered, record by record, along its
sorted keys. -/
theorem parseServices_records (ro : RangeOrder) (services : Registry)
    (hnd : (mapKeys services).Nodup) (hnn : ∀ e ∈ services, e.2 ≠ none) :
    parseServices ro services
      = .ok (((sortStrings (ro.order (mapKeys services))).filterMap
          (recordOf services)).flatten) := by
  unfold parseServices
  simp only
  rw [parseServicesLoop_records _ _ [] ?_]
  · simp
  · intro k hk
    have hk' : k ∈ mapKeys services := (ro.perm _).subset ((sortStrings_perm _).subset hk)
    obtain ⟨e, he, rfl⟩ := List.mem_map.1 hk'
    obtain ⟨k, v⟩ := e
    rw [mapGet_of_mem services k v hnd he]
    exact hnn _ he


/-! ### Claims about `parseServices` -/

/-- C3 (service order). For a registry with pairwise distinct keys and no
`null` value, the text returned by `parseServices` is the concatenation of the
records of the services that are not runtimes, taken along `names`, the keys
of the registry in strictly ascending byte-wise order; the record of a key is
`renderService` of the service registered under it, which carries its type
and its two version lists in their order. -/
theorem parseServices_sorted_records (ro : RangeOrder) (services : Registry)
    (hnd : (mapKeys services).Nodup) (hnn : ∀ e ∈ services, e.2 ≠ none) :
    ∃ names : List GoString,
      names.Perm (mapKeys services) ∧
      names.Sorted (fun a b => stringLess a b = true) ∧
      parseServices ro services = .ok ((names.filterMap (recordOf services)).flatten) ∧
      ∀ k ∈ names, ∃ s, (k, some s) ∈ services ∧
        recordOf services k = if s.Runtime then none else some (renderService s) := by
  refine ⟨sortStrings (ro.order (mapKeys services)),
    (sortStrings_perm _).trans (ro.perm _),
    sortStrings_strict _ ((ro.perm _).nodup_iff.2 hnd),
    parseServices_records ro services hnd hnn, ?_⟩
  intro k hk
  have hk' : k ∈ mapKeys services := (ro.perm _).subset ((sortStrings_perm _).subset hk)
  obtain ⟨e, he, rfl⟩ := List.mem_map.1 hk'
  obtain ⟨k, v⟩ := e
  cases v with
  | none => exact absurd rfl (hnn _ he)
  | some s =>
    refine ⟨s, he, ?_⟩
    simp [recordOf, mapGet_of_mem services k (some s) hnd he]

/-- Witness of C3: the registry with `redis` and the runtime `php`. -/
theorem parseServices_sorted_records_witness :
    ∃ names : List GoString,
      names.Perm (mapKeys exampleRegistry) ∧
      names.Sorted (fun a b => stringLess a b = true) ∧
      parseServices reverseOrder exampleRegistry
        = .ok ((names.filterMap (recordOf exampleRegistry)).flatten) ∧
      ∀ k ∈ names, ∃ s, (k, some s) ∈ exampleRegistry ∧
        recordOf exampleRegistry k = if s.Runtime then none else some (renderService s) :=
  parseServices_sorted_records reverseOrder exampleRegistry (by decide) (by decide)

/-- C4 (filtering invariant). Two registries, each with pairwise distinct keys,
that have the same entries once their runtime services are left out, render
the same result, whatever runtime services each holds and in whatever order the
keys are enumerated: adding, removing or altering a runtime entry changes
nothing. A registry with runtime services only renders the empty text. -/
theorem parseServices_ignores_runtime (ro1 ro2 : RangeOrder) (services1 services2 : Registry)
    (hnd1 : (mapKeys services1).Nodup) (hnd2 : (mapKeys services2).Nodup)
    (hsame : (dropRuntime services1).Perm (dropRuntime services2)) :
    parseServices ro1 services1 = parseServices ro2 services2 ∧
      (dropRuntime services1 = [] → parseServices ro1 services1 = .ok []) := by
  have h1 := parseServices_dropRuntime ro1 ro1 services1 hnd1
  have h2 := parseServices_dropRuntime ro2 ro2 services2 hnd2
  have h3 := parseServices_perm ro1 ro2 _ _ hsame (nodup_mapKeys_dropRuntime services1 hnd1)
  refine ⟨by rw [h1, h2, h3], ?_⟩
  intro hempty
  rw [h1, hempty]
  have hk : ro1.order (mapKeys ([] : Registry)) = [] := by
    have := ro1.perm (mapKeys ([] : Registry))
    simpa [mapKeys] using this
  simp [parseServices, hk, sortStrings, parseServicesLoop]

/-- Witness of C4: the registry with `redis` and the runtime `php` renders as the
registry with `redis` alone, which is exactly the record of `redis`. -/
theorem parseServices_ignores_runtime_witness :
    (parseServices insertionOrder exampleRegistry
        = parseServices reverseOrder [("redis".toList, some exampleRedis)] ∧
      (dropRuntime exampleRegistry = [] →
        parseServices insertionOrder exampleRegistry = .ok [])) ∧
    parseServices insertionOrder exampleRegistry = .ok (renderService exampleRedis) :=
  ⟨parseServices_ignores_runtime insertionOrder reverseOrder exampleRegistry
      [("redis".toList, some exampleRedis)] (by decide) (by decide) (by decide),
    by decide⟩

/-- C7 (determinism). The results do not depend on the order in which the maps
are enumerated: for any two enumeration orders `parseServices` returns the same
result on a registry, the padding width computed from the keys of the
extensions map is the same, and `parsePHPExtensions` returns the same result
on a body. -/
theorem results_independent_of_map_order (ro1 ro2 : RangeOrder) (lower : Char → Char)
    (body : GoString) (services : Registry) :
    parseServices ro1 services = parseServices ro2 services ∧
      (∀ keys : List GoString,
        maxNameLenOf (ro1.order keys) = maxNameLenOf (ro2.order keys)) ∧
      parsePHPExtensions ro1 lower body = parsePHPExtensions ro2 lower body := by
  refine ⟨?_, ?_, ?_⟩
  · unfold parseServices
    simp only
    rw [sortStrings_congr _ _ ((ro1.perm (mapKeys services)).trans (ro2.perm _).symm)]
  · intro keys
    rw [maxNameLenOf_range, maxNameLenOf_range]
  · unfold parsePHPExtensions parsePHPExtensionsLines
    cases scanLoop lower initState (scanLines body) with
    | error e => rfl
    | ok r =>
      simp only [renderExtensions]
      rw [maxNameLenOf_range, maxNameLenOf_range]


/-- C10 (empty-list rendering). For a registry with pairwise distinct keys and
no `null` value, the record of every service that is not a runtime is part of
the text returned by `parseServices`, and a record always holds a `Deprecated`
field followed by a `Supported` field: an empty (or absent) list renders the
explicit empty list `[]string{}`, a non-empty one the quoted labels separated
by `, `. -/
theorem parseServices_renders_both_lists (ro : RangeOrder) (services : Registry)
    (k : GoString) (s : service)
    (hnd : (mapKeys services).Nodup) (hnn : ∀ e ∈ services, e.2 ≠ none)
    (hmem : (k, some s) ∈ services) (hrt : s.Runtime = false) :
    (∃ before after : GoString,
      parseServices ro services = .ok (before ++ renderService s ++ after)) ∧
    renderService s
      = "\t\x7b\n\t\tType: \"".toList ++ s.Typ ++
        "\",\n\t\tVersions: serviceVersions\x7b\n".toList ++
        (if s.Versions.Deprecated = [] then "\t\t\tDeprecated: []string\x7b\x7d,\n".toList
         else "\t\t\tDeprecated: []string\x7b".toList ++
           stringsJoin (s.Versions.Deprecated.map quoted) ", ".toList ++ "\x7d,\n".toList) ++
        (if s.Versions.Supported = [] then "\t\t\tSupported: []string\x7b\x7d,\n".toList
         else "\t\t\tSupported:  []string\x7b".toList ++
           stringsJoin (s.Versions.Supported.map quoted) ", ".toList ++ "\x7d,\n".toList) ++
        "\t\t\x7d,\n\t\x7d,\n".toList := by
  constructor
  · rw [parseServices_records ro services hnd hnn]
    have hk : k ∈ sortStrings (ro.order (mapKeys services)) :=
      (sortStrings_perm _).symm.subset ((ro.perm _).symm.subset
        (List.mem_map.2 ⟨(k, some s), hmem, rfl⟩))
    obtain ⟨n1, n2, hsplit⟩ := List.append_of_mem hk
    have hrec : recordOf services k = some (renderService s) := by
      simp [recordOf, mapGet_of_mem services k (some s) hnd hmem, hrt]
    refine ⟨(n1.filterMap (recordOf services)).flatten,
      (n2.filterMap (recordOf services)).flatten, ?_⟩
    rw [hsplit]
    simp [List.filterMap_append, List.filterMap_cons, hrec]
  · have hq : ∀ vs : List GoString, vs ≠ [] →
        "\"".toList ++ stringsJoin vs "\", \"".toList ++ "\"".toList
          = stringsJoin (vs.map quoted) ", ".toList := by
      intro vs
      induction vs with
      | nil => intro h; exact absurd rfl h
      | cons v rest ih =>
        intro _
        cases rest with
        | nil => simp [stringsJoin, List.intercalate, quoted]
        | cons w rest2 =>
          have ih' := ih (by simp)
          rw [List.map_cons, List.map_cons, stringsJoin_cons_cons, stringsJoin_cons_cons]
          rw [List.map_cons] at ih'
          rw [← ih']
          simp [quoted]
    have hlen : ∀ vs : List GoString, (vs.length > 0) ↔ vs ≠ [] := by
      intro vs
      cases vs <;> simp
    by_cases hd : s.Versions.Deprecated = [] <;> by_cases hs : s.Versions.Supported = []
    · simp [renderService, hd, hs]
    · have := hq _ hs
      simp only [renderService, hd, (hlen _).2 hs, List.length_nil, gt_iff_lt, lt_self_iff_false,
        if_true, if_false, hs, ← this]
      simp
    · have := hq _ hd
      simp only [renderService, hs, (hlen _).2 hd, List.length_nil, gt_iff_lt, lt_self_iff_false,
        if_true, if_false, hd, ← this]
      simp
    · have h1 := hq _ hd
      have h2 := hq _ hs
      simp only [renderService, (hlen _).2 hs, (hlen _).2 hd, if_true, if_false, hd, hs,
        ← h1, ← h2]
      simp

/-- Witness of C10: `redis`, which has no deprecated version. -/
theorem parseServices_renders_both_lists_witness :
    (∃ before after : GoString,
      parseServices insertionOrder exampleRegistry
        = .ok (before ++ renderService exampleRedis ++ after)) ∧
    renderService exampleRedis
      = "\t\x7b\n\t\tType: \"".toList ++ exampleRedis.Typ ++
        "\",\n\t\tVersions: serviceVersions\x7b\n".toList ++
        (if exampleRedis.Versions.Deprecated = []
         then "\t\t\tDeprecated: []string\x7b\x7d,\n".toList
         else "\t\t\tDeprecated: []string\x7b".toList ++
           stringsJoin (exampleRedis.Versions.Deprecated.map quoted) ", ".toList ++
           "\x7d,\n".toList) ++
        (if exampleRedis.Versions.Supported = []
         then "\t\t\tSupported: []string\x7b\x7d,\n".toList
         else "\t\t\tSupported:  []string\x7b".toList ++
           stringsJoin (exampleRedis.Versions.Supported.map quoted) ", ".toList ++
           "\x7d,\n".toList) ++
        "\t\t\x7d,\n\t\x7d,\n".toList :=
  parseServices_renders_both_lists insertionOrder exampleRegistry "redis".toList exampleRedis
    (by decide) (by decide) (by decide) (by decide)


/-! ### Claims about `parsePHPExtensions` -/

/-- When the scanning loop succeeds, so does the rendering, and the text has one
line per entry of the map. -/
theorem parsePHPExtensionsLines_eq (ro : RangeOrder) (lower : Char → Char)
    (lines : List GoString) (st : ParseState) (b : Bool)
    (h : scanLoop lower initState lines = .ok (st, b)) :
    TableInv st ∧
    parsePHPExtensionsLines ro lower lines = .ok ((st.extensions.map (fun e =>
      extensionLine (maxNameLenOf (mapKeys st.extensions)) e.1 e.2)).flatten) := by
  have hinv := (scanLoop_inv lower lines initState st b TableInv_init h).1
  refine ⟨hinv, ?_⟩
  simp only [parsePHPExtensionsLines, h]
  exact renderExtensions_eq ro st hinv

theorem scanLoop_of_parse (ro : RangeOrder) (lower : Char → Char) (lines : List GoString)
    (text : GoString) (h : parsePHPExtensionsLines ro lower lines = .ok text) :
    ∃ st b, scanLoop lower initState lines = .ok (st, b) := by
  unfold parsePHPExtensionsLines at h
  cases hs : scanLoop lower initState lines with
  | error e => rw [hs] at h; simp at h
  | ok r => exact ⟨r.1, r.2, rfl⟩

/-- The entry of a data row with a new name is in the map at the end of the
scan. -/
theorem scanLoop_keeps_new_row (lower : Char → Char) (pre : List GoString) (row : GoString)
    (post : List GoString) (st stF : ParseState) (b : Bool) (cell : GoString)
    (markers : List GoString)
    (hreach : scanLoop lower initState pre = .ok (st, false))
    (hstarted : st.started = true)
    (hsep : hasPrefix row separatorPrefix = false) (hrow : hasPrefix row rowPrefix = true)
    (hparse : parseLine row = .ok (cell, markers))
    (hfirst : mapGet st.extensions (normalizeName lower cell) = none)
    (hlen : markers.length ≤ st.versions.length)
    (hscan : scanLoop lower initState (pre ++ row :: post) = .ok (stF, b)) :
    TableInv stF ∧
      (normalizeName lower cell, markedLabels st.versions markers) ∈ stF.extensions := by
  have hinvF := (scanLoop_inv lower _ initState stF b TableInv_init hscan).1
  have hinv := (scanLoop_inv lower pre initState st false TableInv_init hreach).1
  rw [scanLoop_append lower pre (row :: post) initState st hreach] at hscan
  obtain ⟨st1, hb, he, _⟩ := loopBody_new lower st row cell markers hstarted hsep hrow hparse
    hfirst hlen
  have hinv1 := (loopBody_inv lower st row _ hinv hb).1
  simp only [scanLoop, hb] at hscan
  have hpre := (scanLoop_inv lower post st1 stF b hinv1 hscan).2.1
  refine ⟨hinvF, hpre.subset ?_⟩
  simp only [LoopStep.state] at hinv1
  rw [he]
  simp

theorem flatten_map_of_mem {α : Type} (l : List α) (f : α → GoString) (e : α) (h : e ∈ l) :
    ∃ before after : GoString, (l.map f).flatten = before ++ f e ++ after := by
  obtain ⟨l1, l2, rfl⟩ := List.append_of_mem h
  exact ⟨(l1.map f).flatten, (l2.map f).flatten, by simp⟩

theorem filter_key_of_mem (m : ExtMap) (k : GoString) (v : List GoString)
    (hnd : (mapKeys m).Nodup) (h : (k, v) ∈ m) :
    m.filter (fun e => decide (e.1 = k)) = [(k, v)] := by
  induction m with
  | nil => simp at h
  | cons e rest ih =>
    obtain ⟨k', v'⟩ := e
    simp only [mapKeys, List.map_cons, List.nodup_cons] at hnd
    rcases List.mem_cons.1 h with heq | hmem
    · simp only [Prod.mk.injEq] at heq
      obtain ⟨rfl, rfl⟩ := heq
      have : rest.filter (fun e => decide (e.1 = k)) = [] := by
        rw [List.filter_eq_nil_iff]
        intro e he hk
        simp only [decide_eq_true_eq] at hk
        exact hnd.1 (List.mem_map.2 ⟨e, he, hk⟩)
      simp [List.filter_cons, this]
    · have hk : k' ≠ k := by
        intro e
        apply hnd.1
        rw [e]
        exact List.mem_map.2 ⟨(k, v), hmem, rfl⟩
      simp only [List.filter_cons, hk, decide_False, Bool.false_eq_true, if_false]
      exact ih hnd.2 hmem

/-- The availability mapping against the labels the loop holds. Let the scanning
loop reach `row` with the table started and holding the labels `st.versions`,
let `row` be a data row whose cells are `cell` and the markers `markers`, at
most as many as the labels, and let its normalised name be new. Then, if the
run succeeds, the text holds the line of that name, and the version list on
that line is the labels at the positions whose marker, trimmed, is not empty,
in column order. (The labels held are those of the header line only as long as
no data row that starts with `| Extension` has replaced them.) -/
theorem availability_against_held_labels (ro : RangeOrder) (lower : Char → Char) (body : GoString)
    (pre : List GoString) (row : GoString) (post : List GoString) (st : ParseState)
    (cell : GoString) (markers : List GoString) (text : GoString)
    (hlines : scanLines body = pre ++ row :: post)
    (hreach : scanLoop lower initState pre = .ok (st, false))
    (hstarted : st.started = true)
    (hsep : hasPrefix row separatorPrefix = false) (hrow : hasPrefix row rowPrefix = true)
    (hparse : parseLine row = .ok (cell, markers))
    (hfirst : mapGet st.extensions (normalizeName lower cell) = none)
    (hlen : markers.length ≤ st.versions.length)
    (hrun : parsePHPExtensions ro lower body = .ok text) :
    ∃ (before after : GoString) (maxNameLen : Nat),
      text = before ++
        extensionLine maxNameLen (normalizeName lower cell)
          (((markers.zip st.versions).filter (fun p => p.1 ≠ [])).map Prod.snd) ++ after := by
  unfold parsePHPExtensions at hrun
  rw [hlines] at hrun
  obtain ⟨stF, b, hscan⟩ := scanLoop_of_parse ro lower _ text hrun
  have hmem := (scanLoop_keeps_new_row lower pre row post st stF b cell markers hreach hstarted
    hsep hrow hparse hfirst hlen hscan).2
  rw [(parsePHPExtensionsLines_eq ro lower _ stF b hscan).2] at hrun
  simp only [Except.ok.injEq] at hrun
  obtain ⟨before, after, hsplit⟩ := flatten_map_of_mem stF.extensions
    (fun e => extensionLine (maxNameLenOf (mapKeys stF.extensions)) e.1 e.2) _ hmem
  exact ⟨before, after, maxNameLenOf (mapKeys stF.extensions), by rw [← hrun, hsplit]; rfl⟩

/-- A later row with a known name adds no entry. Let `row1` be a data row with a
new normalised name, read with the labels `st.versions`, and `row2` a later
data row with the same normalised name, read in the state `st2`. Then the
iteration on `row2` goes on with the map and the ordered names unchanged, and,
if the run succeeds, the text is one line per kept extension, exactly one of
these entries has that name, and it carries the version list computed from
`row1`. (The labels are not covered: the iteration on `row2` may replace them,
when it starts with `| Extension`.) -/
theorem duplicate_rows_add_no_entry (ro : RangeOrder) (lower : Char → Char) (body : GoString)
    (pre : List GoString) (row1 : GoString) (mid : List GoString) (row2 : GoString)
    (post : List GoString) (st st2 : ParseState)
    (cell1 : GoString) (markers1 : List GoString) (cell2 : GoString) (markers2 : List GoString)
    (text : GoString)
    (hlines : scanLines body = pre ++ row1 :: (mid ++ row2 :: post))
    (hreach : scanLoop lower initState pre = .ok (st, false))
    (hstarted : st.started = true)
    (hsep1 : hasPrefix row1 separatorPrefix = false) (hrow1 : hasPrefix row1 rowPrefix = true)
    (hparse1 : parseLine row1 = .ok (cell1, markers1))
    (hfirst : mapGet st.extensions (normalizeName lower cell1) = none)
    (hlen : markers1.length ≤ st.versions.length)
    (hreach2 : scanLoop lower initState (pre ++ row1 :: mid) = .ok (st2, false))
    (hsep2 : hasPrefix row2 separatorPrefix = false) (hrow2 : hasPrefix row2 rowPrefix = true)
    (hparse2 : parseLine row2 = .ok (cell2, markers2))
    (hsame : normalizeName lower cell2 = normalizeName lower cell1)
    (hrun : parsePHPExtensions ro lower body = .ok text) :
    (∃ st3, loopBody lower st2 row2 = .ok (.next st3) ∧
      st3.extensions = st2.extensions ∧
      st3.orderedExtensionNames = st2.orderedExtensionNames) ∧
    ∃ (stF : ParseState) (b : Bool),
      scanLoop lower initState (scanLines body) = .ok (stF, b) ∧
      text = (stF.extensions.map (fun e =>
        extensionLine (maxNameLenOf (mapKeys stF.extensions)) e.1 e.2)).flatten ∧
      stF.extensions.filter (fun e => decide (e.1 = normalizeName lower cell1))
        = [(normalizeName lower cell1,
            ((markers1.zip st.versions).filter (fun p => p.1 ≠ [])).map Prod.snd)] := by
  constructor
  · have h2 := scanLoop_keeps_new_row lower pre row1 mid st st2 false cell1 markers1 hreach
      hstarted hsep1 hrow1 hparse1 hfirst hlen hreach2
    have hinv := (scanLoop_inv lower pre initState st false TableInv_init hreach).1
    have hreach2' : scanLoop lower st (row1 :: mid) = .ok (st2, false) := by
      rw [← scanLoop_append lower pre (row1 :: mid) initState st hreach]
      exact hreach2
    have hst2 := (scanLoop_inv lower _ st st2 false hinv hreach2').2.2 hstarted
    have hget : mapGet st2.extensions (normalizeName lower cell2)
        = some (markedLabels st.versions markers1) := by
      rw [hsame]
      exact mapGet_of_mem _ _ _ h2.1.2 h2.2
    exact loopBody_dup lower st2 row2 cell2 markers2 _ hst2 hsep2 hrow2 hparse2 hget
  · unfold parsePHPExtensions at hrun
    obtain ⟨stF, b, hscan⟩ := scanLoop_of_parse ro lower _ text hrun
    rw [(parsePHPExtensionsLines_eq ro lower _ stF b hscan).2] at hrun
    simp only [Except.ok.injEq] at hrun
    refine ⟨stF, b, hscan, hrun.symm, ?_⟩
    rw [hlines] at hscan
    have hF := scanLoop_keeps_new_row lower pre row1 (mid ++ row2 :: post) st stF b cell1
      markers1 hreach hstarted hsep1 hrow1 hparse1 hfirst hlen hscan
    exact filter_key_of_mem stF.extensions _ _ hF.1.2 hF.2


/-- C5 (extension order). If the run succeeds, the text is one line per distinct
normalised name of the data rows, in the order in which the names first occur
in the table: the i-th line is the line of the i-th such name, with the version
list kept for it, and there are as many lines as distinct names. The data rows
are those the loop takes: the lines after the first one starting with
`| Extension`, up to the first one not starting with `| `, without those
starting with `| ---`. -/
theorem extension_lines_in_row_order (ro : RangeOrder) (lower : Char → Char)
    (body text : GoString) (hrun : parsePHPExtensions ro lower body = .ok text) :
    ∃ (stF : ParseState) (b : Bool),
      scanLoop lower initState (scanLines body) = .ok (stF, b) ∧
      mapKeys stF.extensions
        = firstOccurrences ((dataRows (scanLines body)).map (rowName lower)) ∧
      text = ((firstOccurrences ((dataRows (scanLines body)).map (rowName lower))).map
        (fun name => extensionLine (maxNameLenOf (mapKeys stF.extensions)) name
          ((mapGet stF.extensions name).getD []))).flatten := by
  unfold parsePHPExtensions at hrun
  obtain ⟨stF, b, hscan⟩ := scanLoop_of_parse ro lower _ text hrun
  obtain ⟨hinv, heq⟩ := parsePHPExtensionsLines_eq ro lower _ stF b hscan
  rw [heq] at hrun
  simp only [Except.ok.injEq] at hrun
  have hnames := scanLoop_names lower _ initState stF b TableInv_init rfl hscan
  rw [show initState.orderedExtensionNames = [] from rfl, appendNew_nil, hinv.1] at hnames
  refine ⟨stF, b, hscan, hnames, ?_⟩
  rw [← hnames, ← hrun]
  unfold mapKeys
  rw [List.map_map]
  congr 1
  apply List.map_congr_left
  intro e he
  simp [Function.comp, mapGet_of_mem stF.extensions e.1 e.2 hinv.2 he]

/-- Witness of C5: `zip` before `apcu`, as in the table. -/
theorem extension_lines_in_row_order_witness :
    firstOccurrences ((dataRows (scanLines exampleOrder)).map (rowName Char.toLower))
      = ["zip".toList, "apcu".toList] ∧
    ∃ (stF : ParseState) (b : Bool),
      scanLoop Char.toLower initState (scanLines exampleOrder) = .ok (stF, b) ∧
      mapKeys stF.extensions
        = firstOccurrences ((dataRows (scanLines exampleOrder)).map (rowName Char.toLower)) ∧
      "\t\"zip\":  \x7b\"7.4\"\x7d,\n\t\"apcu\": \x7b\x7d,\n".toList
        = ((firstOccurrences ((dataRows (scanLines exampleOrder)).map
              (rowName Char.toLower))).map
          (fun name => extensionLine (maxNameLenOf (mapKeys stF.extensions)) name
            ((mapGet stF.extensions name).getD []))).flatten :=
  ⟨by decide,
   extension_lines_in_row_order insertionOrder Char.toLower exampleOrder
    "\t\"zip\":  \x7b\"7.4\"\x7d,\n\t\"apcu\": \x7b\x7d,\n".toList (by decide)⟩


/-- C8 (version-list rendering). For every extension `name` kept in the map at
the end of the scan with the version list `vs`, the run succeeds and the text
holds the line of `name`, which ends with an opening brace, the labels of `vs`
each between double quotes and separated by comma and space, with nothing
after the last one, then a closing brace, a comma and a newline; for an empty
`vs` the line ends with the empty list. -/
theorem version_list_rendering (ro : RangeOrder) (lower : Char → Char) (body : GoString)
    (st : ParseState) (b : Bool) (name : GoString) (vs : List GoString)
    (hscan : scanLoop lower initState (scanLines body) = .ok (st, b))
    (hkept : (name, vs) ∈ st.extensions) :
    ∃ (before after head : GoString),
      head = "\t\"".toList ++ name ++ "\":".toList ++
        List.replicate (maxNameLenOf (mapKeys st.extensions) - len name + 1) ' ' ∧
      parsePHPExtensions ro lower body
        = .ok (before ++ (head ++ ['\x7b'] ++ stringsJoin (vs.map quoted) ", ".toList ++
            "\x7d,\n".toList) ++ after) ∧
      (vs = [] →
        parsePHPExtensions ro lower body
          = .ok (before ++ (head ++ "\x7b\x7d,\n".toList) ++ after)) := by
  obtain ⟨_, heq⟩ := parsePHPExtensionsLines_eq ro lower _ st b hscan
  obtain ⟨before, after, hsplit⟩ := flatten_map_of_mem st.extensions
    (fun e => extensionLine (maxNameLenOf (mapKeys st.extensions)) e.1 e.2) _ hkept
  refine ⟨before, after, _, rfl, ?_, ?_⟩
  · unfold parsePHPExtensions
    rw [heq, hsplit]
    rfl
  · intro hvs
    unfold parsePHPExtensions
    rw [heq, hsplit, hvs]
    simp [extensionLine, stringsJoin, List.intercalate]

/-- Witness of C8: `imagick` with two versions. -/
theorem version_list_rendering_witness :
    ∃ (before after head : GoString),
      head = "\t\"".toList ++ "imagick".toList ++ "\":".toList ++
        List.replicate (maxNameLenOf (mapKeys
          [("imagick".toList, ["7.4".toList, "8.0".toList])]) - len "imagick".toList + 1) ' ' ∧
      parsePHPExtensions insertionOrder Char.toLower
          "| Extension | 7.4 | 8.0 |\n| --- | --- | --- |\n| Imagick | X | X |\n".toList
        = .ok (before ++ (head ++ ['\x7b'] ++
            stringsJoin (["7.4".toList, "8.0".toList].map quoted) ", ".toList ++
            "\x7d,\n".toList) ++ after) ∧
      (["7.4".toList, "8.0".toList] = [] →
        parsePHPExtensions insertionOrder Char.toLower
            "| Extension | 7.4 | 8.0 |\n| --- | --- | --- |\n| Imagick | X | X |\n".toList
          = .ok (before ++ (head ++ "\x7b\x7d,\n".toList) ++ after)) :=
  version_list_rendering insertionOrder Char.toLower
    "| Extension | 7.4 | 8.0 |\n| --- | --- | --- |\n| Imagick | X | X |\n".toList
    { versions := ["7.4".toList, "8.0".toList], orderedExtensionNames := ["imagick".toList],
      extensions := [("imagick".toList, ["7.4".toList, "8.0".toList])], started := true,
      logged := [] }
    false "imagick".toList ["7.4".toList, "8.0".toList] (by decide) (by decide)

/-! ### Alignment of the extensions block -/

theorem len_append (a b : GoString) : len (a ++ b) = len a + len b := by
  simp [len]

theorem len_replicate_space (n : Nat) : len (List.replicate n ' ') = n := by
  induction n with
  | zero => rfl
  | succ n ih =>
    rw [List.replicate_succ, show ' ' :: List.replicate n ' ' = [' '] ++ List.replicate n ' ' from rfl,
      len_append, ih]
    have : len [' '] = 1 := by decide
    omega

theorem foldl_maxNameLen_attained (names : List GoString) :
    ∀ (m : Nat),
      names.foldl (fun maxNameLen name => if len name > maxNameLen then len name else maxNameLen) m
        = m ∨
      ∃ name ∈ names, len name = names.foldl
        (fun maxNameLen name => if len name > maxNameLen then len name else maxNameLen) m := by
  induction names with
  | nil => intro m; exact Or.inl rfl
  | cons n ns ih =>
    intro m
    simp only [List.foldl_cons]
    rcases ih (if len n > m then len n else m) with h | ⟨name, hname, h⟩
    · by_cases hn : len n > m
      · simp only [hn, if_true] at h ⊢
        exact Or.inr ⟨n, by simp, h.symm⟩
      · simp only [hn, if_false] at h ⊢
        exact Or.inl h
    · exact Or.inr ⟨name, by simp [hname], h⟩

theorem maxNameLenOf_attained (names : List GoString) (h : names ≠ []) :
    ∃ name ∈ names, len name = maxNameLenOf names := by
  rcases foldl_maxNameLen_attained names 0 with h0 | h1
  · cases names with
    | nil => exact absurd rfl h
    | cons n ns =>
      refine ⟨n, by simp, ?_⟩
      have := len_le_maxNameLenOf (n :: ns) n (by simp)
      unfold maxNameLenOf at this ⊢
      omega
  · exact h1

/-- C9 as stated fails: in the text rendered for a table with the names `a` and
`bcd` the colons of the two lines are at different offsets. -/
theorem colon_alignment_counterexample :
    parsePHPExtensions insertionOrder Char.toLower exampleTwoNames
      = .ok ("\t\"a\":   \x7b\"7.4\"\x7d,\n".toList ++ "\t\"bcd\": \x7b\"7.4\"\x7d,\n".toList) ∧
    stringsIndex "\t\"a\":   \x7b\"7.4\"\x7d,\n".toList [':'] = 4 ∧
    stringsIndex "\t\"bcd\": \x7b\"7.4\"\x7d,\n".toList [':'] = 6 := by
  decide

/-- C9, amended (brace alignment). When the scan succeeds, so does the run, and
with `w` the greatest byte length of a kept name every line is a tab, the
quoted name, the colon right after it, then `w - len name + 1` spaces and the
opening brace: the colon is at byte offset `len name + 3`, the name and the
padding take `w + 1` bytes together, and the opening brace of every line is
at byte offset `w + 5`. -/
theorem brace_alignment (ro : RangeOrder) (lower : Char → Char) (body : GoString)
    (st : ParseState) (b : Bool)
    (hscan : scanLoop lower initState (scanLines body) = .ok (st, b)) :
    ∃ w : Nat,
      (∀ e ∈ st.extensions, len e.1 ≤ w) ∧
      (st.extensions ≠ [] → ∃ e ∈ st.extensions, len e.1 = w) ∧
      parsePHPExtensions ro lower body
        = .ok ((st.extensions.map (fun e => extensionLine w e.1 e.2)).flatten) ∧
      ∀ e ∈ st.extensions, ∃ rest : GoString,
        extensionLine w e.1 e.2
          = "\t\"".toList ++ e.1 ++ "\"".toList ++ ':' ::
              (List.replicate (w - len e.1 + 1) ' ' ++ '\x7b' :: rest) ∧
        len ("\t\"".toList ++ e.1 ++ "\"".toList) = len e.1 + 3 ∧
        len e.1 + len (List.replicate (w - len e.1 + 1) ' ') = w + 1 ∧
        len ("\t\"".toList ++ e.1 ++ "\"".toList ++ ':' ::
              List.replicate (w - len e.1 + 1) ' ') = w + 5 := by
  obtain ⟨_, heq⟩ := parsePHPExtensionsLines_eq ro lower _ st b hscan
  have hle : ∀ e ∈ st.extensions, len e.1 ≤ maxNameLenOf (mapKeys st.extensions) :=
    fun e he => len_le_maxNameLenOf _ _ (List.mem_map.2 ⟨e, he, rfl⟩)
  refine ⟨maxNameLenOf (mapKeys st.extensions), hle, ?_, heq, ?_⟩
  · intro hne
    obtain ⟨name, hname, hlen⟩ := maxNameLenOf_attained (mapKeys st.extensions)
      (by simpa [mapKeys] using hne)
    obtain ⟨e, he, rfl⟩ := List.mem_map.1 hname
    exact ⟨e, he, hlen⟩
  · intro e he
    have h1 := hle e he
    have h2 : len "\t\"".toList = 2 := by decide
    have h3 : len "\"".toList = 1 := by decide
    have h4 : ∀ t : GoString, len (':' :: t) = 1 + len t := by
      intro t
      rw [show ':' :: t = [':'] ++ t from rfl, len_append]
      have : len [':'] = 1 := by decide
      omega
    refine ⟨stringsJoin (e.2.map quoted) ", ".toList ++ "\x7d,\n".toList, ?_, ?_, ?_, ?_⟩
    · simp [extensionLine]
    · rw [len_append, len_append, h2, h3]
      omega
    · rw [len_replicate_space]
      omega
    · rw [len_append, len_append, len_append, h2, h3, h4, len_replicate_space]
      omega

/-- Witness of C9, amended: the table with the names `a` and `bcd`. -/
theorem brace_alignment_witness :
    ∃ w : Nat,
      (∀ e ∈ [("a".toList, ["7.4".toList]), ("bcd".toList, ["7.4".toList])], len e.1 ≤ w) ∧
      (([("a".toList, ["7.4".toList]), ("bcd".toList, ["7.4".toList])] : ExtMap) ≠ [] →
        ∃ e ∈ [("a".toList, ["7.4".toList]), ("bcd".toList, ["7.4".toList])], len e.1 = w) ∧
      parsePHPExtensions insertionOrder Char.toLower exampleTwoNames
        = .ok (([("a".toList, ["7.4".toList]), ("bcd".toList, ["7.4".toList])].map
            (fun e => extensionLine w e.1 e.2)).flatten) ∧
      ∀ e ∈ [("a".toList, ["7.4".toList]), ("bcd".toList, ["7.4".toList])], ∃ rest : GoString,
        extensionLine w e.1 e.2
          = "\t\"".toList ++ e.1 ++ "\"".toList ++ ':' ::
              (List.replicate (w - len e.1 + 1) ' ' ++ '\x7b' :: rest) ∧
        len ("\t\"".toList ++ e.1 ++ "\"".toList) = len e.1 + 3 ∧
        len e.1 + len (List.replicate (w - len e.1 + 1) ' ') = w + 1 ∧
        len ("\t\"".toList ++ e.1 ++ "\"".toList ++ ':' ::
              List.replicate (w - len e.1 + 1) ' ') = w + 5 :=
  brace_alignment insertionOrder Char.toLower exampleTwoNames
    { versions := ["7.4".toList], orderedExtensionNames := ["a".toList, "bcd".toList],
      extensions := [("a".toList, ["7.4".toList]), ("bcd".toList, ["7.4".toList])],
      started := true, logged := [] }
    false (by decide)


/-! ### The shape of the table: header, separator rows, end -/

theorem loopBody_not_header (lower : Char → Char) (st : ParseState) (line : GoString)
    (hst : st.started = false) (hh : hasPrefix line headerPrefix = false) :
    loopBody lower st line = .ok (.next st) := by
  simp [loopBody, hst, headerCheck, hh]

theorem loopBody_header (lower : Char → Char) (st : ParseState) (line cell : GoString)
    (labels : List GoString) (hst : st.started = false)
    (hh : hasPrefix line headerPrefix = true) (hp : parseLine line = .ok (cell, labels)) :
    loopBody lower st line = .ok (.next { st with started := true, versions := labels }) := by
  simp [loopBody, hst, headerCheck, hh, hp]

theorem scanLoop_before_header (lower : Char → Char) (pre : List GoString)
    (hpre : ∀ l ∈ pre, hasPrefix l headerPrefix = false) :
    scanLoop lower initState pre = .ok (initState, false) := by
  induction pre with
  | nil => rfl
  | cons l rest ih =>
    simp only [scanLoop, loopBody_not_header lower initState l rfl (hpre l (by simp))]
    exact ih (fun l' hl' => hpre l' (by simp [hl']))

/-- C11 as stated fails: the line `| Extensions | 7.4 |`, whose first cell is not
`Extension`, is taken as the header line, and the row under it is emitted. -/
theorem header_equality_counterexample :
    parseLine "| Extensions | 7.4 |".toList = .ok ("Extensions".toList, ["7.4".toList]) ∧
    "Extensions".toList ≠ "Extension".toList ∧
    scanLoop Char.toLower initState ["| Extensions | 7.4 |".toList]
      = .ok (exampleHeaderState74, false) ∧
    parsePHPExtensions insertionOrder Char.toLower examplePluralHeader
      = .ok "\t\"intl\": \x7b\"7.4\"\x7d,\n".toList := by
  decide

/-- C11, amended (header recognition by prefix). The lines before the first line
that starts with `| Extension` leave the state of the loop untouched and
contribute nothing to the result. In the initial phase a line is taken as the
header line exactly when it starts with the text `| Extension`: such a line
starts the table with its cells as labels, whatever follows `Extension` in
its first cell, and any other line changes nothing. -/
theorem header_recognised_by_prefix (ro : RangeOrder) (lower : Char → Char) (body : GoString)
    (pre : List GoString) (line : GoString) (rest : List GoString)
    (hlines : scanLines body = pre ++ line :: rest)
    (hpre : ∀ l ∈ pre, hasPrefix l headerPrefix = false) :
    scanLoop lower initState pre = .ok (initState, false) ∧
    parsePHPExtensions ro lower body = parsePHPExtensionsLines ro lower (line :: rest) ∧
    (hasPrefix line headerPrefix = false →
      loopBody lower initState line = .ok (.next initState)) ∧
    (hasPrefix line headerPrefix = true → ∀ (cell : GoString) (labels : List GoString),
      parseLine line = .ok (cell, labels) →
      loopBody lower initState line
        = .ok (.next { initState with started := true, versions := labels })) := by
  have h0 := scanLoop_before_header lower pre hpre
  refine ⟨h0, ?_, ?_, ?_⟩
  · unfold parsePHPExtensions parsePHPExtensionsLines
    rw [hlines, scanLoop_append lower pre (line :: rest) initState initState h0]
  · intro hh
    exact loopBody_not_header lower initState line rfl hh
  · intro hh cell labels hp
    exact loopBody_header lower initState line cell labels rfl hh hp

/-- Witness of C11, amended: a title line, then the header line
`| Extension name | 7.4 |`. -/
theorem header_recognised_by_prefix_witness :
    scanLoop Char.toLower initState ["# PHP".toList] = .ok (initState, false) ∧
    parsePHPExtensions insertionOrder Char.toLower
        "# PHP\n| Extension name | 7.4 |\n| intl | X |\n".toList
      = parsePHPExtensionsLines insertionOrder Char.toLower
          ["| Extension name | 7.4 |".toList, "| intl | X |".toList] ∧
    (hasPrefix "| Extension name | 7.4 |".toList headerPrefix = false →
      loopBody Char.toLower initState "| Extension name | 7.4 |".toList
        = .ok (.next initState)) ∧
    (hasPrefix "| Extension name | 7.4 |".toList headerPrefix = true →
      ∀ (cell : GoString) (labels : List GoString),
      parseLine "| Extension name | 7.4 |".toList = .ok (cell, labels) →
      loopBody Char.toLower initState "| Extension name | 7.4 |".toList
        = .ok (.next { initState with started := true, versions := labels })) :=
  header_recognised_by_prefix insertionOrder Char.toLower
    "# PHP\n| Extension name | 7.4 |\n| intl | X |\n".toList ["# PHP".toList]
    "| Extension name | 7.4 |".toList ["| intl | X |".toList] (by decide) (by decide)

/-- C12 fails on the code: the data row `| Extension_x | X | X |` is resolved
against the header labels and then replaces them by its own markers, so the
next row `| intl | X |  |` is resolved against the labels `X`, `X` and is
emitted with the version `X` instead of `7.4`. -/
theorem labels_replaced_by_data_row :
    scanLoop Char.toLower initState
        ["| Extension | 7.4 | 8.0 |".toList, "| --- | --- | --- |".toList]
      = .ok (exampleHeaderState, false) ∧
    (∃ st1, loopBody Char.toLower exampleHeaderState "| Extension_x | X | X |".toList
        = .ok (.next st1) ∧
      st1.versions = ["X".toList, "X".toList] ∧
      st1.extensions = [("extension_x".toList, ["7.4".toList, "8.0".toList])]) ∧
    parsePHPExtensions insertionOrder Char.toLower exampleRelabel
      = .ok ("\t\"extension_x\": \x7b\"7.4\", \"8.0\"\x7d,\n".toList ++
          "\t\"intl\":        \x7b\"X\"\x7d,\n".toList) := by
  refine ⟨by decide, ⟨_, rfl, by decide, by decide⟩, by decide⟩

/-- C13 as stated fails: the row `|foo | X |` begins with the delimiter, yet it
is not processed as a data row: it ends the table, and neither it nor the
row after it is emitted. -/
theorem table_end_counterexample :
    hasPrefix "|foo | X |".toList pipe = true ∧
    scanLoop Char.toLower initState
        ["| Extension | 7.4 |".toList, "| --- | --- |".toList]
      = .ok (exampleHeaderState74, false) ∧
    loopBody Char.toLower exampleHeaderState74 "|foo | X |".toList
      = .ok (.stop exampleHeaderState74) ∧
    parsePHPExtensions insertionOrder Char.toLower exampleNoSpace = .ok [] := by
  decide

/-- C13, amended (table end). Once the table has started, the loop stops at the
first row that does not start with `| `, the delimiter followed by a space:
the result of the run is the rendering of the state reached before that row,
the same as for the lines before it alone, so no row at or after that point
contributes anything. A row that starts with `| ` never stops the loop: unless
it starts with `| ---`, a successful iteration parses it as a data row and
goes on. -/
theorem table_ends_without_row_prefix (ro : RangeOrder) (lower : Char → Char) (body : GoString)
    (pre : List GoString) (last : GoString) (post : List GoString) (st : ParseState)
    (hlines : scanLines body = pre ++ last :: post)
    (hreach : scanLoop lower initState pre = .ok (st, false))
    (hstarted : st.started = true)
    (hlast : hasPrefix last rowPrefix = false) :
    scanLoop lower initState (scanLines body) = .ok (st, true) ∧
    parsePHPExtensions ro lower body = renderExtensions ro st ∧
    parsePHPExtensions ro lower body = parsePHPExtensionsLines ro lower pre ∧
    ∀ (st0 : ParseState) (row : GoString) (step : LoopStep), st0.started = true →
      hasPrefix row rowPrefix = true → hasPrefix row separatorPrefix = false →
      loopBody lower st0 row = .ok step →
      ∃ cell markers st1, parseLine row = .ok (cell, markers) ∧ step = .next st1 := by
  have hscan : scanLoop lower initState (scanLines body) = .ok (st, true) := by
    rw [hlines, scanLoop_append lower pre (last :: post) initState st hreach]
    simp only [scanLoop, loopBody_end lower st last hstarted hlast]
  refine ⟨hscan, ?_, ?_, ?_⟩
  · simp only [parsePHPExtensions, parsePHPExtensionsLines, hscan]
  · simp only [parsePHPExtensions, parsePHPExtensionsLines, hscan, hreach]
  · intro st0 row step hst0 hrow hsep hb
    obtain ⟨cell, markers, st1, hp, hstep, _⟩ :=
      loopBody_row_inv lower st0 row step hst0 hsep hrow hb
    exact ⟨cell, markers, st1, hp, hstep⟩

/-- Witness of C13, amended: the table stops at `|foo | X |`. -/
theorem table_ends_without_row_prefix_witness :
    scanLoop Char.toLower initState (scanLines exampleNoSpace)
      = .ok (exampleHeaderState74, true) ∧
    parsePHPExtensions insertionOrder Char.toLower exampleNoSpace
      = renderExtensions insertionOrder exampleHeaderState74 ∧
    parsePHPExtensions insertionOrder Char.toLower exampleNoSpace
      = parsePHPExtensionsLines insertionOrder Char.toLower
          ["| Extension | 7.4 |".toList, "| --- | --- |".toList] ∧
    ∀ (st0 : ParseState) (row : GoString) (step : LoopStep), st0.started = true →
      hasPrefix row rowPrefix = true → hasPrefix row separatorPrefix = false →
      loopBody Char.toLower st0 row = .ok step →
      ∃ cell markers st1, parseLine row = .ok (cell, markers) ∧ step = .next st1 :=
  table_ends_without_row_prefix insertionOrder Char.toLower exampleNoSpace
    ["| Extension | 7.4 |".toList, "| --- | --- |".toList] "|foo | X |".toList
    ["| bar | X |".toList] exampleHeaderState74 (by decide) (by decide) (by decide) (by decide)

/-- C14 as stated fails: the later row `| ---bar | X |`, whose first cell is
`---bar`, is skipped like the separator row: it yields no entry. -/
theorem separator_counterexample :
    parseLine "| ---bar | X |".toList = .ok ("---bar".toList, ["X".toList]) ∧
    scanLoop Char.toLower initState
        ["| Extension | 7.4 |".toList, "| --- | --- |".toList, "| foo | X |".toList]
      = .ok (exampleFooState, false) ∧
    loopBody Char.toLower exampleFooState "| ---bar | X |".toList
      = .ok (.next exampleFooState) ∧
    parsePHPExtensions insertionOrder Char.toLower exampleDashes
      = .ok ("\t\"foo\": \x7b\"7.4\"\x7d,\n".toList ++ "\t\"baz\": \x7b\"7.4\"\x7d,\n".toList) := by
  decide

/-- C14, amended (separator skipping). Once the table has started, every row
that starts with `| ---` is skipped, wherever it stands in the table: the
iteration leaves the state as it is, and the result of the run is that of the
document without that row. Every other row that starts with `| ` is, in a
successful iteration, parsed as a data row: its name is found in the map, which
stays as it is, or it is appended to the map as a new entry. -/
theorem separator_rows_skipped (ro : RangeOrder) (lower : Char → Char) (body : GoString)
    (pre : List GoString) (sep : GoString) (post : List GoString) (st : ParseState)
    (hlines : scanLines body = pre ++ sep :: post)
    (hreach : scanLoop lower initState pre = .ok (st, false))
    (hstarted : st.started = true)
    (hsep : hasPrefix sep separatorPrefix = true) :
    loopBody lower st sep = .ok (.next st) ∧
    parsePHPExtensions ro lower body = parsePHPExtensionsLines ro lower (pre ++ post) ∧
    ∀ (st0 : ParseState) (row : GoString) (step : LoopStep), st0.started = true →
      hasPrefix row rowPrefix = true → hasPrefix row separatorPrefix = false →
      loopBody lower st0 row = .ok step →
      ∃ cell markers st1, parseLine row = .ok (cell, markers) ∧ step = .next st1 ∧
        ((∃ vs, mapGet st0.extensions (normalizeName lower cell) = some vs ∧
            st1.extensions = st0.extensions) ∨
         (mapGet st0.extensions (normalizeName lower cell) = none ∧
            ∃ vs, st1.extensions = st0.extensions ++ [(normalizeName lower cell, vs)])) := by
  have hb := loopBody_separator lower st sep hstarted hsep
  refine ⟨hb, ?_, ?_⟩
  · unfold parsePHPExtensions parsePHPExtensionsLines
    rw [hlines, scanLoop_append lower pre (sep :: post) initState st hreach,
      scanLoop_append lower pre post initState st hreach]
    simp only [scanLoop, hb]
  · intro st0 row step hst0 hrow hsep0 hstep
    obtain ⟨cell, markers, st1, hp, hs, _, hcases⟩ :=
      loopBody_row_inv lower st0 row step hst0 hsep0 hrow hstep
    refine ⟨cell, markers, st1, hp, hs, ?_⟩
    rcases hcases with ⟨vs, hg, he, _⟩ | ⟨hg, vs, _, he, _⟩
    · exact Or.inl ⟨vs, hg, he⟩
    · exact Or.inr ⟨hg, vs, he⟩

/-- Witness of C14, amended: the row `| ---bar | X |` after the row of `foo`. -/
theorem separator_rows_skipped_witness :
    loopBody Char.toLower exampleFooState "| ---bar | X |".toList
      = .ok (.next exampleFooState) ∧
    parsePHPExtensions insertionOrder Char.toLower exampleDashes
      = parsePHPExtensionsLines insertionOrder Char.toLower
          (["| Extension | 7.4 |".toList, "| --- | --- |".toList, "| foo | X |".toList] ++
            ["| baz | X |".toList]) ∧
    ∀ (st0 : ParseState) (row : GoString) (step : LoopStep), st0.started = true →
      hasPrefix row rowPrefix = true → hasPrefix row separatorPrefix = false →
      loopBody Char.toLower st0 row = .ok step →
      ∃ cell markers st1, parseLine row = .ok (cell, markers) ∧ step = .next st1 ∧
        ((∃ vs, mapGet st0.extensions (normalizeName Char.toLower cell) = some vs ∧
            st1.extensions = st0.extensions) ∨
         (mapGet st0.extensions (normalizeName Char.toLower cell) = none ∧
            ∃ vs, st1.extensions
              = st0.extensions ++ [(normalizeName Char.toLower cell, vs)])) :=
  separator_rows_skipped insertionOrder Char.toLower exampleDashes
    ["| Extension | 7.4 |".toList, "| --- | --- |".toList, "| foo | X |".toList]
    "| ---bar | X |".toList ["| baz | X |".toList] exampleFooState
    (by decide) (by decide) (by decide) (by decide)


/-! ### The names of the extensions -/

theorem stringsTrim_head (s cutset : GoString) (c : Char)
    (h : (stringsTrim s cutset).head? = some c) : cutset.contains c = false := by
  unfold stringsTrim at h
  have hne : (s.dropWhile (fun c => cutset.contains c)).rdropWhile (fun c => cutset.contains c)
      ≠ [] := by
    intro e
    rw [e] at h
    simp at h
  have hpre := List.rdropWhile_prefix (fun c => cutset.contains c)
    (s.dropWhile (fun c => cutset.contains c))
  have hhead := hpre.head hne
  rw [List.head?_eq_head hne, Option.some.injEq] at h
  rw [← h, hhead]
  exact List.head_dropWhile_not (fun c => cutset.contains c) s _

theorem stringsTrim_last (s cutset : GoString) (c : Char)
    (h : (stringsTrim s cutset).getLast? = some c) : cutset.contains c = false := by
  unfold stringsTrim at h
  have hne : (s.dropWhile (fun c => cutset.contains c)).rdropWhile (fun c => cutset.contains c)
      ≠ [] := by
    intro e
    rw [e] at h
    simp at h
  rw [List.getLast?_eq_getLast _ hne, Option.some.injEq] at h
  have := List.rdropWhile_last_not (fun c => cutset.contains c)
    (s.dropWhile (fun c => cutset.contains c)) hne
  rw [h] at this
  simpa using this

theorem toLower_not_upper (c : Char) : (Char.toLower c).isUpper = false := by
  unfold Char.toLower
  simp only
  split
  · rename_i h
    have hc : c = Char.ofNat c.toNat := (Char.ofNat_toNat c).symm
    generalize c.toNat = n at h hc ⊢
    obtain ⟨h1, h2⟩ := h
    interval_cases n <;> decide
  · rename_i h
    simp only [Char.isUpper, Char.toNat] at h ⊢
    simp only [ge_iff_le, not_and, not_le] at h
    cases hh : (decide (c.val ≥ 65) && decide (c.val ≤ 90)) with
    | false => rfl
    | true =>
      exfalso
      simp only [Bool.and_eq_true, decide_eq_true_eq] at hh
      have h1 : 65 ≤ c.val.toNat := hh.1
      have h2 : c.val.toNat ≤ 90 := hh.2
      have := h h1
      omega

theorem toLower_backtick (c : Char) (h : Char.toLower c = '\x60') : c = '\x60' := by
  unfold Char.toLower at h
  simp only at h
  split at h
  · rename_i hr
    exfalso
    have hc : c = Char.ofNat c.toNat := (Char.ofNat_toNat c).symm
    generalize c.toNat = n at hr hc h
    obtain ⟨h1, h2⟩ := hr
    interval_cases n <;> revert h <;> decide
  · exact h

/-- In a successful scan every data row met from a started state parses. -/
theorem scanLoop_rows_parse_started (lower : Char → Char) (lines : List GoString) :
    ∀ (st st' : ParseState) (b : Bool), st.started = true →
      scanLoop lower st lines = .ok (st', b) →
      ∀ row ∈ rowsAfterHeader lines, ∃ cell markers, parseLine row = .ok (cell, markers) := by
  induction lines with
  | nil =>
    intro st st' b _ _ row hrow
    simp [rowsAfterHeader] at hrow
  | cons line rest ih =>
    intro st st' b hst h row hmem
    simp only [scanLoop] at h
    cases hsep : hasPrefix line separatorPrefix with
    | true =>
      rw [loopBody_separator lower st line hst hsep] at h
      simp only at h
      rw [rowsAfterHeader_separator line rest hsep] at hmem
      exact ih st st' b hst h row hmem
    | false =>
      cases hrow : hasPrefix line rowPrefix with
      | false =>
        rw [rowsAfterHeader_end line rest hrow] at hmem
        simp at hmem
      | true =>
        cases hb : loopBody lower st line with
        | error e => rw [hb] at h; simp at h
        | ok step =>
          obtain ⟨cell, markers, st1, hp, rfl, hs1, _⟩ :=
            loopBody_row_inv lower st line step hst hsep hrow hb
          rw [hb] at h
          simp only at h
          rw [rowsAfterHeader_row line rest hsep hrow] at hmem
          rcases List.mem_cons.1 hmem with rfl | hmem
          · exact ⟨cell, markers, hp⟩
          · exact ih st1 st' b hs1 h row hmem

/-- In a successful scan every data row of the document parses. -/
theorem scanLoop_rows_parse (lower : Char → Char) (lines : List GoString) :
    ∀ (st st' : ParseState) (b : Bool), st.started = false →
      scanLoop lower st lines = .ok (st', b) →
      ∀ row ∈ dataRows lines, ∃ cell markers, parseLine row = .ok (cell, markers) := by
  induction lines with
  | nil =>
    intro st st' b _ _ row hrow
    simp [dataRows, tableLines] at hrow
  | cons line rest ih =>
    intro st st' b hst h row hmem
    simp only [scanLoop] at h
    cases hb : loopBody lower st line with
    | error e => rw [hb] at h; simp at h
    | ok step =>
      obtain ⟨st1, hh, rfl⟩ := loopBody_not_started lower st line step hst hb
      rw [hb] at h
      simp only at h
      cases hp : hasPrefix line headerPrefix with
      | true =>
        have hs1 := headerCheck_started st st1 line hp hh
        rw [dataRows_header line rest hp] at hmem
        exact scanLoop_rows_parse_started lower rest st1 st' b hs1 h row hmem
      | false =>
        rw [headerCheck_of_not_header st line hp] at hh
        simp only [Except.ok.injEq] at hh
        subst hh
        rw [dataRows_skip line rest hp] at hmem
        exact ih st st' b hst h row hmem

/-- C15 as stated fails: the first cell with spaces inside its backticks gives the
name ` foo `, which begins and ends with a space. -/
theorem name_whitespace_counterexample :
    parseLine "| \x60 Foo \x60 | X |".toList = .ok ("\x60 Foo \x60".toList, ["X".toList]) ∧
    normalizeName Char.toLower "\x60 Foo \x60".toList = " foo ".toList ∧
    (" foo ".toList.head?.map isSpace = some true) ∧
    (" foo ".toList.getLast?.map isSpace = some true) ∧
    parsePHPExtensions insertionOrder Char.toLower exampleSpacedName
      = .ok "\t\" foo \": \x7b\"7.4\"\x7d,\n".toList := by
  decide

/-- C15, amended (name normalisation). Let `lower`, the rune map of
`strings.ToLower`, yield no upper-case ASCII letter and yield a backtick only
for a backtick. If the run succeeds, every name kept and emitted comes from a
data row: it is the first cell of that row as `parseLine` returns it (trimmed of
whitespace), then stripped of all its leading and trailing backticks, then
lower-cased; it neither begins nor ends with a backtick and it holds no
upper-case ASCII letter. (Whitespace inside the backticks stays.) -/
theorem name_normalisation (ro : RangeOrder) (lower : Char → Char) (body text : GoString)
    (hup : ∀ c, (lower c).isUpper = false)
    (hbt : ∀ c, lower c = '\x60' → c = '\x60')
    (hrun : parsePHPExtensions ro lower body = .ok text) :
    ∃ (stF : ParseState) (b : Bool),
      scanLoop lower initState (scanLines body) = .ok (stF, b) ∧
      text = (stF.extensions.map (fun e =>
        extensionLine (maxNameLenOf (mapKeys stF.extensions)) e.1 e.2)).flatten ∧
      ∀ name ∈ mapKeys stF.extensions,
        (∃ row ∈ dataRows (scanLines body), ∃ cell markers,
          parseLine row = .ok (cell, markers) ∧
          name = ((cell.dropWhile (fun c => c = '\x60')).rdropWhile
            (fun c => c = '\x60')).map lower) ∧
        (∀ c, name.head? = some c → c ≠ '\x60') ∧
        (∀ c, name.getLast? = some c → c ≠ '\x60') ∧
        ∀ c ∈ name, c.isUpper = false := by
  unfold parsePHPExtensions at hrun
  obtain ⟨stF, b, hscan⟩ := scanLoop_of_parse ro lower _ text hrun
  obtain ⟨hinv, heq⟩ := parsePHPExtensionsLines_eq ro lower _ stF b hscan
  rw [heq] at hrun
  simp only [Except.ok.injEq] at hrun
  refine ⟨stF, b, hscan, hrun.symm, ?_⟩
  intro name hname
  have hnames := scanLoop_names lower _ initState stF b TableInv_init rfl hscan
  rw [show initState.orderedExtensionNames = [] from rfl, appendNew_nil, hinv.1] at hnames
  rw [hnames, mem_firstOccurrences] at hname
  obtain ⟨row, hrow, rfl⟩ := List.mem_map.1 hname
  obtain ⟨cell, markers, hp⟩ := scanLoop_rows_parse lower _ initState stF b rfl hscan row hrow
  have hn : rowName lower row = (stringsTrim cell ['\x60']).map lower := by
    simp [rowName, hp, normalizeName, stringsToLower]
  have hcut : ∀ c : Char, (['\x60'] : GoString).contains c = false → c ≠ '\x60' := by
    intro c hc e
    rw [e] at hc
    exact absurd hc (by decide)
  refine ⟨⟨row, hrow, cell, markers, hp, ?_⟩, ?_, ?_, ?_⟩
  · rw [hn]
    simp [stringsTrim]
  · intro c hc e
    rw [hn, List.head?_map] at hc
    cases hh : (stringsTrim cell ['\x60']).head? with
    | none => rw [hh] at hc; simp at hc
    | some c0 =>
      rw [hh] at hc
      simp only [Option.map_some', Option.some.injEq] at hc
      have h0 := hbt c0 (hc.trans e)
      exact hcut c0 (stringsTrim_head _ _ _ hh) h0
  · intro c hc e
    rw [hn, List.getLast?_map] at hc
    cases hh : (stringsTrim cell ['\x60']).getLast? with
    | none => rw [hh] at hc; simp at hc
    | some c0 =>
      rw [hh] at hc
      simp only [Option.map_some', Option.some.injEq] at hc
      have h0 := hbt c0 (hc.trans e)
      exact hcut c0 (stringsTrim_last _ _ _ hh) h0
  · intro c hc
    rw [hn] at hc
    obtain ⟨c0, _, rfl⟩ := List.mem_map.1 hc
    exact hup c0

/-- Witness of C15, amended: the table of `Imagick` and `imagick`, with the
ASCII lower-casing. -/
theorem name_normalisation_witness :
    ∃ (stF : ParseState) (b : Bool),
      scanLoop Char.toLower initState (scanLines exampleDuplicates) = .ok (stF, b) ∧
      "\t\"imagick\": \x7b\"7.4\"\x7d,\n".toList = (stF.extensions.map (fun e =>
        extensionLine (maxNameLenOf (mapKeys stF.extensions)) e.1 e.2)).flatten ∧
      ∀ name ∈ mapKeys stF.extensions,
        (∃ row ∈ dataRows (scanLines exampleDuplicates), ∃ cell markers,
          parseLine row = .ok (cell, markers) ∧
          name = ((cell.dropWhile (fun c => c = '\x60')).rdropWhile
            (fun c => c = '\x60')).map Char.toLower) ∧
        (∀ c, name.head? = some c → c ≠ '\x60') ∧
        (∀ c, name.getLast? = some c → c ≠ '\x60') ∧
        ∀ c ∈ name, c.isUpper = false :=
  name_normalisation insertionOrder Char.toLower exampleDuplicates
    "\t\"imagick\": \x7b\"7.4\"\x7d,\n".toList toLower_not_upper toLower_backtick (by decide)


/-! ### Run-time failures -/

theorem collectVersions_out_of_range (versions : List GoString) (markers : List GoString) :
    ∀ (k : Nat) (vs : List GoString) (i : Nat) (m : GoString),
      markers.get? i = some m → m ≠ [] → versions.length ≤ k + i →
      collectVersions versions k markers vs = .error .indexOutOfRange := by
  induction markers with
  | nil => intro k vs i m h; simp at h
  | cons v rest ih =>
    intro k vs i m hget hm hlen
    cases i with
    | zero =>
      simp only [List.get?_cons_zero, Option.some.injEq] at hget
      subst hget
      have hk : versions.get? k = none := by
        rw [List.get?_eq_none]
        omega
      simp only [collectVersions, hm, ne_eq, not_false_eq_true, if_true, hk]
    | succ j =>
      simp only [List.get?_cons_succ] at hget
      have hrec := fun vs' => ih (k + 1) vs' j m hget hm (by omega)
      by_cases hv : v = []
      · simp only [collectVersions, hv, ne_eq, not_true_eq_false, if_false]
        exact hrec vs
      · simp only [collectVersions, hv, ne_eq, not_false_eq_true, if_true]
        cases hk : versions.get? k with
        | none => rfl
        | some label => exact hrec _

theorem loopBody_collect_error (lower : Char → Char) (st : ParseState) (line cell : GoString)
    (markers : List GoString) (e : GoError) (hst : st.started = true)
    (hsep : hasPrefix line separatorPrefix = false) (hrow : hasPrefix line rowPrefix = true)
    (hp : parseLine line = .ok (cell, markers))
    (hnew : mapGet st.extensions (normalizeName lower cell) = none)
    (hc : collectVersions st.versions 0 markers [] = .error e) :
    loopBody lower st line = .error e := by
  simp [loopBody, hst, hsep, hrow, hp, hnew, hc]

theorem loopBody_parse_error (lower : Char → Char) (st : ParseState) (line : GoString)
    (e : GoError) (hst : st.started = true)
    (hsep : hasPrefix line separatorPrefix = false) (hrow : hasPrefix line rowPrefix = true)
    (hp : parseLine line = .error e) :
    loopBody lower st line = .error e := by
  simp [loopBody, hst, hsep, hrow, hp]

theorem parsePHPExtensions_error_at (ro : RangeOrder) (lower : Char → Char) (body : GoString)
    (pre : List GoString) (row : GoString) (post : List GoString) (st : ParseState)
    (e : GoError) (hlines : scanLines body = pre ++ row :: post)
    (hreach : scanLoop lower initState pre = .ok (st, false))
    (hb : loopBody lower st row = .error e) :
    parsePHPExtensions ro lower body = .error e := by
  unfold parsePHPExtensions parsePHPExtensionsLines
  rw [hlines, scanLoop_append lower pre (row :: post) initState st hreach]
  simp only [scanLoop, hb]

/-- The marker lookup against the labels the loop holds. Let the loop reach a
data row with a new name while it holds the labels `st.versions`. If the row
has at most as many markers as there are labels held, every lookup
`versions[i]` is in range. If instead the row has a non-empty marker at a
position `i` at or beyond the number of labels held, the lookup fails with an
index-out-of-range error and so does the whole run. -/
theorem marker_lookup_against_held_labels (ro : RangeOrder) (lower : Char → Char) (body : GoString)
    (pre : List GoString) (row : GoString) (post : List GoString) (st : ParseState)
    (cell : GoString) (markers : List GoString)
    (hlines : scanLines body = pre ++ row :: post)
    (hreach : scanLoop lower initState pre = .ok (st, false))
    (hstarted : st.started = true)
    (hsep : hasPrefix row separatorPrefix = false) (hrow : hasPrefix row rowPrefix = true)
    (hparse : parseLine row = .ok (cell, markers))
    (hfirst : mapGet st.extensions (normalizeName lower cell) = none) :
    (markers.length ≤ st.versions.length →
      collectVersions st.versions 0 markers []
        = .ok (((markers.zip st.versions).filter (fun p => p.1 ≠ [])).map Prod.snd) ∧
      ∃ st1, loopBody lower st row = .ok (.next st1)) ∧
    (∀ (i : Nat) (m : GoString), markers.get? i = some m → m ≠ [] →
      st.versions.length ≤ i →
      collectVersions st.versions 0 markers [] = .error .indexOutOfRange ∧
      loopBody lower st row = .error .indexOutOfRange ∧
      parsePHPExtensions ro lower body = .error .indexOutOfRange) := by
  constructor
  · intro hlen
    have hc := collectVersions_ok st.versions markers 0 [] (by simpa using hlen)
    simp only [List.drop_zero, List.nil_append] at hc
    obtain ⟨st1, hb, _⟩ := loopBody_new lower st row cell markers hstarted hsep hrow hparse
      hfirst hlen
    exact ⟨hc, st1, hb⟩
  · intro i m hget hm hlen
    have hc := collectVersions_out_of_range st.versions markers 0 [] i m hget hm
      (by simpa using hlen)
    have hb := loopBody_collect_error lower st row cell markers _ hstarted hsep hrow hparse
      hfirst hc
    exact ⟨hc, hb, parsePHPExtensions_error_at ro lower body pre row post st _ hlines hreach hb⟩

/-- `parseLine` on a first rune, a name text, a delimiter, texts each followed
by a delimiter, and a tail: the loop never runs out of fuel. -/
theorem parseLine_of_cells (c : Char) (s0 : GoString) (segs : List GoString) (tail : GoString)
    (h0 : '|' ∉ s0) (hsegs : ∀ s ∈ segs, '|' ∉ s) (htail : '|' ∉ tail) :
    parseLine (c :: (s0 ++ '|' :: ((segs.map (fun s => s ++ pipe)).flatten ++ tail)))
      = .ok (trimSpace s0, segs.map trimSpace) := by
  generalize hrest : (segs.map (fun s => s ++ pipe)).flatten ++ tail = rest
  have hs : sliceFrom (c :: (s0 ++ '|' :: rest)) 1 = .ok (s0 ++ '|' :: rest) := by
    have := sliceFrom_append [c] (s0 ++ '|' :: rest)
    simpa using this
  have hidx : stringsIndex (s0 ++ '|' :: rest) pipe = (s0.length : Int) :=
    stringsIndex_pipe_found s0 rest h0
  have hc : slice (c :: (s0 ++ '|' :: rest)) 1 ((s0.length : Int) + 1) = .ok s0 := by
    have := slice_append [c] s0 ('|' :: rest)
    have e : ((([c] : GoString).length + s0.length : Nat) : Int) = (s0.length : Int) + 1 := by
      simp only [List.length_singleton]; push_cast; ring
    rw [e] at this
    simpa using this
  have hloop := parseLineLoop_cells segs tail (c :: s0) [] ((c :: (s0 ++ '|' :: rest)).length + 1)
    hsegs htail (by
      rw [← hrest]
      simp only [List.length_cons, List.length_append, List.length_flatten, List.map_map]
      have : segs.length ≤ (List.map (List.length ∘ fun s => s ++ pipe) segs).sum := by
        clear hsegs hrest
        induction segs with
        | nil => simp
        | cons a l ih => simp [pipe] at ih ⊢; omega
      omega)
  rw [hrest] at hloop
  have e2 : (((c :: s0).length : Nat) : Int) = (s0.length : Int) + 1 := by
    simp only [List.length_cons]; push_cast; ring
  rw [e2] at hloop
  simp only [List.cons_append] at hloop
  simp only [parseLine, hs, hidx, hc, hloop, List.nil_append]

theorem parseLine_ok_of_delimiter (c : Char) (rest : GoString) (h : '|' ∈ rest) :
    ∃ r, parseLine (c :: rest) = .ok r := by
  obtain ⟨s0, segs, tail, h0, hsegs, htail, rfl⟩ := exists_cell_decomposition rest h
  exact ⟨_, parseLine_of_cells c s0 segs tail h0 hsegs htail⟩

theorem parseLine_error_of_no_delimiter (line : GoString)
    (h : ¬ ∃ c rest, line = c :: rest ∧ '|' ∈ rest) :
    parseLine line = .error .sliceOutOfRange := by
  cases line with
  | nil => simp [parseLine, sliceFrom]
  | cons c rest =>
    have hno : '|' ∉ rest := fun hmem => h ⟨c, rest, rfl, hmem⟩
    have hs : sliceFrom (c :: rest) 1 = .ok rest := by
      have := sliceFrom_append [c] rest
      simpa using this
    have hsl : slice (c :: rest) 1 0 = .error .sliceOutOfRange := by
      simp [slice]
    simp only [parseLine, hs, stringsIndex_pipe_absent rest hno]
    rw [show (-1 : Int) + 1 = 0 from rfl, hsl]

/-- The lines `parsePHPExtensions` passes to `parseLine` start with the
delimiter, a rune of one byte: a data row starts with `| ` and a header with
`| Extension`. -/
theorem parseLine_called_on_delimiter (line : GoString)
    (h : hasPrefix line rowPrefix = true ∨ hasPrefix line headerPrefix = true) :
    ∃ rest, line = '|' :: rest ∧ runeBytes '|' = [0x7c] := by
  cases line with
  | nil => rcases h with h | h <;> simp [hasPrefix, rowPrefix, headerPrefix] at h
  | cons c rest =>
    refine ⟨rest, ?_, by decide⟩
    rcases h with h | h <;>
      simp [hasPrefix, rowPrefix, headerPrefix, List.isPrefixOf] at h <;>
      rw [h.1]

theorem parseServicesLoop_nil (services : Registry) (names : List GoString) :
    ∀ acc : GoString, (∃ k ∈ names, (mapGet services k).getD none = none) →
      parseServicesLoop services names acc = .error .nilPointer := by
  induction names with
  | nil => intro acc h; obtain ⟨k, hk, _⟩ := h; simp at hk
  | cons n rest ih =>
    intro acc h
    cases hv : (mapGet services n).getD none with
    | none => simp only [parseServicesLoop, hv]
    | some s =>
      have hrest : ∃ k ∈ rest, (mapGet services k).getD none = none := by
        obtain ⟨k, hk, hnone⟩ := h
        rcases List.mem_cons.1 hk with rfl | hk
        · rw [hv] at hnone
          exact Option.noConfusion hnone
        · exact ⟨k, hk, hnone⟩
      simp only [parseServicesLoop, hv]
      split
      · exact ih _ hrest
      · exact ih _ hrest

/-- C18 (padding). At the end of a successful scan the names the rendering loop
emits, `orderedExtensionNames`, are exactly the keys of the extensions map,
each once. With `maxNameLen` the value computed by the loop over the map, which
is the greatest byte length of a kept name, every emitted name gets
`maxNameLen - len(name) + 1` padding spaces, a count that is at least 1, so
`strings.Repeat` never sees a negative count and the line is rendered; the
opening brace of every line is at byte offset `maxNameLen + 5`. -/
theorem padding_well_defined (ro : RangeOrder) (lower : Char → Char) (body : GoString)
    (stF : ParseState) (b : Bool)
    (hscan : scanLoop lower initState (scanLines body) = .ok (stF, b)) :
    stF.orderedExtensionNames = mapKeys stF.extensions ∧
    (mapKeys stF.extensions).Nodup ∧
    (∀ name ∈ mapKeys stF.extensions,
      len name ≤ maxNameLenOf (ro.order (mapKeys stF.extensions))) ∧
    (stF.extensions ≠ [] → ∃ name ∈ mapKeys stF.extensions,
      len name = maxNameLenOf (ro.order (mapKeys stF.extensions))) ∧
    ∀ name ∈ stF.orderedExtensionNames,
      (1 : Int) ≤ (maxNameLenOf (ro.order (mapKeys stF.extensions)) : Int) - (len name : Int) + 1 ∧
      ∃ (pad rest : GoString),
        stringsRepeat [' ']
            ((maxNameLenOf (ro.order (mapKeys stF.extensions)) : Int) - (len name : Int) + 1)
          = .ok pad ∧
        renderExtension (maxNameLenOf (ro.order (mapKeys stF.extensions))) stF.extensions name
          = .ok ("\t\"".toList ++ name ++ "\":".toList ++ pad ++ '\x7b' :: rest) ∧
        len ("\t\"".toList ++ name ++ "\":".toList ++ pad)
          = maxNameLenOf (ro.order (mapKeys stF.extensions)) + 5 := by
  have hinv := (scanLoop_inv lower _ initState stF b TableInv_init hscan).1
  have hle : ∀ name ∈ mapKeys stF.extensions,
      len name ≤ maxNameLenOf (ro.order (mapKeys stF.extensions)) := by
    intro name hname
    rw [maxNameLenOf_range]
    exact len_le_maxNameLenOf _ _ hname
  refine ⟨hinv.1, hinv.2, hle, ?_, ?_⟩
  · intro hne
    rw [maxNameLenOf_range]
    exact maxNameLenOf_attained (mapKeys stF.extensions) (by simpa [mapKeys] using hne)
  · intro name hname
    rw [hinv.1] at hname
    have h1 := hle name hname
    obtain ⟨e, he, rfl⟩ := List.mem_map.1 hname
    have hget := mapGet_of_mem stF.extensions e.1 e.2 hinv.2 he
    have h2 : len "\t\"".toList = 2 := by decide
    have h3 : len "\":".toList = 2 := by decide
    refine ⟨by omega, _, stringsJoin (e.2.map quoted) ", ".toList ++ "\x7d,\n".toList,
      stringsRepeat_pad _ _ h1, ?_, ?_⟩
    · rw [renderExtension_eq _ _ _ _ hget h1]
      simp [extensionLine]
    · rw [len_append, len_append, len_append, h2, h3, len_replicate_space]
      omega

/-- Witness of C18: the table with the names `a` and `bcd`, with the map
enumerated in reverse order. -/
theorem padding_well_defined_witness :
    exampleTwoNamesState.orderedExtensionNames = mapKeys exampleTwoNamesState.extensions ∧
    (mapKeys exampleTwoNamesState.extensions).Nodup ∧
    (∀ name ∈ mapKeys exampleTwoNamesState.extensions,
      len name ≤ maxNameLenOf (reverseOrder.order (mapKeys exampleTwoNamesState.extensions))) ∧
    (exampleTwoNamesState.extensions ≠ [] → ∃ name ∈ mapKeys exampleTwoNamesState.extensions,
      len name = maxNameLenOf (reverseOrder.order (mapKeys exampleTwoNamesState.extensions))) ∧
    ∀ name ∈ exampleTwoNamesState.orderedExtensionNames,
      (1 : Int) ≤ (maxNameLenOf (reverseOrder.order
          (mapKeys exampleTwoNamesState.extensions)) : Int) - (len name : Int) + 1 ∧
      ∃ (pad rest : GoString),
        stringsRepeat [' ']
            ((maxNameLenOf (reverseOrder.order
              (mapKeys exampleTwoNamesState.extensions)) : Int) - (len name : Int) + 1)
          = .ok pad ∧
        renderExtension (maxNameLenOf (reverseOrder.order
            (mapKeys exampleTwoNamesState.extensions))) exampleTwoNamesState.extensions name
          = .ok ("\t\"".toList ++ name ++ "\":".toList ++ pad ++ '\x7b' :: rest) ∧
        len ("\t\"".toList ++ name ++ "\":".toList ++ pad)
          = maxNameLenOf (reverseOrder.order (mapKeys exampleTwoNamesState.extensions)) + 5 :=
  padding_well_defined reverseOrder Char.toLower exampleTwoNames exampleTwoNamesState false
    (by decide)

/-- C19 (null entries of the registry). For a registry with pairwise distinct
keys: if no value is `null`, `parseServices` returns a text; if the value of
some key is `null`, the read of the runtime flag of that entry dereferences a
nil pointer and the run fails with that error, after the decoding. -/
theorem parseServices_total_without_null (ro : RangeOrder) (services : Registry)
    (hnd : (mapKeys services).Nodup) :
    ((∀ e ∈ services, e.2 ≠ none) → ∃ text, parseServices ro services = .ok text) ∧
    ((∃ k, (k, none) ∈ services) → parseServices ro services = .error .nilPointer) := by
  constructor
  · intro hnn
    exact ⟨_, parseServices_records ro services hnd hnn⟩
  · rintro ⟨k, hk⟩
    unfold parseServices
    simp only
    apply parseServicesLoop_nil
    refine ⟨k, (sortStrings_perm _).symm.subset ((ro.perm _).symm.subset
      (List.mem_map.2 ⟨(k, none), hk, rfl⟩)), ?_⟩
    rw [mapGet_of_mem services k none hnd hk]
    rfl

/-- Witness of C19: the registry decoded from `redis: null`. -/
theorem parseServices_total_without_null_witness :
    (((∀ e ∈ exampleRegistry, e.2 ≠ none) →
        ∃ text, parseServices insertionOrder exampleRegistry = .ok text) ∧
      ((∃ k, (k, none) ∈ exampleRegistry) →
        parseServices insertionOrder exampleRegistry = .error .nilPointer)) ∧
    (((∀ e ∈ exampleNullRegistry, e.2 ≠ none) →
        ∃ text, parseServices insertionOrder exampleNullRegistry = .ok text) ∧
      ((∃ k, (k, none) ∈ exampleNullRegistry) →
        parseServices insertionOrder exampleNullRegistry = .error .nilPointer)) ∧
    parseServices insertionOrder exampleNullRegistry = .error .nilPointer :=
  ⟨parseServices_total_without_null insertionOrder exampleRegistry (by decide),
   parseServices_total_without_null insertionOrder exampleNullRegistry (by decide),
   by decide⟩


/-! ### `parseLine` on the bytes of the line -/

theorem stringsIndexFrom_byte_absent (s : GoBytes) (i : Nat) (h : 0x7c ∉ s) :
    stringsIndexFrom pipeByte s i = -1 := by
  induction s generalizing i with
  | nil => simp [stringsIndexFrom, pipeByte]
  | cons c cs ih =>
    have hc : c ≠ 0x7c := fun e => h (by simp [e])
    have hcs : 0x7c ∉ cs := fun e => h (by simp [e])
    simp [stringsIndexFrom, pipeByte, List.isPrefixOf, Ne.symm hc]
    exact ih _ hcs

theorem stringsIndexFrom_byte_found (s t : GoBytes) (i : Nat) (h : 0x7c ∉ s) :
    stringsIndexFrom pipeByte (s ++ 0x7c :: t) i = ((i + s.length : Nat) : Int) := by
  induction s generalizing i with
  | nil => simp [stringsIndexFrom, pipeByte, List.isPrefixOf]
  | cons c cs ih =>
    have hc : c ≠ 0x7c := fun e => h (by simp [e])
    have hcs : 0x7c ∉ cs := fun e => h (by simp [e])
    have e : stringsIndexFrom pipeByte (c :: (cs ++ 0x7c :: t)) i
        = stringsIndexFrom pipeByte (cs ++ 0x7c :: t) (i + 1) := by
      simp [stringsIndexFrom, pipeByte, List.isPrefixOf, Ne.symm hc]
    rw [List.cons_append, e, ih _ hcs]
    simp only [List.length_cons]
    congr 1
    omega

theorem stringsIndex_byte_absent (s : GoBytes) (h : 0x7c ∉ s) : stringsIndex s pipeByte = -1 :=
  stringsIndexFrom_byte_absent s 0 h

theorem stringsIndex_byte_found (s t : GoBytes) (h : 0x7c ∉ s) :
    stringsIndex (s ++ 0x7c :: t) pipeByte = (s.length : Int) := by
  unfold stringsIndex
  rw [stringsIndexFrom_byte_found s t 0 h]
  simp

/-- The loop of `parseLine` on bytes, started on the delimiter that ends `pre`, collects
the trimmed cells up to the last delimiter and never runs out of fuel. -/
theorem parseLineLoopBytes_cells (segs : List GoBytes) (tail : GoBytes) :
    ∀ (pre : GoBytes) (acc : List GoBytes) (fuel : Nat),
      (∀ s ∈ segs, 0x7c ∉ s) → 0x7c ∉ tail → segs.length < fuel →
      parseLineLoopBytes (pre ++ 0x7c :: ((segs.map (fun s => s ++ pipeByte)).flatten ++ tail)) fuel
        (pre.length : Int) acc = .ok (acc ++ segs.map trimSpaceBytes) := by
  induction segs with
  | nil =>
    intro pre acc fuel _ htail hfuel
    obtain ⟨f, rfl⟩ : ∃ f, fuel = f + 1 := ⟨fuel - 1, by simp at hfuel; omega⟩
    have hs : sliceFrom (pre ++ 0x7c :: tail) ((pre.length : Int) + 1) = .ok tail := by
      have := sliceFrom_append (pre ++ [0x7c]) tail
      simpa using this
    simp [parseLineLoopBytes, hs, stringsIndex_byte_absent tail htail]
  | cons seg segs ih =>
    intro pre acc fuel hsegs htail hfuel
    obtain ⟨f, rfl⟩ : ∃ f, fuel = f + 1 := ⟨fuel - 1, by simp at hfuel; omega⟩
    have hseg : 0x7c ∉ seg := hsegs seg (by simp)
    have hsegs' : ∀ s ∈ segs, 0x7c ∉ s := fun s hs => hsegs s (by simp [hs])
    generalize hrest : (segs.map (fun s => s ++ pipeByte)).flatten ++ tail = rest
    have hline : pre ++ 0x7c :: (((seg :: segs).map (fun s => s ++ pipeByte)).flatten ++ tail)
        = (pre ++ [0x7c]) ++ (seg ++ (0x7c :: rest)) := by
      simp [pipeByte, ← hrest]
    have hline' : pre ++ 0x7c :: (((seg :: segs).map (fun s => s ++ pipeByte)).flatten ++ tail)
        = (pre ++ 0x7c :: seg) ++ 0x7c :: rest := by
      simp [pipeByte, ← hrest]
    have hs : sliceFrom ((pre ++ [0x7c]) ++ (seg ++ (0x7c :: rest))) ((pre.length : Int) + 1)
        = .ok (seg ++ (0x7c :: rest)) := by
      have := sliceFrom_append (pre ++ [0x7c]) (seg ++ (0x7c :: rest))
      simpa using this
    have hc : slice ((pre ++ [0x7c]) ++ (seg ++ (0x7c :: rest))) ((pre.length : Int) + 1)
        ((seg.length : Int) + ((pre.length : Int) + 1)) = .ok seg := by
      have := slice_append (pre ++ [0x7c]) seg (0x7c :: rest)
      have e : (((pre ++ [0x7c]).length + seg.length : Nat) : Int)
          = (seg.length : Int) + ((pre.length : Int) + 1) := by
        simp only [List.length_append, List.length_singleton]; push_cast; ring
      rw [e] at this
      simpa using this
    have hlen : ¬ ((seg.length : Int) + ((pre.length : Int) + 1)
        ≥ (((pre ++ [0x7c]) ++ (seg ++ (0x7c :: rest))).length : Int)) := by
      simp only [List.length_append, List.length_singleton, List.length_cons]
      push_cast
      omega
    have hidx : stringsIndex (seg ++ (0x7c :: rest)) pipeByte = (seg.length : Int) :=
      stringsIndex_byte_found seg rest hseg
    have hne : ¬ ((seg.length : Int) = -1) := by omega
    have hrec := ih (pre ++ 0x7c :: seg) (acc ++ [trimSpaceBytes seg]) f hsegs' htail
      (by simp at hfuel; omega)
    rw [hrest] at hrec
    have e2 : (((pre ++ 0x7c :: seg).length : Nat) : Int)
        = (seg.length : Int) + ((pre.length : Int) + 1) := by
      simp only [List.length_append, List.length_cons]; push_cast; ring
    rw [e2] at hrec
    rw [hline]
    simp only [parseLineLoopBytes, hs, hidx, if_neg hne, hc, if_neg hlen]
    rw [← hline, hline', hrec]
    simp

/-- Every text is a sequence of delimiter-free texts, each followed by a
delimiter, and a delimiter-free rest. -/
theorem exists_byte_cells (t : GoBytes) :
    ∃ (segs : List GoBytes) (tail : GoBytes),
      (∀ s ∈ segs, 0x7c ∉ s) ∧ 0x7c ∉ tail ∧
      t = (segs.map (fun s => s ++ pipeByte)).flatten ++ tail := by
  induction t with
  | nil => exact ⟨[], [], by simp, by simp, by simp⟩
  | cons c t ih =>
    obtain ⟨segs, tail, h1, h2, rfl⟩ := ih
    by_cases hc : c = 0x7c
    · refine ⟨[] :: segs, tail, ?_, h2, ?_⟩
      · intro s hs
        rcases List.mem_cons.1 hs with rfl | hs
        · simp
        · exact h1 s hs
      · simp [pipeByte, hc]
    · cases segs with
      | nil =>
        refine ⟨[], c :: tail, by simp, ?_, by simp⟩
        intro hmem
        rcases List.mem_cons.1 hmem with e | e
        · exact hc e.symm
        · exact h2 e
      | cons s ss =>
        refine ⟨(c :: s) :: ss, tail, ?_, h2, by simp⟩
        intro x hx
        rcases List.mem_cons.1 hx with rfl | hx
        · intro hmem
          rcases List.mem_cons.1 hmem with e | e
          · exact hc e.symm
          · exact h1 s (by simp) e
        · exact h1 x (by simp [hx])

/-- Every text that holds a delimiter is a name text, a delimiter, then
delimiter-terminated cell texts and a delimiter-free rest. -/
theorem exists_byte_cell_decomposition (t : GoBytes) (h : 0x7c ∈ t) :
    ∃ (s0 : GoBytes) (segs : List GoBytes) (tail : GoBytes),
      0x7c ∉ s0 ∧ (∀ s ∈ segs, 0x7c ∉ s) ∧ 0x7c ∉ tail ∧
      t = s0 ++ 0x7c :: ((segs.map (fun s => s ++ pipeByte)).flatten ++ tail) := by
  obtain ⟨segs, tail, h1, h2, rfl⟩ := exists_byte_cells t
  cases segs with
  | nil => simp at h; exact absurd h h2
  | cons s0 ss =>
    exact ⟨s0, ss, tail, h1 s0 (by simp), fun s hs => h1 s (by simp [hs]), h2,
      by simp [pipeByte]⟩

/-- C6, amended (cell splitting after the first byte). A line made of a first
byte `c`, a text `s0` without the delimiter byte, a delimiter, then
`segs.length` texts without delimiter each followed by a delimiter, then a text
`tail` without delimiter, has `segs.length + 1` delimiters after its first
byte, and every line with a delimiter after its first byte is of this form
(`exists_byte_cell_decomposition`). `parseLine` returns the trimmed `s0` as the
name and exactly the trimmed `segs`, in order, as the cells: the boundary
delimiters yield no empty cell and `tail`, the text after the last delimiter,
is not a cell. -/
theorem parseLineBytes_cell_splitting (c : Nat) (s0 : GoBytes) (segs : List GoBytes)
    (tail : GoBytes)
    (h0 : 0x7c ∉ s0) (hsegs : ∀ s ∈ segs, 0x7c ∉ s) (htail : 0x7c ∉ tail) :
    parseLineBytes (c :: (s0 ++ 0x7c :: ((segs.map (fun s => s ++ pipeByte)).flatten ++ tail)))
      = .ok (trimSpaceBytes s0, segs.map trimSpaceBytes) := by
  generalize hrest : (segs.map (fun s => s ++ pipeByte)).flatten ++ tail = rest
  have hs : sliceFrom (c :: (s0 ++ 0x7c :: rest)) 1 = .ok (s0 ++ 0x7c :: rest) := by
    have := sliceFrom_append [c] (s0 ++ 0x7c :: rest)
    simpa using this
  have hidx : stringsIndex (s0 ++ 0x7c :: rest) pipeByte = (s0.length : Int) :=
    stringsIndex_byte_found s0 rest h0
  have hc : slice (c :: (s0 ++ 0x7c :: rest)) 1 ((s0.length : Int) + 1) = .ok s0 := by
    have := slice_append [c] s0 (0x7c :: rest)
    have e : ((([c] : GoBytes).length + s0.length : Nat) : Int) = (s0.length : Int) + 1 := by
      simp only [List.length_singleton]; push_cast; ring
    rw [e] at this
    simpa using this
  have hloop := parseLineLoopBytes_cells segs tail (c :: s0) [] ((c :: (s0 ++ 0x7c :: rest)).length + 1)
    hsegs htail (by
      rw [← hrest]
      simp only [List.length_cons, List.length_append, List.length_flatten, List.map_map]
      have : segs.length ≤ (List.map (List.length ∘ fun s => s ++ pipeByte) segs).sum := by
        clear hsegs hrest
        induction segs with
        | nil => simp
        | cons a l ih => simp [pipeByte] at ih ⊢; omega
      omega)
  rw [hrest] at hloop
  have e2 : (((c :: s0).length : Nat) : Int) = (s0.length : Int) + 1 := by
    simp only [List.length_cons]; push_cast; ring
  rw [e2] at hloop
  simp only [List.cons_append] at hloop
  simp only [parseLineBytes, hs, hidx, hc, hloop, List.nil_append]


/-- Witness of C6, amended: the row `| a | b | c |`, the same row without its
trailing delimiter, and a line whose first character takes two bytes. -/
theorem parseLineBytes_cell_splitting_witness :
    parseLineBytes (utf8Bytes "| a | b | c |".toList)
      = .ok (utf8Bytes "a".toList, [utf8Bytes "b".toList, utf8Bytes "c".toList]) ∧
    parseLineBytes (utf8Bytes "| a | b | c".toList)
      = .ok (utf8Bytes "a".toList, [utf8Bytes "b".toList]) ∧
    parseLineBytes (utf8Bytes "é a | b |".toList)
      = .ok ([0xa9, 0x20, 0x61], [utf8Bytes "b".toList]) :=
  ⟨parseLineBytes_cell_splitting 0x7c (utf8Bytes " a ".toList)
      [utf8Bytes " b ".toList, utf8Bytes " c ".toList] [] (by decide) (by decide) (by decide),
   parseLineBytes_cell_splitting 0x7c (utf8Bytes " a ".toList) [utf8Bytes " b ".toList]
      (utf8Bytes " c".toList) (by decide) (by decide) (by decide),
   parseLineBytes_cell_splitting 0xc3 [0xa9, 0x20, 0x61, 0x20] [utf8Bytes " b ".toList] []
      (by decide) (by decide) (by decide)⟩

/-- C6 as stated fails: in the line `é a | b |` the text between the first
character and the first delimiter is ` a `, trimmed `a`, but `parseLine` cuts
the line after its first byte and returns as name the second byte of `é`
followed by ` a`. -/
theorem parseLine_first_character_counterexample :
    utf8Bytes "é a | b |".toList
      = [0xc3, 0xa9] ++ utf8Bytes " a | b |".toList ∧
    runeBytes (Char.ofNat 0xe9) = [0xc3, 0xa9] ∧
    parseLineBytes (utf8Bytes "é a | b |".toList)
      = .ok ([0xa9] ++ utf8Bytes " a".toList, [utf8Bytes "b".toList]) ∧
    [0xa9] ++ utf8Bytes " a".toList ≠ utf8Bytes "a".toList := by
  decide

/-! ### The claims that the replaced labels break -/

/-- C1 fails on the code, by the defect of the unguarded header test: in
`exampleRelabel` the row `| intl | X |  |` is the first row of its name and has
the markers `X` and empty under the header labels `7.4` and `8.0`, so the claim
gives it the list `7.4`; the code emits it with the list `X`, the marker of the
row before it. -/
theorem availability_broken_by_relabelling :
    parseLine "| Extension | 7.4 | 8.0 |".toList
      = .ok ("Extension".toList, ["7.4".toList, "8.0".toList]) ∧
    (dataRows (scanLines exampleRelabel)).map (rowName Char.toLower)
      = ["extension_x".toList, "intl".toList] ∧
    parseLine "| intl | X |  |".toList = .ok ("intl".toList, ["X".toList, []]) ∧
    ((["X".toList, []].zip ["7.4".toList, "8.0".toList]).filter (fun p => p.1 ≠ [])).map Prod.snd
      = ["7.4".toList] ∧
    parsePHPExtensions insertionOrder Char.toLower exampleRelabel
      = .ok ("\t\"extension_x\": \x7b\"7.4\", \"8.0\"\x7d,\n".toList ++
          "\t\"intl\":        \x7b\"X\"\x7d,\n".toList) := by
  decide

/-- C2 fails on the code, by the defect of the unguarded header test: in
`exampleDuplicateRelabel` the row `| Extension_x | A | B |` repeats the name
`extension_x`; it adds no entry, but it replaces the labels, so the row `intl`
after it is emitted with `A`, `B`, while without the repeated row it is
emitted with `7.4`, `8.0`: the later row changes the output. -/
theorem duplicate_row_changes_later_rows :
    rowName Char.toLower "| extension_x | X | X |".toList = "extension_x".toList ∧
    rowName Char.toLower "| Extension_x | A | B |".toList = "extension_x".toList ∧
    parsePHPExtensions insertionOrder Char.toLower exampleDuplicateRelabel
      = .ok ("\t\"extension_x\": \x7b\"7.4\", \"8.0\"\x7d,\n".toList ++
          "\t\"intl\":        \x7b\"A\", \"B\"\x7d,\n".toList) ∧
    parsePHPExtensions insertionOrder Char.toLower exampleDuplicateRemoved
      = .ok ("\t\"extension_x\": \x7b\"7.4\", \"8.0\"\x7d,\n".toList ++
          "\t\"intl\":        \x7b\"7.4\", \"8.0\"\x7d,\n".toList) := by
  decide

/-- C16 fails on the code, by the defect of the unguarded header test. In
`exampleNarrowRelabel` the header has two labels and no row has more than two
markers, yet the lookup for the second marker of `intl` is out of range, the
row before it having left a single label. In `exampleWideRelabel` the header
has one label and the row `intl` has a non-empty second marker, yet the lookup
succeeds, the row before it having left three labels. -/
theorem lookup_range_broken_by_relabelling :
    ((dataRows (scanLines exampleNarrowRelabel)).map
        (fun row => (parseLine row).map (fun r => r.2.length)))
      = [.ok 1, .ok 2] ∧
    parsePHPExtensions insertionOrder Char.toLower exampleNarrowRelabel
      = .error .indexOutOfRange ∧
    parseLine "| Extension | 7.4 |".toList = .ok ("Extension".toList, ["7.4".toList]) ∧
    parseLine "| intl | X | X |".toList = .ok ("intl".toList, ["X".toList, "X".toList]) ∧
    parsePHPExtensions insertionOrder Char.toLower exampleWideRelabel
      = .ok ("\t\"extension_x\": \x7b\"7.4\"\x7d,\n".toList ++
          "\t\"intl\":        \x7b\"X\", \"\"\x7d,\n".toList) := by
  decide

/-! ### The runes and the bytes of a line -/

theorem utf8Bytes_append (a b : GoString) : utf8Bytes (a ++ b) = utf8Bytes a ++ utf8Bytes b := by
  simp [utf8Bytes]

theorem utf8Bytes_cons (c : Char) (s : GoString) :
    utf8Bytes (c :: s) = runeBytes c ++ utf8Bytes s := by
  simp [utf8Bytes]

theorem runeBytes_pipe (c : Char) : 0x7c ∈ runeBytes c ↔ c = '|' := by
  have hc : Char.ofNat c.toNat = c := Char.ofNat_toNat c
  unfold runeBytes
  simp only
  constructor
  · intro h
    split at h
    · simp only [List.mem_singleton] at h
      rw [← hc, ← h]
    · split at h
      · simp only [List.mem_cons, List.mem_singleton, List.not_mem_nil, or_false] at h
        omega
      · split at h
        · simp only [List.mem_cons, List.mem_singleton, List.not_mem_nil, or_false] at h
          omega
        · simp only [List.mem_cons, List.mem_singleton, List.not_mem_nil, or_false] at h
          omega
  · intro h
    subst h
    decide

theorem mem_utf8Bytes_pipe (s : GoString) : 0x7c ∈ utf8Bytes s ↔ '|' ∈ s := by
  induction s with
  | nil => simp [utf8Bytes]
  | cons c cs ih =>
    rw [utf8Bytes_cons, List.mem_append, ih, runeBytes_pipe, List.mem_cons]
    constructor
    · rintro (h | h)
      · exact Or.inl h.symm
      · exact Or.inr h
    · rintro (h | h)
      · exact Or.inl h.symm
      · exact Or.inr h

theorem runeBytes_length_pos (c : Char) : 0 < (runeBytes c).length := by
  unfold runeBytes
  simp only
  split_ifs <;> simp

theorem length_le_utf8Bytes (s : GoString) : s.length ≤ (utf8Bytes s).length := by
  induction s with
  | nil => simp
  | cons c cs ih =>
    rw [utf8Bytes_cons, List.length_append, List.length_cons]
    have := runeBytes_length_pos c
    omega

theorem isSpace_iff (c : Char) : isSpace c = true ↔
    (c.toNat = 0x09 ∨ c.toNat = 0x0a ∨ c.toNat = 0x0b ∨ c.toNat = 0x0c ∨ c.toNat = 0x0d ∨
      c.toNat = 0x20 ∨ c.toNat = 0x85 ∨ c.toNat = 0xa0 ∨ c.toNat = 0x1680 ∨
      (0x2000 ≤ c.toNat ∧ c.toNat ≤ 0x200a) ∨ c.toNat = 0x2028 ∨ c.toNat = 0x2029 ∨
      c.toNat = 0x202f ∨ c.toNat = 0x205f ∨ c.toNat = 0x3000) := by
  simp [isSpace, or_assoc]

theorem spaceBytes1_head : ∀ l ∈ spaceBytes1, l.head?.getD 0 < 0x80 := by decide

theorem spaceBytes2_head : ∀ l ∈ spaceBytes2, l.head?.getD 0 = 0xc2 := by decide

theorem spaceBytes3_head :
    ∀ l ∈ spaceBytes3, 0xe1 ≤ l.head?.getD 0 ∧ l.head?.getD 0 ≤ 0xe3 := by decide

theorem take_not_mem_spaceBytes1 (b : Nat) (s : GoBytes) (k : Nat) (h : 0x80 ≤ b) :
    (b :: s).take (k + 1) ∉ spaceBytes1 := by
  intro hm
  have := spaceBytes1_head _ hm
  simp at this
  omega

theorem take_not_mem_spaceBytes2 (b : Nat) (s : GoBytes) (k : Nat) (h : b ≠ 0xc2) :
    (b :: s).take (k + 1) ∉ spaceBytes2 := by
  intro hm
  have := spaceBytes2_head _ hm
  simp at this
  omega

theorem take_not_mem_spaceBytes3 (b : Nat) (s : GoBytes) (k : Nat) (h : b < 0xe1 ∨ 0xe3 < b) :
    (b :: s).take (k + 1) ∉ spaceBytes3 := by
  intro hm
  have := spaceBytes3_head _ hm
  simp at this
  omega

theorem mem_spaceBytes1_iff (n : Nat) :
    [n] ∈ spaceBytes1 ↔ n = 0x09 ∨ n = 0x0a ∨ n = 0x0b ∨ n = 0x0c ∨ n = 0x0d ∨ n = 0x20 := by
  simp [spaceBytes1]

theorem mem_spaceBytes2_iff (n : Nat) (h1 : 0x80 ≤ n) (h2 : n < 0x800) :
    [0xc0 + n / 0x40, 0x80 + n % 0x40] ∈ spaceBytes2 ↔ n = 0x85 ∨ n = 0xa0 := by
  simp only [spaceBytes2, List.mem_cons, List.cons.injEq, and_true, List.mem_singleton,
    List.not_mem_nil, or_false]
  constructor <;> intro h <;> omega

theorem mem_spaceBytes3_iff (n : Nat) (h1 : 0x800 ≤ n) (h2 : n < 0x10000) :
    [0xe0 + n / 0x1000, 0x80 + n / 0x40 % 0x40, 0x80 + n % 0x40] ∈ spaceBytes3 ↔
      n = 0x1680 ∨ (0x2000 ≤ n ∧ n ≤ 0x200a) ∨ n = 0x2028 ∨ n = 0x2029 ∨ n = 0x202f ∨
        n = 0x205f ∨ n = 0x3000 := by
  constructor
  · intro h
    simp only [spaceBytes3, List.mem_cons, List.cons.injEq, and_true, List.mem_singleton,
      List.not_mem_nil, or_false] at h
    omega
  · intro h
    rcases h with h | h | h | h | h | h | h
    · subst h; decide
    · obtain ⟨ha, hb⟩ := h
      interval_cases n <;> decide
    · subst h; decide
    · subst h; decide
    · subst h; decide
    · subst h; decide
    · subst h; decide

theorem leadingSpaceWidth_rune (c : Char) (rest : GoBytes) :
    leadingSpaceWidth (runeBytes c ++ rest) = if isSpace c then (runeBytes c).length else 0 := by
  have hs := isSpace_iff c
  simp only [runeBytes]
  generalize c.toNat = n at hs ⊢
  generalize isSpace c = sp at hs ⊢
  by_cases h1 : n < 0x80
  · simp only [h1, ↓reduceIte, List.singleton_append, List.length_singleton]
    have e : leadingSpaceWidth (n :: rest) = if [n] ∈ spaceBytes1 then 1 else 0 := by
      unfold leadingSpaceWidth
      rw [if_neg (take_not_mem_spaceBytes2 n rest 1 (by omega)),
        if_neg (take_not_mem_spaceBytes3 n rest 2 (by omega))]
      simp
    have hiff : [n] ∈ spaceBytes1 ↔ sp = true := by
      rw [hs, mem_spaceBytes1_iff]
      constructor <;> intro h <;> omega
    rw [e]
    simp only [hiff]
  · by_cases h2 : n < 0x800
    · simp only [h1, h2, ↓reduceIte, List.cons_append, List.nil_append, List.length_cons,
        List.length_nil]
      have e : leadingSpaceWidth ((0xc0 + n / 0x40) :: (0x80 + n % 0x40) :: rest)
          = if [0xc0 + n / 0x40, 0x80 + n % 0x40] ∈ spaceBytes2 then 2 else 0 := by
        unfold leadingSpaceWidth
        rw [if_neg (take_not_mem_spaceBytes1 _ _ 0 (by omega)),
          if_neg (take_not_mem_spaceBytes3 _ _ 2 (by omega))]
        simp
      have hiff : [0xc0 + n / 0x40, 0x80 + n % 0x40] ∈ spaceBytes2 ↔ sp = true := by
        rw [hs, mem_spaceBytes2_iff n (by omega) h2]
        constructor <;> intro h <;> omega
      rw [e]
      simp only [hiff]
    · by_cases h3 : n < 0x10000
      · simp only [h1, h2, h3, ↓reduceIte, List.cons_append, List.nil_append, List.length_cons,
          List.length_nil]
        have e : leadingSpaceWidth
            ((0xe0 + n / 0x1000) :: (0x80 + n / 0x40 % 0x40) :: (0x80 + n % 0x40) :: rest)
            = if [0xe0 + n / 0x1000, 0x80 + n / 0x40 % 0x40, 0x80 + n % 0x40] ∈ spaceBytes3
                then 3 else 0 := by
          unfold leadingSpaceWidth
          rw [if_neg (take_not_mem_spaceBytes1 _ _ 0 (by omega)),
            if_neg (take_not_mem_spaceBytes2 _ _ 1 (by omega))]
          simp
        have hiff : [0xe0 + n / 0x1000, 0x80 + n / 0x40 % 0x40, 0x80 + n % 0x40] ∈ spaceBytes3
            ↔ sp = true := by
          rw [hs, mem_spaceBytes3_iff n (by omega) h3]
          constructor <;> intro h <;> omega
        rw [e]
        simp only [hiff]
      · simp only [h1, h2, h3, ↓reduceIte, List.cons_append, List.nil_append, List.length_cons,
          List.length_nil]
        have hsp : sp = false := by
          cases sp with
          | false => rfl
          | true => have := hs.1 rfl; omega
        subst hsp
        unfold leadingSpaceWidth
        rw [if_neg (take_not_mem_spaceBytes1 _ _ 0 (by omega)),
          if_neg (take_not_mem_spaceBytes2 _ _ 1 (by omega)),
          if_neg (take_not_mem_spaceBytes3 _ _ 2 (by omega))]
        simp

theorem spaceBytes1_last : ∀ l ∈ spaceBytes1, l.reverse.head?.getD 0 < 0x80 := by decide

theorem spaceBytes2_last :
    ∀ l ∈ spaceBytes2, 0x80 ≤ l.reverse.head?.getD 0 ∧ l.reverse[1]?.getD 0 = 0xc2 := by
  decide

theorem spaceBytes3_last :
    ∀ l ∈ spaceBytes3, 0x80 ≤ l.reverse.head?.getD 0 ∧ l.reverse[1]?.getD 0 < 0xc0 ∧
      0xe1 ≤ l.reverse[2]?.getD 0 := by
  decide

theorem lastBytes_append (s pre suf : GoBytes) (k : Nat) (hs : s = pre ++ suf)
    (h : suf.length ≤ k) : ∃ q, s.drop (s.length - k) = q ++ suf := by
  subst hs
  refine ⟨pre.drop (pre.length - (k - suf.length)), ?_⟩
  rw [List.drop_append_eq_append_drop]
  have h1 : (pre ++ suf).length - k = pre.length - (k - suf.length) := by
    simp only [List.length_append]; omega
  have h2 : pre.length - (k - suf.length) - pre.length = 0 := by omega
  rw [h1, h2, List.drop_zero]

theorem lastBytes_exact (pre suf : GoBytes) :
    (pre ++ suf).drop ((pre ++ suf).length - suf.length) = suf := by
  have h1 : (pre ++ suf).length - suf.length = pre.length := by
    simp only [List.length_append]; omega
  rw [h1, List.drop_left]

theorem not_mem_spaceBytes1_of_last (q : GoBytes) (b : Nat) (h : 0x80 ≤ b) :
    q ++ [b] ∉ spaceBytes1 := by
  intro hm
  have := spaceBytes1_last _ hm
  simp at this
  omega

theorem not_mem_spaceBytes2_of_last (q : GoBytes) (b : Nat) (h : b < 0x80) :
    q ++ [b] ∉ spaceBytes2 := by
  intro hm
  have := (spaceBytes2_last _ hm).1
  simp at this
  omega

theorem not_mem_spaceBytes3_of_last (q : GoBytes) (b : Nat) (h : b < 0x80) :
    q ++ [b] ∉ spaceBytes3 := by
  intro hm
  have := (spaceBytes3_last _ hm).1
  simp at this
  omega

theorem not_mem_spaceBytes2_of_second (q : GoBytes) (a b : Nat) (h : a ≠ 0xc2) :
    q ++ [a, b] ∉ spaceBytes2 := by
  intro hm
  have := (spaceBytes2_last _ hm).2
  simp at this
  omega

theorem not_mem_spaceBytes3_of_second (q : GoBytes) (a b : Nat) (h : 0xc0 ≤ a) :
    q ++ [a, b] ∉ spaceBytes3 := by
  intro hm
  have := (spaceBytes3_last _ hm).2.1
  simp at this
  omega

theorem not_mem_spaceBytes3_of_third (q : GoBytes) (a b c : Nat) (h : a < 0xe1) :
    q ++ [a, b, c] ∉ spaceBytes3 := by
  intro hm
  have := (spaceBytes3_last _ hm).2.2
  simp at this
  omega

theorem trailingSpaceWidth_rune (c : Char) (pre : GoBytes) :
    trailingSpaceWidth (pre ++ runeBytes c) = if isSpace c then (runeBytes c).length else 0 := by
  have hs := isSpace_iff c
  simp only [runeBytes]
  generalize c.toNat = n at hs ⊢
  generalize isSpace c = sp at hs ⊢
  by_cases h1 : n < 0x80
  · simp only [h1, ↓reduceIte, List.length_singleton]
    have e : trailingSpaceWidth (pre ++ [n]) = if [n] ∈ spaceBytes1 then 1 else 0 := by
      unfold trailingSpaceWidth
      obtain ⟨q2, hq2⟩ := lastBytes_append (pre ++ [n]) pre [n] 2 rfl (by simp)
      obtain ⟨q3, hq3⟩ := lastBytes_append (pre ++ [n]) pre [n] 3 rfl (by simp)
      have hq1 := lastBytes_exact pre [n]
      simp only [List.length_singleton] at hq1
      rw [hq1, hq2, hq3, if_neg (not_mem_spaceBytes2_of_last q2 n h1),
        if_neg (not_mem_spaceBytes3_of_last q3 n h1)]
    have hiff : [n] ∈ spaceBytes1 ↔ sp = true := by
      rw [hs, mem_spaceBytes1_iff]
      constructor <;> intro h <;> omega
    rw [e]
    simp only [hiff]
  · by_cases h2 : n < 0x800
    · simp only [h1, h2, ↓reduceIte, List.length_cons, List.length_nil]
      have e : trailingSpaceWidth (pre ++ [0xc0 + n / 0x40, 0x80 + n % 0x40])
          = if [0xc0 + n / 0x40, 0x80 + n % 0x40] ∈ spaceBytes2 then 2 else 0 := by
        unfold trailingSpaceWidth
        obtain ⟨q1, hq1⟩ := lastBytes_append (pre ++ [0xc0 + n / 0x40, 0x80 + n % 0x40])
          (pre ++ [0xc0 + n / 0x40]) [0x80 + n % 0x40] 1 (by simp) (by simp)
        obtain ⟨q3, hq3⟩ := lastBytes_append (pre ++ [0xc0 + n / 0x40, 0x80 + n % 0x40])
          pre [0xc0 + n / 0x40, 0x80 + n % 0x40] 3 rfl (by simp)
        have hq2 := lastBytes_exact pre [0xc0 + n / 0x40, 0x80 + n % 0x40]
        simp only [List.length_cons, List.length_nil] at hq2
        rw [hq1, hq2, hq3, if_neg (not_mem_spaceBytes1_of_last q1 _ (by omega)),
          if_neg (not_mem_spaceBytes3_of_second q3 _ _ (by omega))]
      have hiff : [0xc0 + n / 0x40, 0x80 + n % 0x40] ∈ spaceBytes2 ↔ sp = true := by
        rw [hs, mem_spaceBytes2_iff n (by omega) h2]
        constructor <;> intro h <;> omega
      rw [e]
      simp only [hiff]
    · by_cases h3 : n < 0x10000
      · simp only [h1, h2, h3, ↓reduceIte, List.length_cons, List.length_nil]
        have e : trailingSpaceWidth
            (pre ++ [0xe0 + n / 0x1000, 0x80 + n / 0x40 % 0x40, 0x80 + n % 0x40])
            = if [0xe0 + n / 0x1000, 0x80 + n / 0x40 % 0x40, 0x80 + n % 0x40] ∈ spaceBytes3
                then 3 else 0 := by
          unfold trailingSpaceWidth
          obtain ⟨q1, hq1⟩ := lastBytes_append
            (pre ++ [0xe0 + n / 0x1000, 0x80 + n / 0x40 % 0x40, 0x80 + n % 0x40])
            (pre ++ [0xe0 + n / 0x1000, 0x80 + n / 0x40 % 0x40]) [0x80 + n % 0x40] 1
            (by simp) (by simp)
          obtain ⟨q2, hq2⟩ := lastBytes_append
            (pre ++ [0xe0 + n / 0x1000, 0x80 + n / 0x40 % 0x40, 0x80 + n % 0x40])
            (pre ++ [0xe0 + n / 0x1000]) [0x80 + n / 0x40 % 0x40, 0x80 + n % 0x40] 2
            (by simp) (by simp)
          have hq3 := lastBytes_exact pre
            [0xe0 + n / 0x1000, 0x80 + n / 0x40 % 0x40, 0x80 + n % 0x40]
          simp only [List.length_cons, List.length_nil] at hq3
          rw [hq1, hq2, hq3, if_neg (not_mem_spaceBytes1_of_last q1 _ (by omega)),
            if_neg (not_mem_spaceBytes2_of_second q2 _ _ (by omega))]
        have hiff : [0xe0 + n / 0x1000, 0x80 + n / 0x40 % 0x40, 0x80 + n % 0x40] ∈ spaceBytes3
            ↔ sp = true := by
          rw [hs, mem_spaceBytes3_iff n (by omega) h3]
          constructor <;> intro h <;> omega
        rw [e]
        simp only [hiff]
      · simp only [h1, h2, h3, ↓reduceIte, List.length_cons, List.length_nil]
        have hsp : sp = false := by
          cases sp with
          | false => rfl
          | true => have := hs.1 rfl; omega
        subst hsp
        unfold trailingSpaceWidth
        obtain ⟨q1, hq1⟩ := lastBytes_append
          (pre ++ [0xf0 + n / 0x40000, 0x80 + n / 0x1000 % 0x40, 0x80 + n / 0x40 % 0x40,
            0x80 + n % 0x40])
          (pre ++ [0xf0 + n / 0x40000, 0x80 + n / 0x1000 % 0x40, 0x80 + n / 0x40 % 0x40])
          [0x80 + n % 0x40] 1 (by simp) (by simp)
        obtain ⟨q2, hq2⟩ := lastBytes_append
          (pre ++ [0xf0 + n / 0x40000, 0x80 + n / 0x1000 % 0x40, 0x80 + n / 0x40 % 0x40,
            0x80 + n % 0x40])
          (pre ++ [0xf0 + n / 0x40000, 0x80 + n / 0x1000 % 0x40])
          [0x80 + n / 0x40 % 0x40, 0x80 + n % 0x40] 2 (by simp) (by simp)
        obtain ⟨q3, hq3⟩ := lastBytes_append
          (pre ++ [0xf0 + n / 0x40000, 0x80 + n / 0x1000 % 0x40, 0x80 + n / 0x40 % 0x40,
            0x80 + n % 0x40])
          (pre ++ [0xf0 + n / 0x40000])
          [0x80 + n / 0x1000 % 0x40, 0x80 + n / 0x40 % 0x40, 0x80 + n % 0x40] 3
          (by simp) (by simp)
        rw [hq1, hq2, hq3, if_neg (not_mem_spaceBytes1_of_last q1 _ (by omega)),
          if_neg (not_mem_spaceBytes2_of_second q2 _ _ (by omega)),
          if_neg (not_mem_spaceBytes3_of_third q3 _ _ _ (by omega))]
        rfl

theorem leadingSpaceWidth_nil : leadingSpaceWidth [] = 0 := by decide

theorem trailingSpaceWidth_nil : trailingSpaceWidth [] = 0 := by decide

theorem trimLeftSpaceBytes_utf8Bytes (s : GoString) :
    ∀ fuel, s.length ≤ fuel →
      trimLeftSpaceBytes fuel (utf8Bytes s) = utf8Bytes (s.dropWhile isSpace) := by
  induction s with
  | nil =>
    intro fuel _
    cases fuel with
    | zero => rfl
    | succ f =>
      show trimLeftSpaceBytes (f + 1) [] = []
      simp only [trimLeftSpaceBytes, leadingSpaceWidth_nil, ↓reduceIte]
  | cons c cs ih =>
    intro fuel hf
    cases fuel with
    | zero => simp at hf
    | succ f =>
      have hf2 : cs.length ≤ f := by simpa using hf
      rw [utf8Bytes_cons]
      simp only [trimLeftSpaceBytes, leadingSpaceWidth_rune]
      by_cases hsp : isSpace c = true
      · have hpos := runeBytes_length_pos c
        simp only [hsp, ↓reduceIte, List.dropWhile_cons]
        rw [if_neg (by omega), List.drop_left, ih f hf2]
      · simp only [hsp, Bool.false_eq_true, ↓reduceIte, List.dropWhile_cons, utf8Bytes_cons]

theorem trimRightSpaceBytes_utf8Bytes (s : GoString) :
    ∀ fuel, s.length ≤ fuel →
      trimRightSpaceBytes fuel (utf8Bytes s) = utf8Bytes (s.rdropWhile isSpace) := by
  induction s using List.reverseRecOn with
  | nil =>
    intro fuel _
    cases fuel with
    | zero => rfl
    | succ f =>
      show trimRightSpaceBytes (f + 1) [] = []
      simp only [trimRightSpaceBytes, trailingSpaceWidth_nil, ↓reduceIte]
  | append_singleton l c ih =>
    intro fuel hf
    cases fuel with
    | zero => simp at hf
    | succ f =>
      have hf2 : l.length ≤ f := by simpa using hf
      have e : utf8Bytes (l ++ [c]) = utf8Bytes l ++ runeBytes c := by
        rw [utf8Bytes_append, utf8Bytes_cons]
        simp [utf8Bytes]
      rw [e]
      simp only [trimRightSpaceBytes, trailingSpaceWidth_rune, List.rdropWhile_concat]
      by_cases hsp : isSpace c = true
      · have hpos := runeBytes_length_pos c
        have hlen : (utf8Bytes l ++ runeBytes c).length - (runeBytes c).length
            = (utf8Bytes l).length := by
          simp only [List.length_append]; omega
        simp only [hsp, ↓reduceIte]
        rw [if_neg (by omega), hlen, List.take_left, ih f hf2]
      · simp only [hsp, Bool.false_eq_true, ↓reduceIte, e]

theorem trimSpaceBytes_utf8Bytes (s : GoString) :
    trimSpaceBytes (utf8Bytes s) = utf8Bytes (trimSpace s) := by
  unfold trimSpaceBytes trimSpace
  rw [trimLeftSpaceBytes_utf8Bytes s _ (length_le_utf8Bytes s)]
  apply trimRightSpaceBytes_utf8Bytes
  exact le_trans (List.dropWhile_suffix isSpace).length_le (length_le_utf8Bytes s)

/-! ### `parseLine` on the runes and on the bytes -/

theorem utf8Bytes_pipe : utf8Bytes pipe = pipeByte := by decide

theorem utf8Bytes_flatten (l : List GoString) :
    utf8Bytes l.flatten = (l.map utf8Bytes).flatten := by
  induction l with
  | nil => simp [utf8Bytes]
  | cons a l ih => simp [utf8Bytes_append, ih]

theorem utf8Bytes_cells (segs : List GoString) :
    utf8Bytes ((segs.map (fun s => s ++ pipe)).flatten)
      = ((segs.map utf8Bytes).map (fun s => s ++ pipeByte)).flatten := by
  rw [utf8Bytes_flatten, List.map_map, List.map_map]
  congr 1
  apply List.map_congr_left
  intro s _
  simp [Function.comp, utf8Bytes_append, utf8Bytes_pipe]

theorem runeBytes_cons (c : Char) : ∃ b bs, runeBytes c = b :: bs ∧ 0x7c ∉ bs := by
  unfold runeBytes
  simp only
  split_ifs
  · exact ⟨_, _, rfl, by simp⟩
  · exact ⟨_, _, rfl, by simp; omega⟩
  · exact ⟨_, _, rfl, by simp; omega⟩
  · exact ⟨_, _, rfl, by simp; omega⟩

/-- The bytes of a line hold a delimiter after the first byte exactly when the
line holds a delimiter after its first rune: the later bytes of a rune of
several bytes are no delimiter. -/
theorem utf8Bytes_delimiter_iff (line : GoString) :
    (∃ b bs, utf8Bytes line = b :: bs ∧ 0x7c ∈ bs) ↔
      ∃ c rest, line = c :: rest ∧ '|' ∈ rest := by
  cases line with
  | nil => simp [utf8Bytes]
  | cons c rest =>
    obtain ⟨b, bs, hb, hno⟩ := runeBytes_cons c
    have e : utf8Bytes (c :: rest) = b :: (bs ++ utf8Bytes rest) := by
      rw [utf8Bytes_cons, hb]; rfl
    constructor
    · rintro ⟨b', bs', he, hm⟩
      rw [e] at he
      injection he with _ h2
      subst h2
      rcases List.mem_append.1 hm with h | h
      · exact absurd h hno
      · exact ⟨c, rest, rfl, (mem_utf8Bytes_pipe rest).1 h⟩
    · rintro ⟨c', rest', he, hm⟩
      injection he with h1 h2
      subst h1 h2
      exact ⟨b, bs ++ utf8Bytes rest, e,
        List.mem_append.2 (Or.inr ((mem_utf8Bytes_pipe rest).2 hm))⟩

/-- `parseLineBytes` on a first byte, a name text, a delimiter, texts each
followed by a delimiter, and a tail: the loop never runs out of fuel. -/
theorem parseLineBytes_of_cells (c : Nat) (s0 : GoBytes) (segs : List GoBytes) (tail : GoBytes)
    (h0 : 0x7c ∉ s0) (hsegs : ∀ s ∈ segs, 0x7c ∉ s) (htail : 0x7c ∉ tail) :
    parseLineBytes (c :: (s0 ++ 0x7c :: ((segs.map (fun s => s ++ pipeByte)).flatten ++ tail)))
      = .ok (trimSpaceBytes s0, segs.map trimSpaceBytes) := by
  generalize hrest : (segs.map (fun s => s ++ pipeByte)).flatten ++ tail = rest
  have hs : sliceFrom (c :: (s0 ++ 0x7c :: rest)) 1 = .ok (s0 ++ 0x7c :: rest) := by
    have := sliceFrom_append [c] (s0 ++ 0x7c :: rest)
    simpa using this
  have hidx : stringsIndex (s0 ++ 0x7c :: rest) pipeByte = (s0.length : Int) :=
    stringsIndex_byte_found s0 rest h0
  have hc : slice (c :: (s0 ++ 0x7c :: rest)) 1 ((s0.length : Int) + 1) = .ok s0 := by
    have := slice_append [c] s0 (0x7c :: rest)
    have e : ((([c] : GoBytes).length + s0.length : Nat) : Int) = (s0.length : Int) + 1 := by
      simp only [List.length_singleton]; push_cast; ring
    rw [e] at this
    simpa using this
  have hloop := parseLineLoopBytes_cells segs tail (c :: s0) []
    ((c :: (s0 ++ 0x7c :: rest)).length + 1) hsegs htail (by
      rw [← hrest]
      simp only [List.length_cons, List.length_append, List.length_flatten, List.map_map]
      have : segs.length ≤ (List.map (List.length ∘ fun s => s ++ pipeByte) segs).sum := by
        clear hsegs hrest
        induction segs with
        | nil => simp
        | cons a l ih => simp [pipeByte] at ih ⊢; omega
      omega)
  rw [hrest] at hloop
  have e2 : (((c :: s0).length : Nat) : Int) = (s0.length : Int) + 1 := by
    simp only [List.length_cons]; push_cast; ring
  rw [e2] at hloop
  simp only [List.cons_append] at hloop
  simp only [parseLineBytes, hs, hidx, hc, hloop, List.nil_append]

theorem parseLineBytes_ok_of_delimiter (c : Nat) (rest : GoBytes) (h : 0x7c ∈ rest) :
    ∃ r, parseLineBytes (c :: rest) = .ok r := by
  obtain ⟨s0, segs, tail, h0, hsegs, htail, rfl⟩ := exists_byte_cell_decomposition rest h
  exact ⟨_, parseLineBytes_of_cells c s0 segs tail h0 hsegs htail⟩

theorem parseLineBytes_error_of_no_delimiter (line : GoBytes)
    (h : ¬ ∃ c rest, line = c :: rest ∧ 0x7c ∈ rest) :
    parseLineBytes line = .error .sliceOutOfRange := by
  cases line with
  | nil => simp [parseLineBytes, sliceFrom]
  | cons c rest =>
    have hno : 0x7c ∉ rest := fun hmem => h ⟨c, rest, rfl, hmem⟩
    have hs : sliceFrom (c :: rest) 1 = .ok rest := by
      have := sliceFrom_append [c] rest
      simpa using this
    have hsl : slice (c :: rest) 1 0 = .error .sliceOutOfRange := by
      simp [slice]
    simp only [parseLineBytes, hs, stringsIndex_byte_absent rest hno]
    rw [show (-1 : Int) + 1 = 0 from rfl, hsl]

/-- On the text of a line `parseLineBytes` returns a result exactly when the
line is not empty and holds a delimiter after its first rune. -/
theorem parseLineBytes_ok_iff (line : GoString) :
    (∃ r, parseLineBytes (utf8Bytes line) = .ok r) ↔
      ∃ c rest, line = c :: rest ∧ '|' ∈ rest := by
  rw [← utf8Bytes_delimiter_iff]
  constructor
  · rintro ⟨r, hr⟩
    by_contra hno
    rw [parseLineBytes_error_of_no_delimiter _ hno] at hr
    exact Except.noConfusion hr
  · rintro ⟨b, bs, he, hm⟩
    rw [he]
    exact parseLineBytes_ok_of_delimiter b bs hm

theorem parseLineBytes_error_of_no_pipe (line : GoString)
    (h : ¬ ∃ c rest, line = c :: rest ∧ '|' ∈ rest) :
    parseLineBytes (utf8Bytes line) = .error .sliceOutOfRange :=
  parseLineBytes_error_of_no_delimiter _ (fun hb => h ((utf8Bytes_delimiter_iff line).1 hb))

/-- The two embeddings of `parseLine` agree on every line whose first rune
takes one byte: the result on the bytes of the line is the encoding of the
result on its runes, and they fail together. -/
theorem parseLineBytes_utf8Bytes (c : Char) (rest : GoString) (hc : c.toNat < 0x80) :
    parseLineBytes (utf8Bytes (c :: rest)) =
      (parseLine (c :: rest)).map (fun r => (utf8Bytes r.1, r.2.map utf8Bytes)) := by
  have hb : runeBytes c = [c.toNat] := by simp [runeBytes, hc]
  by_cases h : '|' ∈ rest
  · obtain ⟨s0, segs, tail, h0, hsegs, htail, rfl⟩ := exists_cell_decomposition rest h
    have hp : runeBytes '|' = [0x7c] := by decide
    have e : utf8Bytes (c :: (s0 ++ '|' :: ((segs.map (fun s => s ++ pipe)).flatten ++ tail)))
        = c.toNat :: (utf8Bytes s0 ++ 0x7c ::
            (((segs.map utf8Bytes).map (fun s => s ++ pipeByte)).flatten ++ utf8Bytes tail)) := by
      rw [utf8Bytes_cons, hb, utf8Bytes_append, utf8Bytes_cons, utf8Bytes_append,
        utf8Bytes_cells, hp]
      rfl
    have hsegs2 : ∀ s ∈ segs.map utf8Bytes, 0x7c ∉ s := by
      intro s hs
      obtain ⟨t, ht, rfl⟩ := List.mem_map.1 hs
      exact fun hm => hsegs t ht ((mem_utf8Bytes_pipe t).1 hm)
    rw [e, parseLine_of_cells c s0 segs tail h0 hsegs htail,
      parseLineBytes_of_cells _ _ _ _ (fun hm => h0 ((mem_utf8Bytes_pipe s0).1 hm)) hsegs2
        (fun hm => htail ((mem_utf8Bytes_pipe tail).1 hm))]
    simp [Except.map, trimSpaceBytes_utf8Bytes, List.map_map, Function.comp]
  · rw [parseLine_error_of_no_delimiter _
      (by rintro ⟨c1, rest1, he, hm⟩; injection he with h1 h2; subst h1 h2; exact h hm)]
    rw [parseLineBytes_error_of_no_pipe _
      (by rintro ⟨c1, rest1, he, hm⟩; injection he with h1 h2; subst h1 h2; exact h hm)]
    rfl

/-- For the lines `parsePHPExtensions` passes to `parseLine`, those that start
with `| ` or with `| Extension`, the result of `parseLine` on the runes is the
result of the Go function on the bytes of the line. -/
theorem parseLine_faithful_on_rows (line : GoString)
    (h : hasPrefix line rowPrefix = true ∨ hasPrefix line headerPrefix = true) :
    parseLineBytes (utf8Bytes line) =
      (parseLine line).map (fun r => (utf8Bytes r.1, r.2.map utf8Bytes)) := by
  obtain ⟨rest, rfl, _⟩ := parseLine_called_on_delimiter line h
  exact parseLineBytes_utf8Bytes '|' rest (by decide)

/-! ### Slice bounds of `parseLine` -/

/-- C17 as stated fails: the row `| ---` starts with `| ` and has no second
delimiter, so `parseLine` would fail on it, yet the run does not abort: the
row is skipped before `parseLine` is called and the table continues. -/
theorem open_separator_row_counterexample :
    hasPrefix "| ---".toList rowPrefix = true ∧
    '|' ∉ "| ---".toList.drop 1 ∧
    parseLine "| ---".toList = .error .sliceOutOfRange ∧
    scanLoop Char.toLower initState ["| Extension | 7.4 |".toList]
      = .ok (exampleHeaderState74, false) ∧
    loopBody Char.toLower exampleHeaderState74 "| ---".toList
      = .ok (.next exampleHeaderState74) ∧
    parsePHPExtensions insertionOrder Char.toLower exampleOpenSeparator
      = .ok "\t\"foo\": \x7b\"7.4\"\x7d,\n".toList := by
  decide

/-- C17, amended (slice bounds of `parseLine`). `parseLine` returns a result
exactly for the lines that are not empty and hold a delimiter after their first
character; for every other line a slice expression is out of range (for a
non-empty line it is `line[1:next]` with `next = 0`). Hence a row that the
loop reaches in a started table, that starts with `| ` but not with `| ---`,
and holds no further delimiter aborts the run with that error: it neither
ends nor continues the table. A row that starts with `| ---` is skipped before
`parseLine` is called, whether or not it holds a further delimiter. The
first two statements are given for `parseLine` on the runes and for
`parseLineBytes` on the bytes of the line. -/
theorem parseLine_slice_bounds (ro : RangeOrder) (lower : Char → Char) (body : GoString)
    (pre : List GoString) (row : GoString) (post : List GoString) (st : ParseState)
    (hlines : scanLines body = pre ++ row :: post)
    (hreach : scanLoop lower initState pre = .ok (st, false))
    (hstarted : st.started = true)
    (hsep : hasPrefix row separatorPrefix = false) (hrow : hasPrefix row rowPrefix = true)
    (hopen : '|' ∉ row.drop 1) :
    (∀ line : GoString,
      (∃ r, parseLine line = .ok r) ↔ ∃ c rest, line = c :: rest ∧ '|' ∈ rest) ∧
    (∀ line : GoString, (¬ ∃ c rest, line = c :: rest ∧ '|' ∈ rest) →
      parseLine line = .error .sliceOutOfRange) ∧
    (∀ line : GoString,
      (∃ r, parseLineBytes (utf8Bytes line) = .ok r) ↔
        ∃ c rest, line = c :: rest ∧ '|' ∈ rest) ∧
    (∀ line : GoString, (¬ ∃ c rest, line = c :: rest ∧ '|' ∈ rest) →
      parseLineBytes (utf8Bytes line) = .error .sliceOutOfRange) ∧
    stringsIndex (row.drop 1) pipe + 1 = 0 ∧
    slice row 1 (stringsIndex (row.drop 1) pipe + 1) = .error .sliceOutOfRange ∧
    parseLine row = .error .sliceOutOfRange ∧
    loopBody lower st row = .error .sliceOutOfRange ∧
    parsePHPExtensions ro lower body = .error .sliceOutOfRange ∧
    ∀ (st0 : ParseState) (sep : GoString), st0.started = true →
      hasPrefix sep separatorPrefix = true → loopBody lower st0 sep = .ok (.next st0) := by
  have hiff : ∀ line : GoString,
      (∃ r, parseLine line = .ok r) ↔ ∃ c rest, line = c :: rest ∧ '|' ∈ rest := by
    intro line
    constructor
    · rintro ⟨r, hr⟩
      by_contra hno
      rw [parseLine_error_of_no_delimiter line hno] at hr
      exact Except.noConfusion hr
    · rintro ⟨c, rest, rfl, hmem⟩
      exact parseLine_ok_of_delimiter c rest hmem
  have hrowerr : parseLine row = .error .sliceOutOfRange := by
    apply parseLine_error_of_no_delimiter
    rintro ⟨c, rest, rfl, hmem⟩
    exact hopen (by simpa using hmem)
  have hidx : stringsIndex (row.drop 1) pipe + 1 = 0 := by
    rw [stringsIndex_pipe_absent _ hopen]
    rfl
  have hb := loopBody_parse_error lower st row _ hstarted hsep hrow hrowerr
  refine ⟨hiff, parseLine_error_of_no_delimiter, parseLineBytes_ok_iff,
    parseLineBytes_error_of_no_pipe, hidx, ?_, hrowerr, hb,
    parsePHPExtensions_error_at ro lower body pre row post st _ hlines hreach hb,
    fun st0 sep hst0 hs => loopBody_separator lower st0 sep hst0 hs⟩
  rw [hidx]
  simp [slice]

/-- Witness of C17, amended: the row `| foo`. -/
theorem parseLine_slice_bounds_witness :
    (∀ line : GoString,
      (∃ r, parseLine line = .ok r) ↔ ∃ c rest, line = c :: rest ∧ '|' ∈ rest) ∧
    (∀ line : GoString, (¬ ∃ c rest, line = c :: rest ∧ '|' ∈ rest) →
      parseLine line = .error .sliceOutOfRange) ∧
    (∀ line : GoString,
      (∃ r, parseLineBytes (utf8Bytes line) = .ok r) ↔
        ∃ c rest, line = c :: rest ∧ '|' ∈ rest) ∧
    (∀ line : GoString, (¬ ∃ c rest, line = c :: rest ∧ '|' ∈ rest) →
      parseLineBytes (utf8Bytes line) = .error .sliceOutOfRange) ∧
    stringsIndex ("| foo".toList.drop 1) pipe + 1 = 0 ∧
    slice "| foo".toList 1 (stringsIndex ("| foo".toList.drop 1) pipe + 1)
      = .error .sliceOutOfRange ∧
    parseLine "| foo".toList = .error .sliceOutOfRange ∧
    loopBody Char.toLower exampleHeaderState74 "| foo".toList = .error .sliceOutOfRange ∧
    parsePHPExtensions insertionOrder Char.toLower exampleOpenRow = .error .sliceOutOfRange ∧
    ∀ (st0 : ParseState) (sep : GoString), st0.started = true →
      hasPrefix sep separatorPrefix = true →
      loopBody Char.toLower st0 sep = .ok (.next st0) :=
  parseLine_slice_bounds insertionOrder Char.toLower exampleOpenRow
    ["| Extension | 7.4 |".toList, "| --- | --- |".toList] "| foo".toList []
    exampleHeaderState74 (by decide) (by decide) (by decide) (by decide) (by decide) (by decide)

/-! ### Instances of the lemmas on the labels held -/

/-- The scenario of the specification: the header `| Extension | 7.4 | 8.0 |`, a separator row and
the row of `intl` with the markers `X` and empty; the text is the single line
of `intl` with the list `{"7.4"}`. -/
theorem availability_against_held_labels_instance :
    parsePHPExtensions insertionOrder Char.toLower exampleTable
      = .ok "\t\"intl\": \x7b\"7.4\"\x7d,\n".toList ∧
    ∃ (before after : GoString) (maxNameLen : Nat),
      "\t\"intl\": \x7b\"7.4\"\x7d,\n".toList = before ++
        extensionLine maxNameLen "intl".toList ["7.4".toList] ++ after :=
  ⟨by decide,
   availability_against_held_labels insertionOrder Char.toLower exampleTable
    ["| Extension | 7.4 | 8.0 |".toList, "| --- | --- | --- |".toList]
    "| \x60intl\x60 | X |  |".toList [] exampleHeaderState "\x60intl\x60".toList
    ["X".toList, []] "\t\"intl\": \x7b\"7.4\"\x7d,\n".toList
    (by decide) (by decide) (by decide) (by decide) (by decide) (by decide) (by decide)
    (by decide) (by decide)⟩


/-- The scenario of the repeated name: the rows `Imagick` (marked for 7.4) and `imagick` (marked for
8.0) give the single line of `imagick` with the list of the first row. -/
theorem duplicate_rows_add_no_entry_instance :
    parsePHPExtensions insertionOrder Char.toLower exampleDuplicates
      = .ok "\t\"imagick\": \x7b\"7.4\"\x7d,\n".toList ∧
    ((∃ st3, loopBody Char.toLower exampleImagickState "| \x60imagick\x60 |  | X |".toList
        = .ok (.next st3) ∧
      st3.extensions = exampleImagickState.extensions ∧
      st3.orderedExtensionNames = exampleImagickState.orderedExtensionNames) ∧
    ∃ (stF : ParseState) (b : Bool),
      scanLoop Char.toLower initState (scanLines exampleDuplicates) = .ok (stF, b) ∧
      "\t\"imagick\": \x7b\"7.4\"\x7d,\n".toList
        = (stF.extensions.map (fun e =>
            extensionLine (maxNameLenOf (mapKeys stF.extensions)) e.1 e.2)).flatten ∧
      stF.extensions.filter (fun e => decide (e.1 = "imagick".toList))
        = [("imagick".toList, ["7.4".toList])]) :=
  ⟨by decide,
   duplicate_rows_add_no_entry insertionOrder Char.toLower exampleDuplicates
    ["| Extension | 7.4 | 8.0 |".toList, "| --- | --- | --- |".toList]
    "| \x60Imagick\x60 | X |  |".toList [] "| \x60imagick\x60 |  | X |".toList []
    exampleHeaderState exampleImagickState
    "\x60Imagick\x60".toList ["X".toList, []] "\x60imagick\x60".toList [[], "X".toList]
    "\t\"imagick\": \x7b\"7.4\"\x7d,\n".toList
    (by decide) (by decide) (by decide) (by decide) (by decide) (by decide) (by decide)
    (by decide) (by decide) (by decide) (by decide) (by decide) (by decide) (by decide)⟩

/-- The row `| foo | X | X |` under the single label `7.4`. -/
theorem marker_lookup_against_held_labels_instance :
    (["X".toList, "X".toList].length ≤ exampleHeaderState74.versions.length →
      collectVersions exampleHeaderState74.versions 0 ["X".toList, "X".toList] []
        = .ok (((["X".toList, "X".toList].zip exampleHeaderState74.versions).filter
            (fun p => p.1 ≠ [])).map Prod.snd) ∧
      ∃ st1, loopBody Char.toLower exampleHeaderState74 "| foo | X | X |".toList
        = .ok (.next st1)) ∧
    (∀ (i : Nat) (m : GoString), ["X".toList, "X".toList].get? i = some m → m ≠ [] →
      exampleHeaderState74.versions.length ≤ i →
      collectVersions exampleHeaderState74.versions 0 ["X".toList, "X".toList] []
        = .error .indexOutOfRange ∧
      loopBody Char.toLower exampleHeaderState74 "| foo | X | X |".toList
        = .error .indexOutOfRange ∧
      parsePHPExtensions insertionOrder Char.toLower exampleExtraMarker
        = .error .indexOutOfRange) :=
  marker_lookup_against_held_labels insertionOrder Char.toLower exampleExtraMarker
    ["| Extension | 7.4 |".toList, "| --- | --- |".toList] "| foo | X | X |".toList []
    exampleHeaderState74 "foo".toList ["X".toList, "X".toList]
    (by decide) (by decide) (by decide) (by decide) (by decide) (by decide) (by decide)

end PlatformshConfigGenerator
